import Mathlib

/-!
FBM_Extension: product matching, deal classification and listing dedup.

A shallow embedding of `src/utils/product-checker.js` and of the listing
pipeline of `src/background.js`, with the properties proved about them.

Modelling conventions.

* A JavaScript string is a `List Char`.  `String.prototype.includes`,
  `replace(/[^a-z0-9]/g, '')` and the regular expressions of the source are
  written out as list functions.
* `String.prototype.toLowerCase` is the case mapping of the Unicode standard.
  Where the source keeps only the characters `[a-z0-9]` of its result
  (`normalizeTitle`, `normalizeText`), `JS.toLowerCase` gives that result
  exactly.  Where the source reads the whole result (`containsExcludedWords`),
  the mapping is an argument `lowerCase` of the pipeline, and the properties
  are proved for every mapping; the examples on ASCII text take
  `JS.toLowerCase`, which is the mapping itself on such text.
* A JavaScript number that holds an integer is an `Int` (or a `Nat` where the
  source can only produce a non-negative value).  A Number is an IEEE double:
  `parseInt` and `+` give the Number nearest to the exact result (`JS.toNumber`,
  `JS.plus`), which is the exact result up to `2^53`; comparisons are exact.
  The value `Infinity`, which a run of more than 308 digits can give, is not
  modelled.  A similarity ratio is a rational number; the double division of
  the source agrees with it on every comparison made here as long as the
  strings are shorter than `2^26` characters.
* A JavaScript `Set` is the list of its elements in insertion order.
* `chrome.storage.local` is a record of the keys the pipeline touches; a call
  of `set` may throw, which an oracle given to the pipeline decides.
* `console.log` and the notification transport are not modelled; the call of
  `sendTelegramMessage` is recorded as an effect.
-/

set_option autoImplicit false

/-! ## Built-ins of the language -/

namespace JS

/-- Lower-casing of one character, as far as the characters `[a-z0-9]` of the
result go.  The ASCII capitals, and the two characters outside ASCII whose
lower case contains an ASCII letter (KELVIN SIGN and LATIN CAPITAL LETTER I
WITH DOT ABOVE), are mapped as `toLowerCase` maps them; every other character
is left as it is, where `toLowerCase` gives it or another character outside
`[a-z0-9]`. -/
def lowerChar (c : Char) : List Char :=
  if 'A' ≤ c ∧ c ≤ 'Z' then [Char.ofNat (c.toNat + 32)]
  else if c = Char.ofNat 0x212A then ['k']
  else if c = Char.ofNat 0x0130 then ['i', Char.ofNat 0x0307]
  else [c]

/-- The method `String.prototype.toLowerCase` on ASCII text; on any text, the
method up to the characters outside `[a-z0-9]` of its result, which the
filter of `normalizeTitle` and `normalizeText` removes. -/
def toLowerCase (s : List Char) : List Char :=
  s.flatMap lowerChar

/-- The call `s.includes(t)` : `t` occurs in `s` as a contiguous block. -/
def includes : List Char → List Char → Bool
  | [], t => t.isEmpty
  | c :: s, t => t.isPrefixOf (c :: s) || includes s t

/-- The character class `\d`. -/
def isDigit (c : Char) : Bool :=
  decide ('0' ≤ c ∧ c ≤ '9')

/-- The character class `[a-z0-9]`. -/
def isLowerAlnum (c : Char) : Bool :=
  decide ('a' ≤ c ∧ c ≤ 'z') || isDigit c

/-- The first match of `/\d+/` : the leftmost maximal run of decimal digits. -/
def matchDigits : List Char → Option (List Char)
  | [] => none
  | c :: s => if isDigit c then some ((c :: s).takeWhile isDigit) else matchDigits s

/-- The integer that a run of decimal digits writes in base 10. -/
def digitsValue (ds : List Char) : Nat :=
  ds.foldl (fun acc c => 10 * acc + (c.toNat - '0'.toNat)) 0

/-- The spacing of the Numbers around `n` : the least power of two `u`, among
`u`, `2 * u`, `4 * u` and so on, with `n / u < 2^53`. -/
def spacing : Nat → Nat → Nat → Nat
  | 0, _, u => u
  | fuel + 1, n, u => if n / u < 9007199254740992 then u else spacing fuel n (2 * u)

/-- The Number (IEEE double) nearest to the integer `n`, as an integer: `n` is
rounded to 53 significant bits, a tie going to the even significand. -/
def toNumber (n : Nat) : Nat :=
  let ulp := spacing n n 1
  let q := n / ulp
  let r := n % ulp
  if 2 * r < ulp then q * ulp
  else if ulp < 2 * r then (q + 1) * ulp
  else if q % 2 = 0 then q * ulp else (q + 1) * ulp

/-- The sum `x + y` of two Numbers that hold integers: the Number nearest to
the exact sum. -/
def plus (x y : Int) : Int :=
  if x + y < 0 then -((toNumber (x + y).natAbs : Nat) : Int)
  else ((toNumber (x + y).natAbs : Nat) : Int)

/-- The call `parseInt(ds, 10)` on a run of decimal digits: the Number nearest
to the integer that the digits write. -/
def parseInt (ds : List Char) : Nat :=
  toNumber (digitsValue ds)

/-- The constant `Number.MAX_SAFE_INTEGER`. -/
def MAX_SAFE_INTEGER : Nat := 9007199254740991

/-- Insertion of `x` in front of a list sorted by the comparator `cmp`: `x`
goes after `y` only when `cmp x y > 0`. -/
def sortInsert {α β : Type} [Zero β] [LT β] [DecidableRel (fun (a b : β) => a < b)]
    (cmp : α → α → β) (x : α) : List α → List α
  | [] => [x]
  | y :: ys => if 0 < cmp x y then y :: sortInsert cmp x ys else x :: y :: ys

/-- The method `Array.prototype.sort(cmp)`, which is stable: elements that the comparator
does not separate keep their order. -/
def sort {α β : Type} [Zero β] [LT β] [DecidableRel (fun (a b : β) => a < b)]
    (cmp : α → α → β) (l : List α) : List α :=
  l.foldr (sortInsert cmp) []

/-- The call `set.add(x)` on a `Set` kept in insertion order. -/
def setAdd {α : Type} [DecidableEq α] (s : List α) (x : α) : List α :=
  if x ∈ s then s else s ++ [x]

/-- The constructor `new Set(xs)`, and `xs.forEach(x => set.add(x))` from a given set. -/
def setAddAll {α : Type} [DecidableEq α] (s : List α) (xs : List α) : List α :=
  xs.foldl setAdd s

/-- The call `xs.slice(-n)` : the last `n` elements. -/
def sliceLast {α : Type} (n : Nat) (xs : List α) : List α :=
  xs.drop (xs.length - n)

end JS

/-! ## Data model -/

/-- One tracked product of the catalog. -/
structure Product where
  name : List Char
  minPrice : Int
  maxPrice : Int
  preferred : Bool
deriving DecidableEq, Repr

/-- The object returned by both `checkProduct` functions. -/
structure MatchResult where
  productName : Option (List Char)
  isGoodDeal : Bool
  nearGoodDeal : Bool
  preferred : Bool
deriving DecidableEq, Repr

/-- The result returned when no product is matched. -/
def MatchResult.noMatch : MatchResult :=
  { productName := none, isGoodDeal := false, nearGoodDeal := false, preferred := false }

/-! ## `src/utils/product-checker.js` -/

namespace ProductChecker

/-- The function `normalizeTitle(title)`. -/
def normalizeTitle (title : List Char) : List Char :=
  (JS.toLowerCase title).filter JS.isLowerAlnum

/-- The function `parsePrice(price)`. -/
def parsePrice (price : List Char) : Option Nat :=
  (JS.matchDigits price).map JS.parseInt

/-- One row of the matrix of `levenshteinDistance`, from column `j` on: `bc` is
the character `b[i-1]`, the second argument the rest of `a` from `a[j-1]`, the
third the previous row from column `j-1`, and `left` the entry `matrix[i][j-1]`. -/
def fillRow (bc : Char) : List Char → List Nat → Nat → List Nat
  | aj :: as, diag :: up :: rest, left =>
      let cost := if aj = bc then 0 else 1
      let v := min (up + 1) (min (left + 1) (diag + cost))
      v :: fillRow bc as (up :: rest) v
  | _, _, _ => []

/-- The rows of the matrix after the characters of `b` are consumed; `i` is
the index of the row `prev`. -/
def fillRows (a : List Char) : List Char → Nat → List Nat → List Nat
  | [], _, prev => prev
  | bc :: bs, i, prev => fillRows a bs (i + 1) ((i + 1) :: fillRow bc a prev (i + 1))

/-- The function `levenshteinDistance(a, b)` of `getCloseMatches`. -/
def levenshteinDistance (a b : List Char) : Nat :=
  if a.length = 0 then b.length
  else if b.length = 0 then a.length
  else ((fillRows a b 0 (List.range (a.length + 1))).getLast?).getD 0

/-- The function `similarityRatio(a, b)` of `getCloseMatches`. -/
def similarityRatio (a b : List Char) : ℚ :=
  let distance := levenshteinDistance a b
  let maxLength := max a.length b.length
  if maxLength = 0 then 1 else (((maxLength : Int) - (distance : Int) : Int) : ℚ) / (maxLength : ℚ)

/-- The function `getCloseMatches(word, possibilities, n, cutoff)`. -/
def getCloseMatches (word : List Char) (possibilities : List (List Char)) (n : Nat)
    (cutoff : ℚ) : List (List Char) :=
  let similarities := possibilities.map (fun possibility => (possibility, similarityRatio word possibility))
  (((JS.sort (fun a b => b.2 - a.2) (similarities.filter (fun item => decide (cutoff ≤ item.2)))).take n).map
    (fun item => item.1))

/-- The objects `{ originalName, normalizedName }` of `matchTitleToProducts`. -/
structure NormalizedProduct where
  originalName : List Char
  normalizedName : List Char
deriving DecidableEq, Repr

/-- The comparator `(a, b) => b.normalizedName.length - a.normalizedName.length`. -/
def byLengthDesc (a b : NormalizedProduct) : Int :=
  (b.normalizedName.length : Int) - (a.normalizedName.length : Int)

/-- The object built for one product by the first `map` of
`matchTitleToProducts`. -/
def toNormalized (product : Product) : NormalizedProduct :=
  { originalName := product.name, normalizedName := normalizeTitle product.name }

/-- The function `matchTitleToProducts(title, products)`. -/
def matchTitleToProducts (title : List Char) (products : List Product) : List NormalizedProduct :=
  let normalizedTitle := normalizeTitle title
  let normalizedProducts : List NormalizedProduct := products.map toNormalized
  let «matches» := normalizedProducts.filter (fun product =>
    JS.includes normalizedTitle product.normalizedName)
  if 0 < «matches».length then
    (JS.sort byLengthDesc «matches»).take 1
  else
    let allNormalizedNames := normalizedProducts.map (fun p => p.normalizedName)
    let fuzzyMatches := normalizedProducts.filter (fun product =>
      let closeMatch := getCloseMatches normalizedTitle allNormalizedNames 1 (7 / 10)
      decide (0 < closeMatch.length) && decide (some product.normalizedName = closeMatch.head?))
    if 0 < fuzzyMatches.length then
      (JS.sort byLengthDesc fuzzyMatches).take 1
    else
      []

/-- The `price` argument of `checkProduct` : a string or a number. -/
inductive PriceArg where
  | text (s : List Char)
  | number (n : Int)
deriving DecidableEq, Repr

/-- The local `product` of `checkProduct` : the first product of the catalog
whose normalized name is that of the best match. -/
def findProduct (title : List Char) (products : List Product) : Option Product :=
  match matchTitleToProducts title products with
  | [] => none
  | «match» :: _ => products.find? (fun p => decide (normalizeTitle p.name = «match».normalizedName))

/-- The function `checkProduct(title, price, products)` of `product-checker.js`. -/
def checkProduct (title : List Char) (price : PriceArg) (products : List Product) : MatchResult :=
  if products.length = 0 then MatchResult.noMatch
  else
    match findProduct title products with
    | none => MatchResult.noMatch
    | some product =>
        let numericPrice : Option Int :=
          match price with
          | PriceArg.text s => (parsePrice s).map (fun n => (n : Int))
          | PriceArg.number n => some n
        let isGoodDeal := match numericPrice with
          | none => false
          | some p => decide (p < product.maxPrice)
        let nearGoodDeal := match numericPrice with
          | none => false
          | some p => decide (product.maxPrice ≤ p) && decide (p ≤ JS.plus product.maxPrice 100)
        { productName := some product.name
          isGoodDeal := isGoodDeal
          nearGoodDeal := nearGoodDeal
          preferred := product.preferred || false }

/-- A product is an exact candidate for a title when its normalized name
occurs in the normalized title. -/
def isCandidate (title : List Char) (product : Product) : Prop :=
  normalizeTitle product.name <:+: normalizeTitle title

/-- A product is a fuzzy candidate for a title when the similarity ratio of
the normalized title and its normalized name reaches the cutoff `0.7`. -/
def isFuzzy (title : List Char) (product : Product) : Prop :=
  (7 / 10 : ℚ) ≤ similarityRatio (normalizeTitle title) (normalizeTitle product.name)

/-- The pair that `getCloseMatches` builds for the name of a product. -/
def toSimilarity (title : List Char) (product : Product) : List Char × ℚ :=
  (normalizeTitle product.name, similarityRatio (normalizeTitle title) (normalizeTitle product.name))

end ProductChecker

/-! ## `src/background.js` -/

namespace Background

/-- One scraped listing `{ link, price, title }`. -/
structure Listing where
  link : List Char
  price : List Char
  title : List Char
deriving DecidableEq, Repr

/-- The fields of the settings object that `processListings` reads;
`excludedWords` may be missing. -/
structure Settings where
  excludedWords : Option (List (List Char))
  products : List Product
  modeOnlyPreferred : Bool
  nearGoodDeals : Bool
  goodDeals : Bool
deriving DecidableEq, Repr

/-- The fields of the global `state` that the pipeline reads or writes. -/
structure State where
  isMonitoring : Bool
  seenListings : List (List Char)
  firstRun : Bool
  firstRunKeywords : List (List Char)
deriving DecidableEq, Repr

/-- The keys of `chrome.storage.local` that the pipeline reads or writes. -/
structure Storage where
  seenListings : Option (List (List Char))
  firstRun : Option Bool
  firstRunKeywords : Option (List (List Char))
deriving DecidableEq, Repr

/-- The argument of a call of `chrome.storage.local.set`. -/
inductive SetRequest where
  | firstRunStatus (firstRun : Bool) (firstRunKeywords : List (List Char))
  | seenListings (ids : List (List Char))
deriving DecidableEq, Repr

/-- The storage after a successful `set`. -/
def Storage.write (storage : Storage) : SetRequest → Storage
  | SetRequest.firstRunStatus firstRun firstRunKeywords =>
      { storage with firstRun := some firstRun, firstRunKeywords := some firstRunKeywords }
  | SetRequest.seenListings ids => { storage with seenListings := some ids }

/-- What `processListings` does to the outside, in the order it does it. -/
inductive Effect where
  | storageSet (request : SetRequest) (ok : Bool)
  | sendMessage (listing : Listing) (productResult : MatchResult) (initialText : List Char)
deriving DecidableEq, Repr

/-- The first match of `/marketplace\/item\/(\d+)/` : its group 1. -/
def matchItemId : List Char → Option (List Char)
  | [] => none
  | c :: s =>
      if "marketplace/item/".toList.isPrefixOf (c :: s) ∧
          ((c :: s).drop 17).takeWhile JS.isDigit ≠ [] then
        some (((c :: s).drop 17).takeWhile JS.isDigit)
      else matchItemId s

/-- The part `\/?(?:\?|$)` of the second pattern, tried where the digits end. -/
def altTail : List Char → Bool
  | [] => true
  | '?' :: _ => true
  | ['/'] => true
  | '/' :: '?' :: _ => true
  | _ => false

/-- The first match of `/\/(\d+)\/?(?:\?|$)/` : its group 1.  The group is the
whole run of digits after the slash: a shorter one is followed by a digit,
where the rest of the pattern cannot match. -/
def matchAltId : List Char → Option (List Char)
  | [] => none
  | c :: s =>
      if c = '/' ∧ s.takeWhile JS.isDigit ≠ [] ∧ altTail (s.dropWhile JS.isDigit) = true then
        some (s.takeWhile JS.isDigit)
      else matchAltId s

/-- The function `extractListingId(link)`. -/
def extractListingId (link : List Char) : List Char :=
  match matchItemId link with
  | some id => id
  | none =>
      match matchAltId link with
      | some id => id
      | none => link

/-- The function `containsExcludedWords(title, excludedWords)`.  Here the result
of `toLowerCase` is searched as it is, so every letter counts: the method is
the argument `lowerCase`, the case mapping that the engine supplies, and what
is proved holds for every such mapping. -/
def containsExcludedWords (lowerCase : List Char → List Char) (title : List Char)
    (excludedWords : Option (List (List Char))) : Bool :=
  match excludedWords with
  | none => false
  | some words =>
      if words.length = 0 then false
      else
        let titleLower := lowerCase title
        words.any (fun word => JS.includes titleLower (lowerCase word))

/-- The function `normalizeText(text)`. -/
def normalizeText (text : List Char) : List Char :=
  (JS.toLowerCase text).filter JS.isLowerAlnum

/-- The body of `fuzzyMatch` once the longer string is `str1`.  With an empty
`str2` the quotient of the source is `0 / 0`, which no comparison accepts. -/
def fuzzyCount (str1 str2 : List Char) (threshold : ℚ) : Bool :=
  let «matches» := (str2.filter (fun c => JS.includes str1 [c])).length
  if str2.length = 0 then false
  else decide (threshold ≤ («matches» : ℚ) / (str2.length : ℚ))

/-- The function `fuzzyMatch(str1, str2, threshold)` : the call swaps its arguments once
when the second string is the longer one. -/
def fuzzyMatch (str1 str2 : List Char) (threshold : ℚ) : Bool :=
  if str1.length < str2.length then fuzzyCount str2 str1 threshold
  else fuzzyCount str1 str2 threshold

/-- The function `findMatchingProduct(title, products)`. -/
def findMatchingProduct (title : List Char) (products : List Product) : Option Product :=
  let normalizedTitle := normalizeText title
  match products.find? (fun product => JS.includes normalizedTitle (normalizeText product.name)) with
  | some product => some product
  | none => products.find? (fun product => fuzzyMatch normalizedTitle (normalizeText product.name) (7 / 10))

/-- The `price` of `checkProduct` : the first digit run, or the sentinel. -/
def parsePriceOrMax (priceStr : List Char) : Nat :=
  match JS.matchDigits priceStr with
  | some ds => JS.parseInt ds
  | none => JS.MAX_SAFE_INTEGER

/-- The function `checkProduct(title, priceStr, products)` of `background.js`. -/
def checkProduct (title priceStr : List Char) (products : List Product) : MatchResult :=
  if products.length = 0 then MatchResult.noMatch
  else
    let price : Int := (parsePriceOrMax priceStr : Int)
    match findMatchingProduct title products with
    | none => MatchResult.noMatch
    | some matchingProduct =>
        let isGoodDeal := decide (price < matchingProduct.maxPrice)
        let nearGoodDeal := !isGoodDeal && decide (matchingProduct.maxPrice ≤ price) &&
          decide (price ≤ JS.plus matchingProduct.maxPrice 100)
        { productName := some matchingProduct.name
          isGoodDeal := isGoodDeal
          nearGoodDeal := nearGoodDeal
          preferred := matchingProduct.preferred }

/-- The prefix of the message: the deal label of the result. -/
def dealMessage (productResult : MatchResult) : List Char :=
  if productResult.isGoodDeal then "✅ Good Deal @ ".toList
  else if productResult.nearGoodDeal then "⚠️ Near Good Deal @ ".toList
  else []

/-- The text of the message sent first for a listing. -/
def initialText (listing : Listing) (productResult : MatchResult) : List Char :=
  dealMessage productResult ++ "For ".toList ++ listing.price ++
    "\nLink: https://www.facebook.com".toList ++ listing.link

/-- What one call of `processListings` carries along: the global state, the
storage, the number of calls of `chrome.storage.local.set` made so far, and
the effects so far. -/
structure Run where
  state : State
  storage : Storage
  setCalls : Nat
  effects : List Effect
deriving DecidableEq, Repr

/-- One call of `chrome.storage.local.set` : the oracle `setOk` tells, from
the number of earlier calls, whether it succeeds; a call that throws leaves
the storage as it is. -/
def Run.storageSet (setOk : Nat → Bool) (request : SetRequest) (r : Run) : Run :=
  { r with
    storage := if setOk r.setCalls then r.storage.write request else r.storage
    setCalls := r.setCalls + 1
    effects := r.effects ++ [Effect.storageSet request (setOk r.setCalls)] }

/-- The three mode filters applied to the result of `checkProduct` : `true`
when none of the enabled filters skips the listing. -/
def passesFilters (settings : Settings) (productResult : MatchResult) : Bool :=
  if settings.modeOnlyPreferred && !productResult.preferred then false
  else if settings.nearGoodDeals && !(productResult.isGoodDeal || productResult.nearGoodDeal) then false
  else if settings.goodDeals && !productResult.isGoodDeal then false
  else true

/-- The body of the loop of `processListings` over the listings of a
non-first-run batch. -/
def processListing (lowerCase : List Char → List Char) (settings : Settings) (setOk : Nat → Bool)
    (r : Run) (listing : Listing) : Run :=
  let listingId := extractListingId listing.link
  if listingId ∈ r.state.seenListings then r
  else
    let r1 : Run := { r with state := { r.state with seenListings := JS.setAdd r.state.seenListings listingId } }
    let r2 := r1.storageSet setOk (SetRequest.seenListings r1.state.seenListings)
    if containsExcludedWords lowerCase listing.title settings.excludedWords then r2
    else
      let productResult := checkProduct listing.title listing.price settings.products
      if passesFilters settings productResult then
        { r2 with effects := r2.effects ++ [Effect.sendMessage listing productResult (initialText listing productResult)] }
      else r2

/-- The loop of `processListings` over a non-first-run batch. -/
def processLoop (lowerCase : List Char → List Char) (settings : Settings) (setOk : Nat → Bool)
    (listings : List Listing) (r : Run) : Run :=
  listings.foldl (processListing lowerCase settings setOk) r

/-- The end of a non-first-run batch: the seen set is saved, and when it holds
more than 5000 ids it is trimmed to the last 5000 and saved again.  A throw of
the first `set` skips the trim, since both are in one `try` block. -/
def finalSave (setOk : Nat → Bool) (r : Run) : Run :=
  let r1 := r.storageSet setOk (SetRequest.seenListings r.state.seenListings)
  if setOk r.setCalls then
    if 5000 < r1.state.seenListings.length then
      let trimmedListings := JS.setAddAll [] (JS.sliceLast 5000 r1.state.seenListings)
      let r2 : Run := { r1 with state := { r1.state with seenListings := trimmedListings } }
      r2.storageSet setOk (SetRequest.seenListings trimmedListings)
    else r1
  else r1

/-- The start of `processListings` : the ids in storage are merged into the
seen set, unless the read throws (`getOk = false`) or nothing is stored. -/
def refreshSeen (getOk : Bool) (state : State) (storage : Storage) : State :=
  if getOk then
    match storage.seenListings with
    | some stored =>
        if 0 < stored.length then
          { state with seenListings := JS.setAddAll state.seenListings stored }
        else state
    | none => state
  else state

/-- What a call of `processListings` leaves behind; `threw` tells that the
call ended by an exception. -/
structure Outcome where
  state : State
  storage : Storage
  effects : List Effect
  threw : Bool
deriving DecidableEq, Repr

/-- The function `processListings(listings, keyword, settings)`, run on a global state and
a storage.  On the first run of a keyword the two calls of `set` are not
guarded: the first one that throws ends the call. -/
def processListings (lowerCase : List Char → List Char) (getOk : Bool) (setOk : Nat → Bool)
    (listings : List Listing) (keyword : List Char) (settings : Settings) (state : State)
    (storage : Storage) : Outcome :=
  let state1 := refreshSeen getOk state storage
  let isFirstRunForKeyword := !decide (keyword ∈ state1.firstRunKeywords)
  if isFirstRunForKeyword then
    let seen := listings.foldl (fun s listing => JS.setAdd s (extractListingId listing.link))
      state1.seenListings
    let state2 : State :=
      { state1 with seenListings := seen, firstRunKeywords := JS.setAdd state1.firstRunKeywords keyword }
    let r0 : Run := { state := state2, storage := storage, setCalls := 0, effects := [] }
    let r1 := r0.storageSet setOk (SetRequest.firstRunStatus false state2.firstRunKeywords)
    if setOk 0 then
      let r2 := r1.storageSet setOk (SetRequest.seenListings state2.seenListings)
      { state := r2.state, storage := r2.storage, effects := r2.effects, threw := !setOk 1 }
    else
      { state := r1.state, storage := r1.storage, effects := r1.effects, threw := true }
  else
    let r := finalSave setOk (processLoop lowerCase settings setOk listings
      { state := state1, storage := storage, setCalls := 0, effects := [] })
    { state := r.state, storage := r.storage, effects := r.effects, threw := false }

/-- The listings for which a message is sent, in the order of the sends. -/
def alerts (effects : List Effect) : List Listing :=
  effects.filterMap (fun effect =>
    match effect with
    | Effect.sendMessage listing _ _ => some listing
    | Effect.storageSet _ _ => none)

/-- The ids of a batch, in the order of its listings. -/
def listingIds (listings : List Listing) : List (List Char) :=
  listings.map (fun listing => extractListingId listing.link)

/-- Whether the loop sends a message for a listing that it finds unseen. -/
def shouldAlert (lowerCase : List Char → List Char) (settings : Settings) (listing : Listing) :
    Bool :=
  !containsExcludedWords lowerCase listing.title settings.excludedWords &&
    passesFilters settings (checkProduct listing.title listing.price settings.products)

/-- The listings alerted by the loop, as a function of the batch and of the
seen set at its start. -/
def loopAlerts (lowerCase : List Char → List Char) (settings : Settings) :
    List Listing → List (List Char) → List Listing
  | [], _ => []
  | listing :: rest, seen =>
      (if extractListingId listing.link ∉ seen ∧ shouldAlert lowerCase settings listing = true
        then [listing] else []) ++
      loopAlerts lowerCase settings rest (JS.setAdd seen (extractListingId listing.link))

/-- Settings without excluded words, products or filters. -/
def plainSettings : Settings :=
  { excludedWords := none, products := [], modeOnlyPreferred := false, nearGoodDeals := false,
    goodDeals := false }

/-- Settings that exclude the word "warranty". -/
def warrantySettings : Settings :=
  { excludedWords := some ["warranty".toList], products := [], modeOnlyPreferred := false,
    nearGoodDeals := false, goodDeals := false }

/-- Settings with one product and the filter `nearGoodDeals`. -/
def nearDealSettings : Settings :=
  { excludedWords := some ["warranty".toList],
    products := [{ name := "iPhone 12".toList, minPrice := 100, maxPrice := 320, preferred := true }],
    modeOnlyPreferred := false, nearGoodDeals := true, goodDeals := false }

/-- A batch of two listings with the ids "a" and "b". -/
def twoListings : List Listing :=
  [{ link := "a".toList, price := "$150".toList, title := "iPhone 12".toList },
   { link := "b".toList, price := "$150".toList, title := "iPhone 12".toList }]

/-- A listing with the id "w" whose title holds an excluded word. -/
def warrantyListing : Listing :=
  { link := "w".toList, price := "$150".toList, title := "iPhone 12 Warranty".toList }

/-- A seen set of 5000 ids: "a", then "x", "xx", and so on. -/
def fullSeen : List (List Char) :=
  ['a'] :: (List.range 4999).map (fun n => List.replicate (n + 1) 'x')

/-- A batch of 5000 listings with the links "x", "xx", and so on. -/
def longBatch : List Listing :=
  (List.range 5000).map (fun n =>
    { link := List.replicate (n + 1) 'x', price := "$150".toList, title := "iPhone 12".toList })

end Background

namespace ProductChecker

/-- The rows of the matrix: row `i` has an entry for each column, and the
entry of column `j` is at most `max i j`. -/
def RowBounded (a : List Char) (i : Nat) (row : List Nat) : Prop :=
  row.length = a.length + 1 ∧ ∀ j v, row[j]? = some v → v ≤ max i j

end ProductChecker

/-- Two products that agree in every field but `minPrice`. -/
def SameExceptMinPrice (p q : Product) : Prop :=
  p.name = q.name ∧ p.maxPrice = q.maxPrice ∧ p.preferred = q.preferred

/-- A product with its `minPrice` set to zero. -/
def clearMinPrice (p : Product) : Product :=
  { p with minPrice := 0 }

namespace Background

/-- A listing for a phone holder, with the id "h". -/
def holderListing : Listing :=
  { link := "h".toList, price := "$10".toList, title := "Phone holder 12 inch".toList }

end Background

namespace Background

/-- The block of `processListings` that trims the seen set: when it holds
more than 5000 ids, the set becomes a new set of the last 5000 and is saved. -/
def trimSeen (setOk : Nat → Bool) (r : Run) : Run :=
  if 5000 < r.state.seenListings.length then
    let trimmedListings := JS.setAddAll [] (JS.sliceLast 5000 r.state.seenListings)
    let r2 : Run := { r with state := { r.state with seenListings := trimmedListings } }
    r2.storageSet setOk (SetRequest.seenListings trimmedListings)
  else r

/-- The ids "x", "xx", and so on, up to `n` letters. -/
def xIds (n : Nat) : List (List Char) :=
  (List.range n).map (fun k => List.replicate (k + 1) 'x')

/-- A run whose seen set holds 5001 ids: "w", then "x", "xx", and so on. -/
def overfullRun : Run :=
  ⟨⟨true, ['w'] :: xIds 5000, false, []⟩, ⟨none, none, none⟩, 0, []⟩

end Background

namespace Background

/-- The storage after the effects of a trace, from the storage at its start. -/
def replayStorage (storage : Storage) : List Effect → Storage
  | [] => storage
  | Effect.storageSet request ok :: rest =>
      replayStorage (if ok then storage.write request else storage) rest
  | Effect.sendMessage _ _ _ :: rest => replayStorage storage rest

/-- Every message of a trace is sent at a point where the stored array of seen
ids already holds the id of its listing. -/
def FlushedBeforeAlerts (storage : Storage) : List Effect → Prop
  | [] => True
  | Effect.storageSet request ok :: rest =>
      FlushedBeforeAlerts (if ok then storage.write request else storage) rest
  | Effect.sendMessage listing _ _ :: rest =>
      (∃ ids, storage.seenListings = some ids ∧ extractListingId listing.link ∈ ids) ∧
        FlushedBeforeAlerts storage rest

/-- The function `resetFirstRunState()` : the set of completed keywords is
cleared and `firstRun` set before the write to storage, which may throw. -/
def resetFirstRunState (setOk : Bool) (state : State) (storage : Storage) : Outcome :=
  { state := { state with firstRunKeywords := [], firstRun := true }
    storage := if setOk then storage.write (SetRequest.firstRunStatus true []) else storage
    effects := [Effect.storageSet (SetRequest.firstRunStatus true []) setOk]
    threw := !setOk }

/-- The operations of the running background process on the first-run state:
a call of `processListings`, or a call of `resetFirstRunState` (made by
`startContinuousMonitoring` and by `isMonitoringActive`). -/
inductive Step where
  | process (lowerCase : List Char → List Char) (getOk : Bool) (setOk : Nat → Bool)
      (listings : List Listing) (keyword : List Char) (settings : Settings)
  | reset (setOk : Bool)

/-- The outcome of an operation. -/
def Step.run : Step → State → Storage → Outcome
  | Step.process lowerCase getOk setOk listings keyword settings, state, storage =>
      processListings lowerCase getOk setOk listings keyword settings state storage
  | Step.reset setOk, state, storage => resetFirstRunState setOk state storage

end Background

namespace Background

/-- The storage of a run is the storage that its effects produce, and every
message of the run is sent after the id of its listing is stored. -/
def Consistent (start : Storage) (r : Run) : Prop :=
  r.storage = replayStorage start r.effects ∧ FlushedBeforeAlerts start r.effects

end Background

namespace Background

/-- An occurrence in a link, after `pre`, of "marketplace/item/" followed by at
least one digit; `digits` is the whole run of digits there and `post` the rest
of the link. -/
def ItemOccurrence (link pre digits post : List Char) : Prop :=
  link = pre ++ ("marketplace/item/".toList ++ (digits ++ post)) ∧ digits ≠ [] ∧
    (∀ c ∈ digits, JS.isDigit c = true) ∧ (∀ c, post.head? = some c → JS.isDigit c = false)

/-- An occurrence in a link, after `pre`, of a slash and digits followed by an
optional slash and then by "?" or the end of the link; `post` is what follows
the digits. -/
def AltOccurrence (link pre digits post : List Char) : Prop :=
  link = pre ++ ('/' :: (digits ++ post)) ∧ digits ≠ [] ∧
    (∀ c ∈ digits, JS.isDigit c = true) ∧
    (post = [] ∨ post = ['/'] ∨ (∃ t, post = '?' :: t) ∨ (∃ t, post = '/' :: '?' :: t))

end Background

namespace Background

/-- The condition under which `matchItemId` returns at a suffix. -/
abbrev itemHere (suf : List Char) : Prop :=
  "marketplace/item/".toList.isPrefixOf suf ∧ (suf.drop 17).takeWhile JS.isDigit ≠ []

/-- The condition under which `matchAltId` returns at a suffix. -/
abbrev altHere (suf : List Char) : Prop :=
  suf.head? = some '/' ∧ suf.tail.takeWhile JS.isDigit ≠ [] ∧
    altTail (suf.tail.dropWhile JS.isDigit) = true

end Background

namespace Background

/-- A batch in which the id "a" occurs twice, under different titles. -/
def repeatedBatch : List Listing :=
  [{ link := "a".toList, price := "$150".toList, title := "iPhone 12".toList },
   { link := "a".toList, price := "$90".toList, title := "iPhone 12 again".toList },
   { link := "b".toList, price := "$150".toList, title := "iPhone 12".toList }]

end Background

namespace Background

/-- The handler of the message `stopMonitoring`, as far as the global `state`
goes: the flag `isMonitoring` is cleared. -/
def stopMonitoring (state : State) : State :=
  { state with isMonitoring := false }

/-- A run after the handler of `stopMonitoring` ran in between. -/
def Run.stop (r : Run) : Run :=
  { r with state := stopMonitoring r.state }

/-- The loop of `processListings` over a batch during which the message
`stopMonitoring` arrives: the handler runs while the loop waits in the
iteration of the last listing of `before`; `after` holds the listings that
come after that one. The loop goes on, since it does not read the flag. -/
def processLoopStopped (lowerCase : List Char → List Char) (settings : Settings)
    (setOk : Nat → Bool) (before after : List Listing) (r : Run) : Run :=
  processLoop lowerCase settings setOk after (processLoop lowerCase settings setOk before r).stop

/-- The click handler of the button "Reset First Run" of the popup: it writes
`firstRun: true` and `firstRunKeywords: []` to `chrome.storage.local`. The
global `state` lives in the background process and is not in its reach. -/
def popupResetFirstRun (state : State) (storage : Storage) : State × Storage :=
  (state, storage.write (SetRequest.firstRunStatus true []))

end Background

namespace ProductChecker

/-- The cost of a substitution in the matrix: `a[j - 1] === b[i - 1] ? 0 : 1`. -/
def substCost (x y : Char) : Nat :=
  if x = y then 0 else 1

/-- Modelled from the spec: the standard recursive definition of the edit
distance. -/
def editDistance : List Char → List Char → Nat
  | [], b => b.length
  | x :: a, [] => (x :: a).length
  | x :: a, y :: b =>
      min (editDistance a (y :: b) + 1)
        (min (editDistance (x :: a) b + 1) (editDistance a b + substCost x y))
termination_by a b => a.length + b.length

/-- Modelled from the spec: one single-character insertion, deletion or
substitution, at any place of the string. -/
inductive EditStep : List Char → List Char → Prop where
  | insertion (u v : List Char) (c : Char) : EditStep (u ++ v) (u ++ c :: v)
  | deletion (u v : List Char) (c : Char) : EditStep (u ++ c :: v) (u ++ v)
  | substitution (u v : List Char) (c d : Char) : EditStep (u ++ c :: v) (u ++ d :: v)

/-- Modelled from the spec: `EditsIn n a b` holds when `n` single-character
insertions, deletions and substitutions, one after the other, turn `a`
into `b`. -/
inductive EditsIn : Nat → List Char → List Char → Prop where
  | done (a : List Char) : EditsIn 0 a a
  | step (n : Nat) (a m b : List Char) : EditStep a m → EditsIn n m b → EditsIn (n + 1) a b

/-- The row of the matrix for the part `bdone` of `b`, read backwards, from the
column of the part `pre` of `a` on: one entry for `pre` and one more for each
further character of `a`. -/
def rowFrom (bdone : List Char) : List Char → List Char → List Nat
  | pre, [] => [editDistance pre.reverse bdone]
  | pre, x :: as => editDistance pre.reverse bdone :: rowFrom bdone (pre ++ [x]) as

end ProductChecker

/-! ## Lemmas on the built-ins -/

namespace JS

theorem spacing_of_lt (fuel n : Nat) (h : n < 9007199254740992) : spacing fuel n 1 = 1 := by
  cases fuel with
  | zero => rfl
  | succ f =>
      unfold spacing
      rw [Nat.div_one, if_pos h]

/-- An integer up to `2^53` is a Number. -/
theorem toNumber_of_le (n : Nat) (h : n ≤ 9007199254740992) : toNumber n = n := by
  rcases Nat.lt_or_ge n 9007199254740992 with hlt | hge
  · unfold toNumber
    simp [spacing_of_lt n n hlt, Nat.mod_one]
  · have heq : n = 9007199254740992 := Nat.le_antisymm h hge
    subst heq
    decide

/-- A sum between `0` and `2^53` is exact. -/
theorem plus_of_small (x y : Int) (h0 : 0 ≤ x + y) (h : x + y ≤ 9007199254740992) :
    plus x y = x + y := by
  unfold plus
  rw [if_neg (by omega), toNumber_of_le _ (by omega)]
  omega

theorem parseInt_of_le (ds : List Char) (h : digitsValue ds ≤ 9007199254740992) :
    parseInt ds = digitsValue ds :=
  toNumber_of_le _ h

/-- A sum of size at most `2^53` is exact. -/
theorem plus_of_natAbs_le (x y : Int) (h : (x + y).natAbs ≤ 9007199254740992) :
    plus x y = x + y := by
  unfold plus
  rw [toNumber_of_le _ h]
  split <;> omega

/-- A sum that is exactly at most `b`, with `b` between `0` and `2^53`, is at
most `b` as a Number as well. -/
theorem plus_le_of_le (x y : Int) (b : Nat) (h : x + y ≤ (b : Int)) (hb : b ≤ 9007199254740992) :
    plus x y ≤ (b : Int) := by
  by_cases hneg : x + y < 0
  · unfold plus
    rw [if_pos hneg]
    omega
  · rw [plus_of_small x y (by omega) (by omega)]
    exact h

theorem includes_iff (s t : List Char) : includes s t = true ↔ t <:+: s := by
  induction s with
  | nil =>
      cases t <;> simp [includes]
  | cons c s ih =>
      simp only [includes, Bool.or_eq_true, ih, List.isPrefixOf_iff_prefix, List.infix_cons_iff]

theorem includes_nil (s : List Char) : includes s [] = true := by
  rw [includes_iff]; exact List.nil_infix

theorem head?_sortInsert {α β : Type} [Zero β] [LT β] [DecidableRel (fun (a b : β) => a < b)]
    (cmp : α → α → β) (x : α) (ys : List α) :
    (sortInsert cmp x ys).head? =
      match ys.head? with
      | none => some x
      | some y => if 0 < cmp x y then some y else some x := by
  cases ys with
  | nil => rfl
  | cons y ys =>
      simp only [sortInsert, List.head?_cons]
      split <;> rfl

/-- When the comparator orders by a key, largest first, the head of the sorted
list is the first element of the list among those with the largest key. -/
theorem sort_head_of_key {α β γ : Type} [Zero β] [LT β] [DecidableRel (fun (a b : β) => a < b)]
    [LinearOrder γ] (cmp : α → α → β) (key : α → γ)
    (hcmp : ∀ x y, 0 < cmp x y ↔ key x < key y) (l : List α) (hl : l ≠ []) :
    ∃ pre m post, l = pre ++ m :: post ∧ (sort cmp l).head? = some m ∧
      (∀ y ∈ pre, key y < key m) ∧ (∀ y ∈ post, key y ≤ key m) := by
  induction l with
  | nil => exact absurd rfl hl
  | cons x l ih =>
      have hs : sort cmp (x :: l) = sortInsert cmp x (sort cmp l) := rfl
      by_cases hnil : l = []
      · subst hnil
        exact ⟨[], x, [], rfl, rfl, by simp, by simp⟩
      · obtain ⟨pre, m, post, hsplit, hhead, hpre, hpost⟩ := ih hnil
        by_cases hlt : key x < key m
        · refine ⟨x :: pre, m, post, by simp [hsplit], ?_, ?_, hpost⟩
          · rw [hs, head?_sortInsert, hhead]
            simp [(hcmp x m).mpr hlt]
          · intro y hy
            rcases List.mem_cons.mp hy with rfl | hy
            · exact hlt
            · exact hpre y hy
        · refine ⟨[], x, l, rfl, ?_, by simp, ?_⟩
          · rw [hs, head?_sortInsert, hhead]
            have : ¬ 0 < cmp x m := fun h => hlt ((hcmp x m).mp h)
            simp [this]
          · have hmx : key m ≤ key x := not_lt.mp hlt
            intro y hy
            rw [hsplit] at hy
            rcases List.mem_append.mp hy with hy | hy
            · exact le_trans (le_of_lt (hpre y hy)) hmx
            · rcases List.mem_cons.mp hy with rfl | hy
              · exact hmx
              · exact le_trans (hpost y hy) hmx

/-- The first element that satisfies a predicate is what `find` returns. -/
theorem find?_of_split {α : Type} (c : α → Bool) (P : List α) (p : α) (Q : List α)
    (hP : ∀ y ∈ P, c y = false) (hp : c p = true) : (P ++ p :: Q).find? c = some p := by
  have hnone : P.find? c = none := by
    rw [List.find?_eq_none]
    intro y hy
    simp [hP y hy]
  rw [List.find?_append, hnone]
  simp [hp]

theorem take_one_eq {α : Type} (l : List α) : l.take 1 = l.head?.toList := by
  cases l <;> simp [Option.toList]

theorem mem_setAdd {α : Type} [DecidableEq α] (s : List α) (x y : α) :
    y ∈ setAdd s x ↔ y ∈ s ∨ y = x := by
  unfold setAdd
  split
  · constructor
    · exact Or.inl
    · rintro (h | rfl)
      · exact h
      · assumption
  · simp

theorem setAddAll_cons {α : Type} [DecidableEq α] (s : List α) (x : α) (xs : List α) :
    setAddAll s (x :: xs) = setAddAll (setAdd s x) xs := rfl

theorem setAddAll_append {α : Type} [DecidableEq α] (s xs ys : List α) :
    setAddAll s (xs ++ ys) = setAddAll (setAddAll s xs) ys := by
  unfold setAddAll
  rw [List.foldl_append]

theorem setAdd_of_not_mem {α : Type} [DecidableEq α] (s : List α) (x : α) (h : x ∉ s) :
    setAdd s x = s ++ [x] := by
  unfold setAdd
  rw [if_neg h]

/-- Adding elements that are new and distinct appends them. -/
theorem setAddAll_of_nodup {α : Type} [DecidableEq α] (xs s : List α) (h : (s ++ xs).Nodup) :
    setAddAll s xs = s ++ xs := by
  induction xs generalizing s with
  | nil => simp [setAddAll]
  | cons x xs ih =>
      have hx : x ∉ s := by
        intro hmem
        have := List.nodup_append.mp h
        exact this.2.2 hmem (List.mem_cons_self x xs)
      have hadd : setAdd s x = s ++ [x] := by simp [setAdd, hx]
      have h2 : ((s ++ [x]) ++ xs).Nodup := by simpa using h
      rw [setAddAll_cons, hadd, ih _ h2]
      simp

/-- Adding elements that are all present changes nothing. -/
theorem setAddAll_of_subset {α : Type} [DecidableEq α] (xs s : List α) (h : ∀ x ∈ xs, x ∈ s) :
    setAddAll s xs = s := by
  induction xs with
  | nil => rfl
  | cons x xs ih =>
      have hx : x ∈ s := h x (List.mem_cons_self x xs)
      have hadd : setAdd s x = s := by simp [setAdd, hx]
      rw [setAddAll_cons, hadd]
      exact ih (fun y hy => h y (List.mem_cons_of_mem _ hy))

/-- Adding elements appends at most as many elements. -/
theorem setAddAll_eq_append {α : Type} [DecidableEq α] (xs s : List α) :
    ∃ extra, setAddAll s xs = s ++ extra ∧ extra.length ≤ xs.length := by
  induction xs generalizing s with
  | nil => exact ⟨[], by simp [setAddAll], le_refl _⟩
  | cons x xs ih =>
      by_cases hx : x ∈ s
      · have hadd : setAdd s x = s := by simp [setAdd, hx]
        obtain ⟨extra, he, hl⟩ := ih s
        refine ⟨extra, ?_, ?_⟩
        · rw [setAddAll_cons, hadd, he]
        · simp only [List.length_cons]; omega
      · have hadd : setAdd s x = s ++ [x] := by simp [setAdd, hx]
        obtain ⟨extra, he, hl⟩ := ih (s ++ [x])
        refine ⟨x :: extra, ?_, ?_⟩
        · rw [setAddAll_cons, hadd, he]; simp
        · simp only [List.length_cons]; omega

theorem mem_setAddAll {α : Type} [DecidableEq α] (xs s : List α) (y : α) :
    y ∈ setAddAll s xs ↔ y ∈ s ∨ y ∈ xs := by
  induction xs generalizing s with
  | nil => simp [setAddAll]
  | cons x xs ih =>
      have h : setAddAll s (x :: xs) = setAddAll (setAdd s x) xs := rfl
      rw [h, ih, mem_setAdd, List.mem_cons]
      tauto

end JS

namespace ProductChecker

/-- The head of a list sorted by `byLengthDesc` is the first element of the
list among those with the longest normalized name. -/
theorem sort_byLengthDesc_head (l : List NormalizedProduct) (hl : l ≠ []) :
    ∃ pre m post, l = pre ++ m :: post ∧ (JS.sort byLengthDesc l).head? = some m ∧
      (∀ y ∈ pre, y.normalizedName.length < m.normalizedName.length) ∧
      (∀ y ∈ post, y.normalizedName.length ≤ m.normalizedName.length) :=
  JS.sort_head_of_key byLengthDesc (fun y => y.normalizedName.length)
    (by intro x y; simp only [byLengthDesc]; omega) l hl

/-- A split of a filtered and mapped list comes from a split of the list. -/
theorem split_of_filter_map {α β : Type} (f : α → β) (c : β → Bool) (l : List α) :
    ∀ (pre : List β) (m : β) (post : List β), (l.map f).filter c = pre ++ m :: post →
      ∃ P p Q, l = P ++ p :: Q ∧ f p = m ∧ c m = true ∧
        (P.map f).filter c = pre ∧ (Q.map f).filter c = post := by
  induction l with
  | nil => intro pre m post h; simp at h
  | cons x l ih =>
      intro pre m post h
      by_cases hc : c (f x) = true
      · simp only [List.map_cons, List.filter_cons, hc, if_true] at h
        cases pre with
        | nil =>
            simp only [List.nil_append, List.cons.injEq] at h
            exact ⟨[], x, l, rfl, h.1, h.1 ▸ hc, rfl, h.2⟩
        | cons y pre =>
            simp only [List.cons_append, List.cons.injEq] at h
            obtain ⟨P, p, Q, hl, hp, hm, hP, hQ⟩ := ih pre m post h.2
            refine ⟨x :: P, p, Q, by simp [hl], hp, hm, ?_, hQ⟩
            simp [List.filter_cons, hc, hP, ← h.1]
      · simp only [List.map_cons, List.filter_cons, hc] at h
        obtain ⟨P, p, Q, hl, hp, hm, hP, hQ⟩ := ih pre m post h
        refine ⟨x :: P, p, Q, by simp [hl], hp, hm, ?_, hQ⟩
        simp [List.filter_cons, hc, hP]

/-- The exact phase of `matchTitleToProducts` and the product that
`checkProduct` fetches for its result. -/
theorem exact_phase (title : List Char) (products : List Product)
    (h : ∃ q ∈ products, isCandidate title q) :
    ∃ pre p post, products = pre ++ p :: post ∧ isCandidate title p ∧
      (∀ q ∈ pre, isCandidate title q →
        (normalizeTitle q.name).length < (normalizeTitle p.name).length) ∧
      (∀ q ∈ post, isCandidate title q →
        (normalizeTitle q.name).length ≤ (normalizeTitle p.name).length) ∧
      matchTitleToProducts title products = [toNormalized p] ∧
      findProduct title products = some p := by
  obtain ⟨q, hq, hcand⟩ := h
  let c : NormalizedProduct → Bool := fun product =>
    JS.includes (normalizeTitle title) product.normalizedName
  have hne : (products.map toNormalized).filter c ≠ [] := by
    intro hnil
    rw [List.filter_eq_nil_iff] at hnil
    exact hnil (toNormalized q) (List.mem_map_of_mem _ hq) ((JS.includes_iff _ _).mpr hcand)
  obtain ⟨pre, m, post, hsplit, hhead, hpre, hpost⟩ := sort_byLengthDesc_head _ hne
  obtain ⟨P, p, Q, hl, hp, hm, hP, hQ⟩ := split_of_filter_map toNormalized c products pre m post hsplit
  have hmatch : matchTitleToProducts title products = [toNormalized p] := by
    have hpos : 0 < ((products.map toNormalized).filter c).length := List.length_pos.mpr hne
    simp only [matchTitleToProducts]
    rw [if_pos hpos, JS.take_one_eq, hhead, hp]
    rfl
  have hlenP : ∀ y ∈ P, isCandidate title y →
      (normalizeTitle y.name).length < (normalizeTitle p.name).length := by
    intro y hy hcy
    have hmem : toNormalized y ∈ (P.map toNormalized).filter c :=
      List.mem_filter.mpr ⟨List.mem_map_of_mem _ hy, (JS.includes_iff _ _).mpr hcy⟩
    rw [hP] at hmem
    have := hpre _ hmem
    rw [← hp] at this
    exact this
  have hlenQ : ∀ y ∈ Q, isCandidate title y →
      (normalizeTitle y.name).length ≤ (normalizeTitle p.name).length := by
    intro y hy hcy
    have hmem : toNormalized y ∈ (Q.map toNormalized).filter c :=
      List.mem_filter.mpr ⟨List.mem_map_of_mem _ hy, (JS.includes_iff _ _).mpr hcy⟩
    rw [hQ] at hmem
    have := hpost _ hmem
    rw [← hp] at this
    exact this
  have hcp : isCandidate title p := by
    have : c (toNormalized p) = true := hp ▸ hm
    exact (JS.includes_iff _ _).mp this
  refine ⟨P, p, Q, hl, hcp, hlenP, hlenQ, hmatch, ?_⟩
  unfold findProduct
  rw [hmatch]
  simp only
  rw [hl, List.find?_append]
  have hnone : P.find? (fun y => decide (normalizeTitle y.name = (toNormalized p).normalizedName)) = none := by
    rw [List.find?_eq_none]
    intro y hy hdec
    have heq : normalizeTitle y.name = normalizeTitle p.name := by simpa [toNormalized] using hdec
    have hcy : isCandidate title y := by unfold isCandidate; rw [heq]; exact hcp
    have := hlenP y hy hcy
    rw [heq] at this
    exact absurd this (lt_irrefl _)
  rw [hnone]
  simp [toNormalized]

/-- The call of `getCloseMatches` in the fuzzy phase, on the catalog. -/
theorem getCloseMatches_catalog (title : List Char) (products : List Product) :
    getCloseMatches (normalizeTitle title)
        ((products.map toNormalized).map (fun p => p.normalizedName)) 1 (7 / 10) =
      ((JS.sort (fun (a b : List Char × ℚ) => b.2 - a.2)
        ((products.map (toSimilarity title)).filter (fun item => decide ((7 / 10 : ℚ) ≤ item.2)))).head?.map
          (fun item => item.1)).toList := by
  unfold getCloseMatches
  simp only [JS.take_one_eq, List.map_map]
  have hmap : (fun possibility => (possibility, similarityRatio (normalizeTitle title) possibility)) ∘
      ((fun (p : NormalizedProduct) => p.normalizedName) ∘ toNormalized) = toSimilarity title := by
    funext q; rfl
  rw [hmap]
  cases (JS.sort (fun (a b : List Char × ℚ) => b.2 - a.2)
    ((products.map (toSimilarity title)).filter (fun item => decide ((7 / 10 : ℚ) ≤ item.2)))).head? <;> rfl

/-- The best close match of the fuzzy phase: the name of the first product
among those with the highest ratio that reaches the cutoff. -/
theorem close_match_of_fuzzy (title : List Char) (products : List Product)
    (h : ∃ q ∈ products, isFuzzy title q) :
    ∃ pre p post, products = pre ++ p :: post ∧ isFuzzy title p ∧
      (∀ q ∈ pre, isFuzzy title q → (toSimilarity title q).2 < (toSimilarity title p).2) ∧
      (∀ q ∈ post, isFuzzy title q → (toSimilarity title q).2 ≤ (toSimilarity title p).2) ∧
      getCloseMatches (normalizeTitle title)
        ((products.map toNormalized).map (fun p => p.normalizedName)) 1 (7 / 10) =
        [normalizeTitle p.name] := by
  obtain ⟨q, hq, hfz⟩ := h
  let c : List Char × ℚ → Bool := fun item => decide ((7 / 10 : ℚ) ≤ item.2)
  have hne : (products.map (toSimilarity title)).filter c ≠ [] := by
    intro hnil
    rw [List.filter_eq_nil_iff] at hnil
    exact hnil (toSimilarity title q) (List.mem_map_of_mem _ hq) (decide_eq_true hfz)
  obtain ⟨pre, m, post, hsplit, hhead, hpre, hpost⟩ :=
    JS.sort_head_of_key (fun (a b : List Char × ℚ) => b.2 - a.2) (fun item => item.2)
      (by intro x y; exact sub_pos) _ hne
  obtain ⟨P, p, Q, hl, hp, hm, hP, hQ⟩ :=
    split_of_filter_map (toSimilarity title) c products pre m post hsplit
  refine ⟨P, p, Q, hl, ?_, ?_, ?_, ?_⟩
  · have : c (toSimilarity title p) = true := hp ▸ hm
    unfold isFuzzy
    exact of_decide_eq_true this
  · intro y hy hfy
    have hmem : toSimilarity title y ∈ (P.map (toSimilarity title)).filter c :=
      List.mem_filter.mpr ⟨List.mem_map_of_mem _ hy, decide_eq_true hfy⟩
    rw [hP] at hmem
    have := hpre _ hmem
    rw [← hp] at this
    exact this
  · intro y hy hfy
    have hmem : toSimilarity title y ∈ (Q.map (toSimilarity title)).filter c :=
      List.mem_filter.mpr ⟨List.mem_map_of_mem _ hy, decide_eq_true hfy⟩
    rw [hQ] at hmem
    have := hpost _ hmem
    rw [← hp] at this
    exact this
  · rw [getCloseMatches_catalog, hhead, ← hp]
    rfl

/-- Without a fuzzy candidate `getCloseMatches` returns nothing. -/
theorem close_match_of_not_fuzzy (title : List Char) (products : List Product)
    (h : ∀ q ∈ products, ¬ isFuzzy title q) :
    getCloseMatches (normalizeTitle title)
      ((products.map toNormalized).map (fun p => p.normalizedName)) 1 (7 / 10) = [] := by
  have hnil : (products.map (toSimilarity title)).filter
      (fun item => decide ((7 / 10 : ℚ) ≤ item.2)) = [] := by
    rw [List.filter_eq_nil_iff]
    intro a ha
    obtain ⟨q, hq, rfl⟩ := List.mem_map.mp ha
    have := h q hq
    simpa [isFuzzy, toSimilarity] using this
  rw [getCloseMatches_catalog, hnil]
  rfl

/-- Without an exact candidate the exact phase selects nothing. -/
theorem exact_filter_nil (title : List Char) (products : List Product)
    (hno : ∀ q ∈ products, ¬ isCandidate title q) :
    (products.map toNormalized).filter
      (fun product => JS.includes (normalizeTitle title) product.normalizedName) = [] := by
  rw [List.filter_eq_nil_iff]
  intro a ha
  obtain ⟨q, hq, rfl⟩ := List.mem_map.mp ha
  intro hinc
  exact hno q hq ((JS.includes_iff _ _).mp hinc)

/-- The fuzzy phase of `matchTitleToProducts` and the product that
`checkProduct` fetches for its result. -/
theorem fuzzy_phase (title : List Char) (products : List Product)
    (hno : ∀ q ∈ products, ¬ isCandidate title q)
    (h : ∃ q ∈ products, isFuzzy title q) :
    ∃ pre p post, products = pre ++ p :: post ∧ isFuzzy title p ∧
      (∀ q ∈ pre, isFuzzy title q → (toSimilarity title q).2 < (toSimilarity title p).2) ∧
      (∀ q ∈ post, isFuzzy title q → (toSimilarity title q).2 ≤ (toSimilarity title p).2) ∧
      matchTitleToProducts title products = [toNormalized p] ∧
      findProduct title products = some p := by
  obtain ⟨P, p, Q, hl, hfp, hpre, hpost, hclose⟩ := close_match_of_fuzzy title products h
  -- no product before `p` has the normalized name of `p`
  have hPname : ∀ y ∈ P, decide (normalizeTitle y.name = normalizeTitle p.name) = false := by
    intro y hy
    rw [decide_eq_false_iff_not]
    intro heq
    have hfy : isFuzzy title y := by unfold isFuzzy; rw [heq]; exact hfp
    have := hpre y hy hfy
    simp only [toSimilarity, heq] at this
    exact absurd this (lt_irrefl _)
  have hfind : products.find? (fun y => decide (normalizeTitle y.name = normalizeTitle p.name)) = some p := by
    rw [hl]
    exact JS.find?_of_split _ P p Q hPname (by simp)
  let c : NormalizedProduct → Bool := fun product => decide (product.normalizedName = normalizeTitle p.name)
  have hfuzzy : (products.map toNormalized).filter (fun product =>
      decide (0 < (getCloseMatches (normalizeTitle title)
        ((products.map toNormalized).map (fun p => p.normalizedName)) 1 (7 / 10)).length) &&
      decide (some product.normalizedName = (getCloseMatches (normalizeTitle title)
        ((products.map toNormalized).map (fun p => p.normalizedName)) 1 (7 / 10)).head?)) =
      (products.map toNormalized).filter c := by
    rw [hclose]
    apply List.filter_congr
    intro x _
    simp [c]
  have hne : (products.map toNormalized).filter c ≠ [] := by
    intro hnil
    rw [List.filter_eq_nil_iff] at hnil
    exact hnil (toNormalized p) (List.mem_map_of_mem _ (by rw [hl]; simp)) (by simp [c, toNormalized])
  obtain ⟨pre2, m2, post2, hsplit2, hhead2, hpre2, _⟩ := sort_byLengthDesc_head _ hne
  obtain ⟨P2, p2, Q2, hl2, hp2, hm2, hP2, _⟩ :=
    split_of_filter_map toNormalized c products pre2 m2 post2 hsplit2
  -- every fuzzy match has the same normalized name, so none is strictly shorter
  have hpre2nil : pre2 = [] := by
    cases pre2 with
    | nil => rfl
    | cons y ys =>
        have hy : y ∈ (products.map toNormalized).filter c := by rw [hsplit2]; simp
        have hyc : y.normalizedName = normalizeTitle p.name := by
          simpa [c] using (List.mem_filter.mp hy).2
        have hmc : m2.normalizedName = normalizeTitle p.name := by simpa [c] using hm2
        have := hpre2 y (by simp)
        rw [hyc, hmc] at this
        exact absurd this (lt_irrefl _)
  have hP2name : ∀ y ∈ P2, decide (normalizeTitle y.name = normalizeTitle p.name) = false := by
    intro y hy
    rw [decide_eq_false_iff_not]
    intro heq
    have hmem : toNormalized y ∈ (P2.map toNormalized).filter c :=
      List.mem_filter.mpr ⟨List.mem_map_of_mem _ hy, by simp [c, toNormalized, heq]⟩
    rw [hP2, hpre2nil] at hmem
    simp at hmem
  have hp2name : decide (normalizeTitle p2.name = normalizeTitle p.name) = true := by
    have : c (toNormalized p2) = true := hp2 ▸ hm2
    simpa [c, toNormalized] using this
  have hfind2 : products.find? (fun y => decide (normalizeTitle y.name = normalizeTitle p.name)) = some p2 := by
    rw [hl2]
    exact JS.find?_of_split _ P2 p2 Q2 hP2name hp2name
  have hpp : p2 = p := by
    rw [hfind] at hfind2
    exact (Option.some.inj hfind2).symm
  have hmatch : matchTitleToProducts title products = [toNormalized p] := by
    have hzero : ¬ 0 < ((products.map toNormalized).filter
        (fun product => JS.includes (normalizeTitle title) product.normalizedName)).length := by
      rw [exact_filter_nil title products hno]; simp
    have hpos : 0 < ((products.map toNormalized).filter c).length := List.length_pos.mpr hne
    simp only [matchTitleToProducts]
    rw [if_neg hzero, hfuzzy, if_pos hpos, JS.take_one_eq, hhead2, ← hp2, hpp]
    rfl
  refine ⟨P, p, Q, hl, hfp, hpre, hpost, hmatch, ?_⟩
  unfold findProduct
  rw [hmatch]
  exact hfind

/-- With neither an exact nor a fuzzy candidate `matchTitleToProducts`
returns the empty array. -/
theorem no_phase (title : List Char) (products : List Product)
    (hno : ∀ q ∈ products, ¬ isCandidate title q)
    (hnf : ∀ q ∈ products, ¬ isFuzzy title q) :
    matchTitleToProducts title products = [] := by
  have hzero : ¬ 0 < ((products.map toNormalized).filter
      (fun product => JS.includes (normalizeTitle title) product.normalizedName)).length := by
    rw [exact_filter_nil title products hno]; simp
  simp only [matchTitleToProducts]
  rw [if_neg hzero, close_match_of_not_fuzzy title products hnf]
  simp

end ProductChecker

/-! ## Lemmas on the pipeline -/

namespace Background

theorem alerts_append (a b : List Effect) : alerts (a ++ b) = alerts a ++ alerts b := by
  simp [alerts, List.filterMap_append]

theorem alerts_sendMessage (l : Listing) (productResult : MatchResult) (text : List Char) :
    alerts [Effect.sendMessage l productResult text] = [l] := rfl

theorem alerts_storageSet (setOk : Nat → Bool) (request : SetRequest) (r : Run) :
    alerts (r.storageSet setOk request).effects = alerts r.effects := by
  simp [Run.storageSet, alerts_append, alerts]

theorem processListing_seen (lowerCase : List Char → List Char) (settings : Settings)
    (setOk : Nat → Bool) (r : Run) (l : Listing) :
    (processListing lowerCase settings setOk r l).state.seenListings =
      JS.setAdd r.state.seenListings (extractListingId l.link) := by
  unfold processListing
  by_cases hseen : extractListingId l.link ∈ r.state.seenListings
  · simp [hseen, JS.setAdd]
  · simp only [hseen, if_false]
    split
    · rfl
    · split <;> rfl

theorem processListing_keywords (lowerCase : List Char → List Char) (settings : Settings)
    (setOk : Nat → Bool) (r : Run) (l : Listing) :
    (processListing lowerCase settings setOk r l).state.firstRunKeywords =
        r.state.firstRunKeywords := by
  simp only [processListing]
  split
  · rfl
  · split
    · rfl
    · split <;> rfl

theorem processListing_alerts (lowerCase : List Char → List Char) (settings : Settings)
    (setOk : Nat → Bool) (r : Run) (l : Listing) :
    alerts (processListing lowerCase settings setOk r l).effects =
      alerts r.effects ++
        (if extractListingId l.link ∉ r.state.seenListings ∧ shouldAlert lowerCase settings l =
            true then [l]
          else []) := by
  simp only [processListing]
  by_cases hseen : extractListingId l.link ∈ r.state.seenListings
  · simp [hseen]
  · simp only [hseen, if_false, not_false_eq_true, true_and]
    by_cases hex : containsExcludedWords lowerCase l.title settings.excludedWords = true
    · simp [hex, shouldAlert, alerts_storageSet]
    · by_cases hpass : passesFilters settings
          (checkProduct l.title l.price settings.products) = true
      · simp [hex, hpass, shouldAlert, alerts_append, alerts_storageSet, alerts_sendMessage]
      · simp [hex, hpass, shouldAlert, alerts_storageSet]

theorem processLoop_seen (lowerCase : List Char → List Char) (settings : Settings)
    (setOk : Nat → Bool) (ls : List Listing) (r : Run) :
    (processLoop lowerCase settings setOk ls r).state.seenListings =
      JS.setAddAll r.state.seenListings (listingIds ls) := by
  induction ls generalizing r with
  | nil => rfl
  | cons l ls ih =>
      have h : processLoop lowerCase settings setOk (l :: ls) r =
          processLoop lowerCase settings setOk ls (processListing lowerCase settings setOk r l) :=
              rfl
      rw [h, ih, processListing_seen]
      rfl

theorem processLoop_keywords (lowerCase : List Char → List Char) (settings : Settings)
    (setOk : Nat → Bool) (ls : List Listing) (r : Run) :
    (processLoop lowerCase settings setOk ls r).state.firstRunKeywords =
        r.state.firstRunKeywords := by
  induction ls generalizing r with
  | nil => rfl
  | cons l ls ih =>
      have h : processLoop lowerCase settings setOk (l :: ls) r =
          processLoop lowerCase settings setOk ls (processListing lowerCase settings setOk r l) :=
              rfl
      rw [h, ih, processListing_keywords]

theorem processLoop_alerts (lowerCase : List Char → List Char) (settings : Settings)
    (setOk : Nat → Bool) (ls : List Listing) (r : Run) :
    alerts (processLoop lowerCase settings setOk ls r).effects =
      alerts r.effects ++ loopAlerts lowerCase settings ls r.state.seenListings := by
  induction ls generalizing r with
  | nil => simp [processLoop, loopAlerts]
  | cons l ls ih =>
      have h : processLoop lowerCase settings setOk (l :: ls) r =
          processLoop lowerCase settings setOk ls (processListing lowerCase settings setOk r l) :=
              rfl
      rw [h, ih, processListing_alerts, processListing_seen]
      simp [loopAlerts]

theorem finalSave_alerts (setOk : Nat → Bool) (r : Run) :
    alerts (finalSave setOk r).effects = alerts r.effects := by
  simp only [finalSave, Run.storageSet]
  split
  · split <;> simp [alerts]
  · simp [alerts]

theorem finalSave_keywords (setOk : Nat → Bool) (r : Run) :
    (finalSave setOk r).state.firstRunKeywords = r.state.firstRunKeywords := by
  simp only [finalSave, Run.storageSet]
  split
  · split <;> simp only
  · simp only

theorem finalSave_seen (setOk : Nat → Bool) (r : Run) :
    (finalSave setOk r).state.seenListings =
      if setOk r.setCalls = true ∧ 5000 < r.state.seenListings.length then
        JS.setAddAll [] (JS.sliceLast 5000 r.state.seenListings)
      else r.state.seenListings := by
  simp only [finalSave, Run.storageSet]
  by_cases hok : setOk r.setCalls = true
  · by_cases hlen : 5000 < r.state.seenListings.length
    · simp only [hok, hlen, and_self, if_true]
    · simp only [hok, hlen, and_false, if_true, if_false]
  · simp only [hok, false_and, if_false, Bool.false_eq_true]

theorem refreshSeen_keywords (getOk : Bool) (state : State) (storage : Storage) :
    (refreshSeen getOk state storage).firstRunKeywords = state.firstRunKeywords := by
  unfold refreshSeen
  split
  · split
    · split <;> rfl
    · rfl
  · rfl

theorem refreshSeen_mono (getOk : Bool) (state : State) (storage : Storage) (x : List Char)
    (hx : x ∈ state.seenListings) : x ∈ (refreshSeen getOk state storage).seenListings := by
  unfold refreshSeen
  split
  · split
    · split
      · exact (JS.mem_setAddAll _ _ _).mpr (Or.inl hx)
      · exact hx
    · exact hx
  · exact hx

theorem mem_refreshSeen (getOk : Bool) (state : State) (storage : Storage) (x : List Char)
    (hx : x ∈ (refreshSeen getOk state storage).seenListings) :
    x ∈ state.seenListings ∨ ∃ stored, storage.seenListings = some stored ∧ x ∈ stored := by
  unfold refreshSeen at hx
  split at hx
  · split at hx
    · rename_i stored hstored
      split at hx
      · rcases (JS.mem_setAddAll _ _ _).mp hx with h | h
        · exact Or.inl h
        · exact Or.inr ⟨stored, hstored, h⟩
      · exact Or.inl hx
    · exact Or.inl hx
  · exact Or.inl hx

/-- When every write succeeds, the storage ends with the seen set of the state. -/
theorem finalSave_storage (setOk : Nat → Bool) (hok : ∀ n, setOk n = true) (r : Run) :
    (finalSave setOk r).storage.seenListings = some (finalSave setOk r).state.seenListings := by
  simp only [finalSave, Run.storageSet, hok, if_true]
  split <;> simp [Storage.write]

theorem containsExcludedWords_iff (lowerCase : List Char → List Char) (title : List Char)
    (excludedWords : Option (List (List Char))) :
    containsExcludedWords lowerCase title excludedWords = true ↔
      ∃ words, excludedWords = some words ∧
        ∃ w ∈ words, lowerCase w <:+: lowerCase title := by
  unfold containsExcludedWords
  cases excludedWords with
  | none => simp
  | some words =>
      by_cases hlen : words.length = 0
      · have : words = [] := List.length_eq_zero.mp hlen
        subst this
        simp
      · simp only [hlen, if_false, List.any_eq_true, JS.includes_iff, Option.some.injEq,
          exists_eq_left']

theorem passesFilters_iff (settings : Settings) (productResult : MatchResult) :
    passesFilters settings productResult = true ↔
      ((settings.modeOnlyPreferred = false ∨ productResult.preferred = true) ∧
        (settings.nearGoodDeals = false ∨ productResult.isGoodDeal = true ∨
          productResult.nearGoodDeal = true) ∧
        (settings.goodDeals = false ∨ productResult.isGoodDeal = true)) := by
  unfold passesFilters
  cases settings.modeOnlyPreferred <;> cases settings.nearGoodDeals <;> cases settings.goodDeals <;>
    cases productResult.preferred <;> cases productResult.isGoodDeal <;>
    cases productResult.nearGoodDeal <;> simp

theorem foldl_setAdd_ids (ls : List Listing) (seen : List (List Char)) :
    ls.foldl (fun s listing => JS.setAdd s (extractListingId listing.link)) seen =
      JS.setAddAll seen (listingIds ls) := by
  unfold JS.setAddAll listingIds
  rw [List.foldl_map]

theorem matchItemId_replicate (n : Nat) : matchItemId (List.replicate n 'x') = none := by
  induction n with
  | zero => rfl
  | succ n ih =>
      rw [List.replicate_succ]
      unfold matchItemId
      simp [List.isPrefixOf, ih]

theorem matchAltId_replicate (n : Nat) : matchAltId (List.replicate n 'x') = none := by
  induction n with
  | zero => rfl
  | succ n ih =>
      rw [List.replicate_succ]
      unfold matchAltId
      simp [ih]

theorem extractListingId_replicate (n : Nat) :
    extractListingId (List.replicate n 'x') = List.replicate n 'x' := by
  unfold extractListingId
  rw [matchItemId_replicate, matchAltId_replicate]

theorem replicate_x_injective :
    Function.Injective (fun n : Nat => List.replicate (n + 1) 'x') := by
  intro n m h
  have := congrArg List.length h
  simpa using this

/-- A listing alerted by the loop is in the batch, was unseen at the start of
the loop, and passes the exclusion list and the filters. -/
theorem mem_loopAlerts (lowerCase : List Char → List Char) (settings : Settings)
    (ls : List Listing) (seen : List (List Char))
    (l : Listing) (h : l ∈ loopAlerts lowerCase settings ls seen) :
    l ∈ ls ∧ extractListingId l.link ∉ seen ∧ shouldAlert lowerCase settings l = true := by
  induction ls generalizing seen with
  | nil => simp [loopAlerts] at h
  | cons x ls ih =>
      simp only [loopAlerts, List.mem_append] at h
      rcases h with h | h
      · split at h
        · rename_i hx
          simp only [List.mem_singleton] at h
          subst h
          exact ⟨by simp, hx.1, hx.2⟩
        · simp at h
      · obtain ⟨h1, h2, h3⟩ := ih _ h
        refine ⟨List.mem_cons_of_mem _ h1, ?_, h3⟩
        intro hmem
        exact h2 ((JS.mem_setAdd _ _ _).mpr (Or.inl hmem))

theorem loopAlerts_append (lowerCase : List Char → List Char) (settings : Settings)
    (xs ys : List Listing) (seen : List (List Char)) :
    loopAlerts lowerCase settings (xs ++ ys) seen =
      loopAlerts lowerCase settings xs seen ++ loopAlerts lowerCase settings ys
          (JS.setAddAll seen (listingIds xs)) := by
  induction xs generalizing seen with
  | nil => simp [loopAlerts, listingIds, JS.setAddAll]
  | cons x xs ih =>
      have h1 : loopAlerts lowerCase settings (x :: (xs ++ ys)) seen =
          (if extractListingId x.link ∉ seen ∧ shouldAlert lowerCase settings x = true then [x]
              else []) ++
            loopAlerts lowerCase settings (xs ++ ys) (JS.setAdd seen (extractListingId x.link)) :=
                rfl
      have h2 : JS.setAddAll seen (listingIds (x :: xs)) =
          JS.setAddAll (JS.setAdd seen (extractListingId x.link)) (listingIds xs) := rfl
      have h3 : loopAlerts lowerCase settings (x :: xs) seen =
          (if extractListingId x.link ∉ seen ∧ shouldAlert lowerCase settings x = true then [x]
              else []) ++
            loopAlerts lowerCase settings xs (JS.setAdd seen (extractListingId x.link)) := rfl
      rw [List.cons_append, h1, ih, h2, h3, List.append_assoc]

/-- The non-first-run path of `processListings`, in terms of the loop. -/
theorem processListings_of_completed (lowerCase : List Char → List Char) (getOk : Bool)
    (setOk : Nat → Bool) (listings : List Listing)
    (keyword : List Char) (settings : Settings) (state : State) (storage : Storage)
    (hk : keyword ∈ state.firstRunKeywords) :
    alerts (processListings lowerCase getOk setOk listings keyword settings state storage).effects =
        loopAlerts lowerCase settings listings (refreshSeen getOk state storage).seenListings ∧
      (processListings lowerCase getOk setOk listings keyword settings state
          storage).state.firstRunKeywords =
        state.firstRunKeywords ∧
      (processListings lowerCase getOk setOk listings keyword settings state
          storage).state.seenListings =
        (finalSave setOk (processLoop lowerCase settings setOk listings
          { state := refreshSeen getOk state storage, storage := storage, setCalls := 0,
            effects := [] })).state.seenListings := by
  have hk1 : keyword ∈ (refreshSeen getOk state storage).firstRunKeywords := by
    rw [refreshSeen_keywords]; exact hk
  unfold processListings
  simp only [hk1, decide_True, Bool.not_true, Bool.false_eq_true, if_false]
  refine ⟨?_, ?_, trivial⟩
  · rw [finalSave_alerts, processLoop_alerts]
    simp [alerts]
  · rw [finalSave_keywords, processLoop_keywords, refreshSeen_keywords]

theorem finalSave_seen_of_big (setOk : Nat → Bool) (r : Run) (hok : setOk r.setCalls = true)
    (hbig : 5000 < r.state.seenListings.length) :
    (finalSave setOk r).state.seenListings =
      JS.setAddAll [] (JS.sliceLast 5000 r.state.seenListings) := by
  rw [finalSave_seen, if_pos ⟨hok, hbig⟩]

theorem finalSave_seen_of_small (setOk : Nat → Bool) (r : Run)
    (hsmall : r.state.seenListings.length ≤ 5000) :
    (finalSave setOk r).state.seenListings = r.state.seenListings := by
  rw [finalSave_seen, if_neg (fun h => absurd h.2 (not_lt.mpr hsmall))]

/-- No id of the shape "x", "xx", and so on is a one-letter id other than "x". -/
theorem not_mem_replicate_x (c : Char) (hc : c ≠ 'x') (n : Nat) :
    [c] ∉ (List.range n).map (fun k => List.replicate (k + 1) 'x') := by
  intro h
  obtain ⟨k, _, hk⟩ := List.mem_map.mp h
  rw [List.replicate_succ] at hk
  exact hc (List.cons.inj hk).1.symm

/-- A full seen set whose oldest id is "a": a batch with the ids "a" and "b"
evicts "a", and the same batch processed again alerts the listing "a". -/
theorem evicted_then_alerted (lowerCase : List Char → List Char) (rest : List (List Char))
    (hlen : rest.length = 4999)
    (ha : ['a'] ∉ rest) (hb : ['b'] ∉ rest) (kw : List Char) :
    (⟨['a'], "$150".toList, "iPhone 12".toList⟩ : Listing) ∈
      alerts
        (processListings lowerCase true (fun _ => true) twoListings kw plainSettings
          (processListings lowerCase true (fun _ => true) twoListings kw plainSettings
            ⟨true, ['a'] :: rest, false, [kw]⟩ ⟨some (['a'] :: rest), some false, some [kw]⟩).state
          (processListings lowerCase true (fun _ => true) twoListings kw plainSettings
            ⟨true, ['a'] :: rest, false, [kw]⟩
            ⟨some (['a'] :: rest), some false, some [kw]⟩).storage).effects := by
  have hids : listingIds twoListings = [['a'], ['b']] := by decide
  have hk : kw ∈ (⟨true, ['a'] :: rest, false, [kw]⟩ : State).firstRunKeywords :=
    List.mem_singleton.mpr rfl
  obtain ⟨_, hkw1, hseen1⟩ := processListings_of_completed lowerCase true (fun _ => true)
    twoListings kw plainSettings ⟨true, ['a'] :: rest, false, [kw]⟩
    ⟨some (['a'] :: rest), some false, some [kw]⟩ hk
  have hrefresh : (refreshSeen true ⟨true, ['a'] :: rest, false, [kw]⟩
      ⟨some (['a'] :: rest), some false, some [kw]⟩).seenListings = ['a'] :: rest := by
    have hpos : 0 < (['a'] :: rest).length := by simp
    simp only [refreshSeen, if_true, hpos]
    exact JS.setAddAll_of_subset _ _ (fun x hx => hx)
  have hloop : (processLoop lowerCase plainSettings (fun _ => true) twoListings
      { state := refreshSeen true ⟨true, ['a'] :: rest, false, [kw]⟩
          ⟨some (['a'] :: rest), some false, some [kw]⟩,
        storage := ⟨some (['a'] :: rest), some false, some [kw]⟩, setCalls := 0,
        effects := [] }).state.seenListings = (['a'] :: rest) ++ [['b']] := by
    rw [processLoop_seen]
    show JS.setAddAll (refreshSeen true ⟨true, ['a'] :: rest, false, [kw]⟩
      ⟨some (['a'] :: rest), some false, some [kw]⟩).seenListings (listingIds twoListings) = _
    rw [hrefresh, hids, JS.setAddAll_cons, JS.setAddAll_cons]
    have h1 : JS.setAdd (['a'] :: rest) ['a'] = ['a'] :: rest := by
      unfold JS.setAdd
      rw [if_pos (List.mem_cons_self _ _)]
    have hb2 : ['b'] ∉ (['a'] :: rest) := by
      intro hmem
      rcases List.mem_cons.mp hmem with h | h
      · exact absurd h (by decide)
      · exact hb h
    have h2 : JS.setAdd (['a'] :: rest) ['b'] = (['a'] :: rest) ++ [['b']] := by
      unfold JS.setAdd
      rw [if_neg hb2]
    rw [h1, h2]
    rfl
  have hbig : 5000 < ((['a'] :: rest) ++ [['b']]).length := by
    simp only [List.length_append, List.length_cons, List.length_nil, hlen]
    omega
  have hslice : JS.sliceLast 5000 ((['a'] :: rest) ++ [['b']]) = rest ++ [['b']] := by
    unfold JS.sliceLast
    have h1 : ((['a'] :: rest) ++ [['b']]).length - 5000 = 1 := by
      simp only [List.length_append, List.length_cons, List.length_nil, hlen]
    rw [h1]
    rfl
  have hfirst : (processListings lowerCase true (fun _ => true) twoListings kw plainSettings
      ⟨true, ['a'] :: rest, false, [kw]⟩
      ⟨some (['a'] :: rest), some false, some [kw]⟩).state.seenListings =
      JS.setAddAll [] (rest ++ [['b']]) := by
    rw [hseen1, finalSave_seen_of_big _ _ rfl (by rw [hloop]; exact hbig), hloop, hslice]
  have hstore : (processListings lowerCase true (fun _ => true) twoListings kw plainSettings
      ⟨true, ['a'] :: rest, false, [kw]⟩
      ⟨some (['a'] :: rest), some false, some [kw]⟩).storage.seenListings =
      some (processListings lowerCase true (fun _ => true) twoListings kw plainSettings
        ⟨true, ['a'] :: rest, false, [kw]⟩
        ⟨some (['a'] :: rest), some false, some [kw]⟩).state.seenListings := by
    have hk1 : kw ∈ (refreshSeen true ⟨true, ['a'] :: rest, false, [kw]⟩
        ⟨some (['a'] :: rest), some false, some [kw]⟩).firstRunKeywords := by
      rw [refreshSeen_keywords]; exact hk
    unfold processListings
    simp only [hk1, decide_True, Bool.not_true, Bool.false_eq_true, if_false]
    exact finalSave_storage _ (fun _ => rfl) _
  have hnot : ['a'] ∉ (processListings lowerCase true (fun _ => true) twoListings kw plainSettings
      ⟨true, ['a'] :: rest, false, [kw]⟩
      ⟨some (['a'] :: rest), some false, some [kw]⟩).state.seenListings := by
    rw [hfirst, JS.mem_setAddAll]
    intro h
    rcases h with h | h
    · exact absurd h (List.not_mem_nil _)
    · rcases List.mem_append.mp h with h | h
      · exact ha h
      · exact absurd (List.mem_singleton.mp h) (by decide)
  have hk2 : kw ∈ (processListings lowerCase true (fun _ => true) twoListings kw plainSettings
      ⟨true, ['a'] :: rest, false, [kw]⟩
      ⟨some (['a'] :: rest), some false, some [kw]⟩).state.firstRunKeywords := by
    rw [hkw1]; exact hk
  obtain ⟨halerts2, _, _⟩ := processListings_of_completed lowerCase true (fun _ => true)
    twoListings kw plainSettings _ _ hk2
  rw [halerts2]
  have hunseen : extractListingId ['a'] ∉ (refreshSeen true
      (processListings lowerCase true (fun _ => true) twoListings kw plainSettings
        ⟨true, ['a'] :: rest, false, [kw]⟩
        ⟨some (['a'] :: rest), some false, some [kw]⟩).state
      (processListings lowerCase true (fun _ => true) twoListings kw plainSettings
        ⟨true, ['a'] :: rest, false, [kw]⟩
        ⟨some (['a'] :: rest), some false, some [kw]⟩).storage).seenListings := by
    have hid : extractListingId ['a'] = ['a'] := by decide
    rw [hid]
    intro hmem
    rcases mem_refreshSeen _ _ _ _ hmem with h | ⟨stored, hs, h⟩
    · exact hnot h
    · rw [hstore] at hs
      cases hs
      exact hnot h
  have hshould :
      shouldAlert lowerCase plainSettings ⟨['a'], "$150".toList, "iPhone 12".toList⟩ = true := rfl
  have hunfold : ∀ seen, loopAlerts lowerCase plainSettings twoListings seen =
      (if extractListingId ['a'] ∉ seen ∧
          shouldAlert lowerCase plainSettings ⟨['a'], "$150".toList, "iPhone 12".toList⟩ = true
        then [(⟨['a'], "$150".toList, "iPhone 12".toList⟩ : Listing)] else []) ++
      loopAlerts lowerCase plainSettings [⟨['b'], "$150".toList, "iPhone 12".toList⟩]
        (JS.setAdd seen (extractListingId ['a'])) := fun _ => rfl
  rw [hunfold, if_pos ⟨hunseen, hshould⟩]
  exact List.mem_append_left _ (List.mem_singleton.mpr rfl)

end Background

/-! ## Properties -/

/-- C1. Exact phase of `product-checker.js`: when some product's normalized
name occurs in the normalized title, `checkProduct` reports a product that is
such a candidate, whose normalized name no candidate exceeds in length, and
that is listed before every other candidate of that length; the answer of
`matchTitleToProducts` is that product alone. -/
theorem ProductChecker.checkProduct_exact_longest_first (title : List Char)
    (price : ProductChecker.PriceArg) (products : List Product)
    (h : ∃ q ∈ products, ProductChecker.isCandidate title q) :
    ∃ pre p post, products = pre ++ p :: post ∧
      ProductChecker.isCandidate title p ∧
      (∀ q ∈ products, ProductChecker.isCandidate title q →
        (ProductChecker.normalizeTitle q.name).length ≤ (ProductChecker.normalizeTitle p.name).length) ∧
      (∀ q ∈ pre, ProductChecker.isCandidate title q →
        (ProductChecker.normalizeTitle q.name).length < (ProductChecker.normalizeTitle p.name).length) ∧
      ProductChecker.matchTitleToProducts title products = [ProductChecker.toNormalized p] ∧
      (ProductChecker.checkProduct title price products).productName = some p.name := by
  obtain ⟨pre, p, post, hl, hcp, hpre, hpost, hmatch, hfind⟩ :=
    ProductChecker.exact_phase title products h
  refine ⟨pre, p, post, hl, hcp, ?_, hpre, hmatch, ?_⟩
  · intro q hq hcq
    rw [hl] at hq
    rcases List.mem_append.mp hq with hq | hq
    · exact le_of_lt (hpre q hq hcq)
    · rcases List.mem_cons.mp hq with rfl | hq
      · exact le_refl _
      · exact hpost q hq hcq
  · have hlen : ¬ products.length = 0 := by rw [hl]; simp
    unfold ProductChecker.checkProduct
    rw [if_neg hlen, hfind]

/-- C1, at the title "iPhone 12 Pro Max 256GB" and the catalog "iPhone 12",
"iPhone 12 Pro Max": the product reported is "iPhone 12 Pro Max". -/
theorem ProductChecker.checkProduct_exact_longest_first_witness :
    (∃ q ∈ [(⟨"iPhone 12".toList, 100, 320, true⟩ : Product), ⟨"iPhone 12 Pro Max".toList, 100, 600, true⟩],
        ProductChecker.isCandidate "iPhone 12 Pro Max 256GB".toList q) ∧
      (ProductChecker.checkProduct "iPhone 12 Pro Max 256GB".toList
        (ProductChecker.PriceArg.text "$500".toList)
        [⟨"iPhone 12".toList, 100, 320, true⟩, ⟨"iPhone 12 Pro Max".toList, 100, 600, true⟩]).productName
        = some "iPhone 12 Pro Max".toList ∧
      ∃ pre p post,
        [(⟨"iPhone 12".toList, 100, 320, true⟩ : Product), ⟨"iPhone 12 Pro Max".toList, 100, 600, true⟩]
          = pre ++ p :: post ∧
        ProductChecker.isCandidate "iPhone 12 Pro Max 256GB".toList p ∧
        (∀ q ∈ [(⟨"iPhone 12".toList, 100, 320, true⟩ : Product), ⟨"iPhone 12 Pro Max".toList, 100, 600, true⟩],
          ProductChecker.isCandidate "iPhone 12 Pro Max 256GB".toList q →
          (ProductChecker.normalizeTitle q.name).length ≤ (ProductChecker.normalizeTitle p.name).length) ∧
        (∀ q ∈ pre, ProductChecker.isCandidate "iPhone 12 Pro Max 256GB".toList q →
          (ProductChecker.normalizeTitle q.name).length < (ProductChecker.normalizeTitle p.name).length) ∧
        ProductChecker.matchTitleToProducts "iPhone 12 Pro Max 256GB".toList
          [⟨"iPhone 12".toList, 100, 320, true⟩, ⟨"iPhone 12 Pro Max".toList, 100, 600, true⟩]
          = [ProductChecker.toNormalized p] ∧
        (ProductChecker.checkProduct "iPhone 12 Pro Max 256GB".toList
          (ProductChecker.PriceArg.text "$500".toList)
          [⟨"iPhone 12".toList, 100, 320, true⟩, ⟨"iPhone 12 Pro Max".toList, 100, 600, true⟩]).productName
          = some p.name :=
  have hc : ∃ q ∈ [(⟨"iPhone 12".toList, 100, 320, true⟩ : Product), ⟨"iPhone 12 Pro Max".toList, 100, 600, true⟩],
      ProductChecker.isCandidate "iPhone 12 Pro Max 256GB".toList q :=
    ⟨⟨"iPhone 12".toList, 100, 320, true⟩, by simp,
      (JS.includes_iff _ _).mp (by decide)⟩
  ⟨hc, by decide,
    ProductChecker.checkProduct_exact_longest_first "iPhone 12 Pro Max 256GB".toList
      (ProductChecker.PriceArg.text "$500".toList) _ hc⟩

/-- C2. The pipeline's `checkProduct` of `background.js`, on the title
"iPhone 12 Pro Max 256GB" and the catalog "iPhone 12", "iPhone 12 Pro Max":
the name reported is "iPhone 12", the first product of the catalog whose
normalized name occurs in the normalized title, although the normalized name
of "iPhone 12 Pro Max" occurs in it too and is longer. -/
theorem Background.checkProduct_reports_first_listed :
    (Background.checkProduct "iPhone 12 Pro Max 256GB".toList "$500".toList
      [⟨"iPhone 12".toList, 100, 320, true⟩, ⟨"iPhone 12 Pro Max".toList, 100, 600, true⟩]).productName
      = some "iPhone 12".toList ∧
    JS.includes (Background.normalizeText "iPhone 12 Pro Max 256GB".toList)
      (Background.normalizeText "iPhone 12".toList) = true ∧
    JS.includes (Background.normalizeText "iPhone 12 Pro Max 256GB".toList)
      (Background.normalizeText "iPhone 12 Pro Max".toList) = true ∧
    (Background.normalizeText "iPhone 12".toList).length
      < (Background.normalizeText "iPhone 12 Pro Max".toList).length := by
  decide

/-- C3. The fuzzy phase does not return the longest name. For the title
"abcdefghij" and the catalog "abcdefghix", "abcdefghixyz" no name occurs in
the title and both ratios reach `0.7` (they are 9/10 and 3/4), yet
`matchTitleToProducts` returns "abcdefghix", of 10 characters, and not
"abcdefghixyz", of 12: each turn of the loop asks `getCloseMatches` for one
name only, so the sort by length that follows, "(longest name)", ranges over
the products of a single name. -/
theorem ProductChecker.fuzzy_phase_not_longest :
    (∀ q ∈ [(⟨"abcdefghix".toList, 100, 320, true⟩ : Product),
        ⟨"abcdefghixyz".toList, 100, 600, true⟩],
      JS.includes (ProductChecker.normalizeTitle "abcdefghij".toList)
        (ProductChecker.normalizeTitle q.name) = false) ∧
    ProductChecker.similarityRatio (ProductChecker.normalizeTitle "abcdefghij".toList)
      (ProductChecker.normalizeTitle "abcdefghix".toList) = 9 / 10 ∧
    ProductChecker.similarityRatio (ProductChecker.normalizeTitle "abcdefghij".toList)
      (ProductChecker.normalizeTitle "abcdefghixyz".toList) = 3 / 4 ∧
    ProductChecker.matchTitleToProducts "abcdefghij".toList
      [⟨"abcdefghix".toList, 100, 320, true⟩, ⟨"abcdefghixyz".toList, 100, 600, true⟩] =
        [⟨"abcdefghix".toList, "abcdefghix".toList⟩] ∧
    (ProductChecker.checkProduct "abcdefghij".toList (ProductChecker.PriceArg.text "$150".toList)
      [⟨"abcdefghix".toList, 100, 320, true⟩,
        ⟨"abcdefghixyz".toList, 100, 600, true⟩]).productName = some "abcdefghix".toList ∧
    (ProductChecker.normalizeTitle "abcdefghix".toList).length <
      (ProductChecker.normalizeTitle "abcdefghixyz".toList).length := by
  refine ⟨by decide, by decide!, by decide!, by decide!, by decide!, by decide⟩

/-- The statement that the fuzzy phase returns the longest name among the
products whose ratio reaches `0.7` does not hold of `matchTitleToProducts`. -/
theorem ProductChecker.fuzzy_longest_counterexample :
    ¬ (∀ (title : List Char) (products : List Product),
        (∀ q ∈ products, ¬ ProductChecker.isCandidate title q) →
        ∀ m ∈ ProductChecker.matchTitleToProducts title products,
        ∀ q ∈ products, ProductChecker.isFuzzy title q →
          (ProductChecker.normalizeTitle q.name).length ≤ m.normalizedName.length) := by
  intro hclaim
  have hno : ∀ q ∈ [(⟨"abcdefghix".toList, 100, 320, true⟩ : Product),
      ⟨"abcdefghixyz".toList, 100, 600, true⟩],
      ¬ ProductChecker.isCandidate "abcdefghij".toList q := by
    intro q hq hc
    have hinc := (JS.includes_iff _ _).mpr hc
    simp only [List.mem_cons, List.mem_singleton, List.not_mem_nil, or_false] at hq
    rcases hq with rfl | rfl
    · exact absurd hinc (by decide)
    · exact absurd hinc (by decide)
  have hm : (⟨"abcdefghix".toList, "abcdefghix".toList⟩ : ProductChecker.NormalizedProduct) ∈
      ProductChecker.matchTitleToProducts "abcdefghij".toList
        [⟨"abcdefghix".toList, 100, 320, true⟩, ⟨"abcdefghixyz".toList, 100, 600, true⟩] := by
    decide!
  have hfz : ProductChecker.isFuzzy "abcdefghij".toList ⟨"abcdefghixyz".toList, 100, 600, true⟩ := by
    unfold ProductChecker.isFuzzy
    decide!
  have := hclaim _ _ hno _ hm ⟨"abcdefghixyz".toList, 100, 600, true⟩ (by simp) hfz
  exact absurd this (by decide)

/-- What the fuzzy phase of `matchTitleToProducts` returns: with no exact
candidate and some product whose ratio reaches `0.7`, the product returned has
the highest similarity ratio of the catalog, and is listed before every other
product with that ratio. -/
theorem ProductChecker.checkProduct_fuzzy_best_ratio (title : List Char)
    (price : ProductChecker.PriceArg) (products : List Product)
    (hno : ∀ q ∈ products, ¬ ProductChecker.isCandidate title q)
    (h : ∃ q ∈ products, ProductChecker.isFuzzy title q) :
    ∃ pre p post, products = pre ++ p :: post ∧
      ProductChecker.isFuzzy title p ∧
      (∀ q ∈ products,
        ProductChecker.similarityRatio (ProductChecker.normalizeTitle title)
            (ProductChecker.normalizeTitle q.name) ≤
          ProductChecker.similarityRatio (ProductChecker.normalizeTitle title)
            (ProductChecker.normalizeTitle p.name)) ∧
      (∀ q ∈ pre,
        ProductChecker.similarityRatio (ProductChecker.normalizeTitle title)
            (ProductChecker.normalizeTitle q.name) <
          ProductChecker.similarityRatio (ProductChecker.normalizeTitle title)
            (ProductChecker.normalizeTitle p.name)) ∧
      ProductChecker.matchTitleToProducts title products = [ProductChecker.toNormalized p] ∧
      (ProductChecker.checkProduct title price products).productName = some p.name := by
  obtain ⟨pre, p, post, hl, hfp, hpre, hpost, hmatch, hfind⟩ :=
    ProductChecker.fuzzy_phase title products hno h
  have hbelow : ∀ q : Product, ¬ ProductChecker.isFuzzy title q →
      ProductChecker.similarityRatio (ProductChecker.normalizeTitle title)
          (ProductChecker.normalizeTitle q.name) <
        ProductChecker.similarityRatio (ProductChecker.normalizeTitle title)
          (ProductChecker.normalizeTitle p.name) := by
    intro q hq
    exact lt_of_lt_of_le (not_le.mp hq) hfp
  refine ⟨pre, p, post, hl, hfp, ?_, ?_, hmatch, ?_⟩
  · intro q hq
    by_cases hfq : ProductChecker.isFuzzy title q
    · rw [hl] at hq
      rcases List.mem_append.mp hq with hq | hq
      · exact le_of_lt (hpre q hq hfq)
      · rcases List.mem_cons.mp hq with rfl | hq
        · exact le_refl _
        · exact hpost q hq hfq
    · exact le_of_lt (hbelow q hfq)
  · intro q hq
    by_cases hfq : ProductChecker.isFuzzy title q
    · exact hpre q hq hfq
    · exact hbelow q hfq
  · have hlen : ¬ products.length = 0 := by rw [hl]; simp
    unfold ProductChecker.checkProduct
    rw [if_neg hlen, hfind]

/-- The fuzzy phase at the title "abcdefghij" and the catalog "abcdefghix",
"abcdefghixyz". -/
theorem ProductChecker.checkProduct_fuzzy_best_ratio_witness :
    (ProductChecker.checkProduct "abcdefghij".toList (ProductChecker.PriceArg.text "$150".toList)
      [⟨"abcdefghix".toList, 100, 320, true⟩, ⟨"abcdefghixyz".toList, 100, 600, true⟩]).productName
      = some "abcdefghix".toList ∧
    ∃ pre p post,
      [(⟨"abcdefghix".toList, 100, 320, true⟩ : Product), ⟨"abcdefghixyz".toList, 100, 600, true⟩]
        = pre ++ p :: post ∧
      ProductChecker.isFuzzy "abcdefghij".toList p ∧
      (∀ q ∈ [(⟨"abcdefghix".toList, 100, 320, true⟩ : Product), ⟨"abcdefghixyz".toList, 100, 600, true⟩],
        ProductChecker.similarityRatio (ProductChecker.normalizeTitle "abcdefghij".toList)
            (ProductChecker.normalizeTitle q.name) ≤
          ProductChecker.similarityRatio (ProductChecker.normalizeTitle "abcdefghij".toList)
            (ProductChecker.normalizeTitle p.name)) ∧
      (∀ q ∈ pre,
        ProductChecker.similarityRatio (ProductChecker.normalizeTitle "abcdefghij".toList)
            (ProductChecker.normalizeTitle q.name) <
          ProductChecker.similarityRatio (ProductChecker.normalizeTitle "abcdefghij".toList)
            (ProductChecker.normalizeTitle p.name)) ∧
      ProductChecker.matchTitleToProducts "abcdefghij".toList
        [⟨"abcdefghix".toList, 100, 320, true⟩, ⟨"abcdefghixyz".toList, 100, 600, true⟩]
        = [ProductChecker.toNormalized p] ∧
      (ProductChecker.checkProduct "abcdefghij".toList (ProductChecker.PriceArg.text "$150".toList)
        [⟨"abcdefghix".toList, 100, 320, true⟩, ⟨"abcdefghixyz".toList, 100, 600, true⟩]).productName
        = some p.name :=
  ⟨by decide!,
    ProductChecker.checkProduct_fuzzy_best_ratio "abcdefghij".toList
      (ProductChecker.PriceArg.text "$150".toList)
      [⟨"abcdefghix".toList, 100, 320, true⟩, ⟨"abcdefghixyz".toList, 100, 600, true⟩]
      (by
        intro q hq hc
        have hinc := (JS.includes_iff _ _).mpr hc
        simp only [List.mem_cons, List.mem_singleton, List.not_mem_nil, or_false] at hq
        rcases hq with rfl | rfl
        · exact absurd hinc (by decide)
        · exact absurd hinc (by decide))
      ⟨⟨"abcdefghix".toList, 100, 320, true⟩, by simp, by
        unfold ProductChecker.isFuzzy
        decide!⟩⟩

/-- C4. `checkProduct` of `product-checker.js` reports no product exactly when
the catalog is empty or holds neither an exact nor a fuzzy candidate for the
title, and the result is then the one with all three flags false. -/
theorem ProductChecker.checkProduct_null_iff (title : List Char)
    (price : ProductChecker.PriceArg) (products : List Product) :
    ((ProductChecker.checkProduct title price products).productName = none ↔
      (products = [] ∨
        ((∀ q ∈ products, ¬ ProductChecker.isCandidate title q) ∧
          (∀ q ∈ products, ¬ ProductChecker.isFuzzy title q)))) ∧
    ((ProductChecker.checkProduct title price products).productName = none →
      (ProductChecker.checkProduct title price products).isGoodDeal = false ∧
      (ProductChecker.checkProduct title price products).nearGoodDeal = false ∧
      (ProductChecker.checkProduct title price products).preferred = false) := by
  have hsome : ∀ p : Product, ProductChecker.findProduct title products = some p →
      products ≠ [] →
      (ProductChecker.checkProduct title price products).productName = some p.name := by
    intro p hfind hne
    have hlen : ¬ products.length = 0 := by
      intro h0; exact hne (List.length_eq_zero.mp h0)
    unfold ProductChecker.checkProduct
    rw [if_neg hlen, hfind]
  have hnone : ProductChecker.findProduct title products = none →
      ProductChecker.checkProduct title price products = MatchResult.noMatch := by
    intro hfind
    unfold ProductChecker.checkProduct
    split
    · rfl
    · rw [hfind]
  by_cases hnil : products = []
  · subst hnil
    have : ProductChecker.checkProduct title price [] = MatchResult.noMatch := by
      simp [ProductChecker.checkProduct]
    rw [this]
    simp [MatchResult.noMatch]
  · by_cases hc : ∃ q ∈ products, ProductChecker.isCandidate title q
    · obtain ⟨pre, p, post, hl, _, _, _, _, hfind⟩ := ProductChecker.exact_phase title products hc
      rw [hsome p hfind hnil]
      obtain ⟨q, hq, hcq⟩ := hc
      constructor
      · constructor
        · intro h; exact absurd h (by simp)
        · rintro (h | ⟨h, _⟩)
          · exact absurd h hnil
          · exact absurd hcq (h q hq)
      · intro h; exact absurd h (by simp)
    · have hno : ∀ q ∈ products, ¬ ProductChecker.isCandidate title q := by
        intro q hq hcq; exact hc ⟨q, hq, hcq⟩
      by_cases hf : ∃ q ∈ products, ProductChecker.isFuzzy title q
      · obtain ⟨pre, p, post, hl, _, _, _, _, hfind⟩ := ProductChecker.fuzzy_phase title products hno hf
        rw [hsome p hfind hnil]
        obtain ⟨q, hq, hfq⟩ := hf
        constructor
        · constructor
          · intro h; exact absurd h (by simp)
          · rintro (h | ⟨_, h⟩)
            · exact absurd h hnil
            · exact absurd hfq (h q hq)
        · intro h; exact absurd h (by simp)
      · have hnf : ∀ q ∈ products, ¬ ProductChecker.isFuzzy title q := by
          intro q hq hfq; exact hf ⟨q, hq, hfq⟩
        have hfind : ProductChecker.findProduct title products = none := by
          unfold ProductChecker.findProduct
          rw [ProductChecker.no_phase title products hno hnf]
        rw [hnone hfind]
        simp only [MatchResult.noMatch, true_iff, true_implies, and_self, and_true]
        exact Or.inr ⟨hno, hnf⟩

/-- C5, as stated, fails from `2^53` on. The price text "$9007199254740995"
has a digit run of the value 9007199254740995, which is below the maximum
price 9007199254740996; `parseInt` gives the Number nearest to that value,
which is 9007199254740996, so the listing is not a good deal but a near-good
deal. -/
theorem Background.deal_classification_counterexample :
    JS.matchDigits "$9007199254740995".toList = some "9007199254740995".toList ∧
    JS.digitsValue "9007199254740995".toList = 9007199254740995 ∧
    JS.parseInt "9007199254740995".toList = 9007199254740996 ∧
    Background.findMatchingProduct "iPhone 12".toList
      [⟨"iPhone 12".toList, 100, 9007199254740996, true⟩] =
        some ⟨"iPhone 12".toList, 100, 9007199254740996, true⟩ ∧
    ((9007199254740995 : Nat) : Int) < 9007199254740996 ∧
    (Background.checkProduct "iPhone 12".toList "$9007199254740995".toList
      [⟨"iPhone 12".toList, 100, 9007199254740996, true⟩]).isGoodDeal = false ∧
    (Background.checkProduct "iPhone 12".toList "$9007199254740995".toList
      [⟨"iPhone 12".toList, 100, 9007199254740996, true⟩]).nearGoodDeal = true := by
  decide

/-- C5, amended. Deal classification by the pipeline's `checkProduct`: for a
matched product with maximum price `M` and a price text whose first digit run
has the value `p`, the listing is a good deal exactly when `d(p) < M` and a
near-good deal exactly when `M ≤ d(p) ≤ d(M + 100)`, where `d(x)` is the
Number nearest to `x`. When `p` and the size of `M + 100` are at most `2^53`
these are `p < M` and `M ≤ p ≤ M + 100`. -/
theorem Background.checkProduct_deal_classification (title priceStr : List Char)
    (products : List Product) (matched : Product) (digits : List Char)
    (hmatch : Background.findMatchingProduct title products = some matched)
    (hdigits : JS.matchDigits priceStr = some digits) :
    ((Background.checkProduct title priceStr products).isGoodDeal = true ↔
      ((JS.toNumber (JS.digitsValue digits) : Nat) : Int) < matched.maxPrice) ∧
    ((Background.checkProduct title priceStr products).nearGoodDeal = true ↔
      (matched.maxPrice ≤ ((JS.toNumber (JS.digitsValue digits) : Nat) : Int) ∧
        ((JS.toNumber (JS.digitsValue digits) : Nat) : Int) ≤ JS.plus matched.maxPrice 100)) ∧
    (JS.digitsValue digits ≤ 9007199254740992 →
      (matched.maxPrice + 100).natAbs ≤ 9007199254740992 →
      ((Background.checkProduct title priceStr products).isGoodDeal = true ↔
        (JS.digitsValue digits : Int) < matched.maxPrice) ∧
      ((Background.checkProduct title priceStr products).nearGoodDeal = true ↔
        (matched.maxPrice ≤ (JS.digitsValue digits : Int) ∧
          (JS.digitsValue digits : Int) ≤ matched.maxPrice + 100))) ∧
    (Background.checkProduct title priceStr products).productName = some matched.name ∧
    (Background.checkProduct title priceStr products).preferred = matched.preferred := by
  have hlen : ¬ products.length = 0 := by
    intro h0
    rw [List.length_eq_zero.mp h0] at hmatch
    simp [Background.findMatchingProduct] at hmatch
  have hprice : Background.parsePriceOrMax priceStr = JS.toNumber (JS.digitsValue digits) := by
    simp [Background.parsePriceOrMax, hdigits, JS.parseInt]
  have hgood : (Background.checkProduct title priceStr products).isGoodDeal = true ↔
      ((JS.toNumber (JS.digitsValue digits) : Nat) : Int) < matched.maxPrice := by
    unfold Background.checkProduct
    rw [if_neg hlen, hmatch, hprice]
    simp
  have hnear : (Background.checkProduct title priceStr products).nearGoodDeal = true ↔
      (matched.maxPrice ≤ ((JS.toNumber (JS.digitsValue digits) : Nat) : Int) ∧
        ((JS.toNumber (JS.digitsValue digits) : Nat) : Int) ≤ JS.plus matched.maxPrice 100) := by
    unfold Background.checkProduct
    rw [if_neg hlen, hmatch, hprice]
    simp only [Bool.and_eq_true, Bool.not_eq_true', decide_eq_true_eq, decide_eq_false_iff_not]
    constructor
    · rintro ⟨⟨_, h1⟩, h2⟩; exact ⟨h1, h2⟩
    · rintro ⟨h1, h2⟩; exact ⟨⟨not_lt.mpr h1, h1⟩, h2⟩
  refine ⟨hgood, hnear, ?_, ?_, ?_⟩
  · intro hp hM
    rw [hgood, hnear, JS.toNumber_of_le _ hp, JS.plus_of_natAbs_le _ _ hM]
    exact ⟨Iff.rfl, Iff.rfl⟩
  · unfold Background.checkProduct
    rw [if_neg hlen, hmatch]
  · unfold Background.checkProduct
    rw [if_neg hlen, hmatch]

/-- C5, amended, at the maximum price 300: "$299" is a good deal, "$300" and
"$400" are near-good deals, "$401" is neither. -/
theorem Background.checkProduct_deal_classification_witness :
    JS.digitsValue "299".toList = 299 ∧
    (Background.checkProduct "iPhone 11 Pro Max".toList "$299".toList
      [⟨"iPhone 11 Pro Max".toList, 100, 300, true⟩]) =
      ⟨some "iPhone 11 Pro Max".toList, true, false, true⟩ ∧
    (Background.checkProduct "iPhone 11 Pro Max".toList "$300".toList
      [⟨"iPhone 11 Pro Max".toList, 100, 300, true⟩]) =
      ⟨some "iPhone 11 Pro Max".toList, false, true, true⟩ ∧
    (Background.checkProduct "iPhone 11 Pro Max".toList "$400".toList
      [⟨"iPhone 11 Pro Max".toList, 100, 300, true⟩]) =
      ⟨some "iPhone 11 Pro Max".toList, false, true, true⟩ ∧
    (Background.checkProduct "iPhone 11 Pro Max".toList "$401".toList
      [⟨"iPhone 11 Pro Max".toList, 100, 300, true⟩]) =
      ⟨some "iPhone 11 Pro Max".toList, false, false, true⟩ ∧
    ((Background.checkProduct "iPhone 11 Pro Max".toList "$299".toList
        [⟨"iPhone 11 Pro Max".toList, 100, 300, true⟩]).isGoodDeal = true ↔
      (JS.digitsValue "299".toList : Int) < 300) ∧
    ((Background.checkProduct "iPhone 11 Pro Max".toList "$299".toList
        [⟨"iPhone 11 Pro Max".toList, 100, 300, true⟩]).nearGoodDeal = true ↔
      ((300 : Int) ≤ (JS.digitsValue "299".toList : Int) ∧
        (JS.digitsValue "299".toList : Int) ≤ 300 + 100)) :=
  ⟨by decide, by decide, by decide, by decide, by decide,
    (Background.checkProduct_deal_classification "iPhone 11 Pro Max".toList "$299".toList
      [⟨"iPhone 11 Pro Max".toList, 100, 300, true⟩] ⟨"iPhone 11 Pro Max".toList, 100, 300, true⟩
      "299".toList (by decide) (by decide)).2.2.1 (by decide) (by decide)⟩

/-- Below the sentinel a price text without a digit is neither a good deal nor
a near-good deal. -/
theorem Background.checkProduct_no_digit_of_small_max (title priceStr : List Char)
    (products : List Product) (matched : Product)
    (hmatch : Background.findMatchingProduct title products = some matched)
    (hdigits : JS.matchDigits priceStr = none)
    (hmax : matched.maxPrice + 100 < (JS.MAX_SAFE_INTEGER : Int)) :
    (Background.checkProduct title priceStr products).isGoodDeal = false ∧
    (Background.checkProduct title priceStr products).nearGoodDeal = false := by
  have hlen : ¬ products.length = 0 := by
    intro h0
    rw [List.length_eq_zero.mp h0] at hmatch
    simp [Background.findMatchingProduct] at hmatch
  have hprice : Background.parsePriceOrMax priceStr = JS.MAX_SAFE_INTEGER := by
    simp [Background.parsePriceOrMax, hdigits]
  unfold Background.checkProduct
  rw [if_neg hlen, hmatch, hprice]
  have h1 : ¬ ((JS.MAX_SAFE_INTEGER : Int) < matched.maxPrice) := by omega
  have h2 : ¬ ((JS.MAX_SAFE_INTEGER : Int) ≤ JS.plus matched.maxPrice 100) := by
    have hle := JS.plus_le_of_le matched.maxPrice 100 9007199254740990
      (by unfold JS.MAX_SAFE_INTEGER at hmax; omega) (by decide)
    unfold JS.MAX_SAFE_INTEGER
    omega
  simp [h1, h2]

/-- C6. The pipeline's `checkProduct` on the price text "Free", which holds no
digit: with the maximum price `9007199254740992` the listing is classified as
a good deal, and with the maximum price `9007199254740991` as a near-good
deal, since the missing price is the number `9007199254740991`. -/
theorem Background.checkProduct_no_digit_sentinel_compares :
    JS.matchDigits "Free".toList = none ∧
    (Background.checkProduct "iPhone 12".toList "Free".toList
      [⟨"iPhone 12".toList, 100, 9007199254740992, true⟩]).isGoodDeal = true ∧
    (Background.checkProduct "iPhone 12".toList "Free".toList
      [⟨"iPhone 12".toList, 100, 9007199254740991, true⟩]).nearGoodDeal = true := by
  decide

/-- The id added last is among the last `n` ids, for a positive `n`. -/
theorem Background.mem_sliceLast_append_singleton {α : Type} (xs : List α) (x : α) (n : Nat)
    (hn : 0 < n) : x ∈ JS.sliceLast n (xs ++ [x]) := by
  unfold JS.sliceLast
  rw [List.drop_append_of_le_length (by rw [List.length_append, List.length_singleton]; omega)]
  exact List.mem_append_right _ (List.mem_singleton.mpr rfl)

/-- C7, as stated, fails. The seen set holds the 5000 ids "a", "x", "xx", and
so on, in memory and in storage; the batch has the ids "a" and "b". The first
batch adds "b" and its trim evicts "a", the oldest id; processed again, the
batch alerts the listing with the id "a". -/
theorem Background.dedup_counterexample :
    Background.fullSeen.Nodup ∧ Background.fullSeen.length = 5000 ∧
    Background.listingIds Background.twoListings = [['a'], ['b']] ∧
    (⟨['a'], "$150".toList, "iPhone 12".toList⟩ : Background.Listing) ∈
      Background.alerts
        (Background.processListings JS.toLowerCase true (fun _ => true) Background.twoListings
            "iPhone".toList
          Background.plainSettings
          (Background.processListings JS.toLowerCase true (fun _ => true) Background.twoListings
              "iPhone".toList
            Background.plainSettings ⟨true, Background.fullSeen, false, ["iPhone".toList]⟩
            ⟨some Background.fullSeen, some false, some ["iPhone".toList]⟩).state
          (Background.processListings JS.toLowerCase true (fun _ => true) Background.twoListings
              "iPhone".toList
            Background.plainSettings ⟨true, Background.fullSeen, false, ["iPhone".toList]⟩
            ⟨some Background.fullSeen, some false, some ["iPhone".toList]⟩).storage).effects := by
  have hlen : ((List.range 4999).map (fun k => List.replicate (k + 1) 'x')).length = 4999 := by
    rw [List.length_map, List.length_range]
  refine ⟨?_, ?_, by decide, ?_⟩
  · unfold Background.fullSeen
    rw [List.nodup_cons]
    exact ⟨Background.not_mem_replicate_x 'a' (by decide) 4999,
      List.Nodup.map Background.replicate_x_injective (List.nodup_range 4999)⟩
  · unfold Background.fullSeen
    rw [List.length_cons, hlen]
  · unfold Background.fullSeen
    exact Background.evicted_then_alerted JS.toLowerCase _ hlen
      (Background.not_mem_replicate_x 'a' (by decide) 4999)
      (Background.not_mem_replicate_x 'b' (by decide) 4999) "iPhone".toList

/-- C7, amended. Dedup of `processListings` when the trim keeps the ids of the
batch: if every id of the batch is among the last 5000 ids of the seen set
once the stored ids and the ids of the batch are added, a second
non-first-run run of the same batch emits no alert. This covers every seen
set that stays within 5000 ids. -/
theorem Background.processListings_second_batch_silent (lowerCase : List Char → List Char)
    (getOk1 getOk2 : Bool)
    (setOk1 setOk2 : Nat → Bool) (listings : List Background.Listing) (keyword : List Char)
    (settings1 settings2 : Background.Settings) (state : Background.State)
    (storage : Background.Storage)
    (hk : keyword ∈ state.firstRunKeywords)
    (hkeep : ∀ id ∈ Background.listingIds listings,
      id ∈ JS.sliceLast 5000
        (JS.setAddAll (Background.refreshSeen getOk1 state storage).seenListings
          (Background.listingIds listings))) :
    Background.alerts
      (Background.processListings lowerCase getOk2 setOk2 listings keyword settings2
        (Background.processListings lowerCase getOk1 setOk1 listings keyword settings1 state
            storage).state
        (Background.processListings lowerCase getOk1 setOk1 listings keyword settings1 state
          storage).storage).effects = [] ∧
    ((JS.setAddAll (Background.refreshSeen getOk1 state storage).seenListings
        (Background.listingIds listings)).length ≤ 5000 →
      ∀ id ∈ Background.listingIds listings,
        id ∈ JS.sliceLast 5000
          (JS.setAddAll (Background.refreshSeen getOk1 state storage).seenListings
            (Background.listingIds listings))) := by
  obtain ⟨_, hkw1, hseen1⟩ := Background.processListings_of_completed lowerCase getOk1 setOk1
      listings
    keyword settings1 state storage hk
  have hloop : (Background.processLoop lowerCase settings1 setOk1 listings
      { state := Background.refreshSeen getOk1 state storage, storage := storage, setCalls := 0,
        effects := [] }).state.seenListings =
      JS.setAddAll (Background.refreshSeen getOk1 state storage).seenListings
        (Background.listingIds listings) := by
    rw [Background.processLoop_seen]
  have hfirst : ∀ id ∈ Background.listingIds listings,
      id ∈ (Background.processListings lowerCase getOk1 setOk1 listings keyword settings1 state
        storage).state.seenListings := by
    intro id hid
    rw [hseen1, Background.finalSave_seen, hloop]
    split
    · exact (JS.mem_setAddAll _ _ _).mpr (Or.inr (hkeep id hid))
    · exact (JS.mem_setAddAll _ _ _).mpr (Or.inr hid)
  have hk2 : keyword ∈ (Background.processListings lowerCase getOk1 setOk1 listings keyword
      settings1 state
      storage).state.firstRunKeywords := by
    rw [hkw1]; exact hk
  obtain ⟨halerts2, _, _⟩ := Background.processListings_of_completed lowerCase getOk2 setOk2
      listings
    keyword settings2 _ _ hk2
  constructor
  · rw [halerts2, List.eq_nil_iff_forall_not_mem]
    intro l hl
    obtain ⟨hmem, hunseen, _⟩ := Background.mem_loopAlerts lowerCase _ _ _ _ hl
    apply hunseen
    apply Background.refreshSeen_mono
    exact hfirst _ (List.mem_map_of_mem _ hmem)
  · intro hsize id hid
    unfold JS.sliceLast
    rw [Nat.sub_eq_zero_of_le hsize, List.drop_zero]
    exact (JS.mem_setAddAll _ _ _).mpr (Or.inr hid)

/-- C7, amended, at a full seen set: the seen set holds the 5000 ids "a", "x",
"xx", and so on, and the batch is one listing with the new id "b". The first
run alerts it and its trim evicts "a"; the second run of the batch is
silent. -/
theorem Background.processListings_second_batch_silent_witness :
    "iPhone".toList ∈
      (⟨true, Background.fullSeen, false, ["iPhone".toList]⟩ :
        Background.State).firstRunKeywords ∧
    (∀ id ∈ Background.listingIds [⟨"b".toList, "$150".toList, "iPhone 12".toList⟩],
      id ∈ JS.sliceLast 5000
        (JS.setAddAll (Background.refreshSeen true
            ⟨true, Background.fullSeen, false, ["iPhone".toList]⟩ ⟨none, none, none⟩).seenListings
          (Background.listingIds [⟨"b".toList, "$150".toList, "iPhone 12".toList⟩]))) ∧
    Background.alerts
      (Background.processListings JS.toLowerCase true (fun _ => true)
        [⟨"b".toList, "$150".toList, "iPhone 12".toList⟩] "iPhone".toList
        Background.plainSettings
        (Background.processListings JS.toLowerCase true (fun _ => true)
          [⟨"b".toList, "$150".toList, "iPhone 12".toList⟩] "iPhone".toList
          Background.plainSettings ⟨true, Background.fullSeen, false, ["iPhone".toList]⟩
          ⟨none, none, none⟩).state
        (Background.processListings JS.toLowerCase true (fun _ => true)
          [⟨"b".toList, "$150".toList, "iPhone 12".toList⟩] "iPhone".toList
          Background.plainSettings ⟨true, Background.fullSeen, false, ["iPhone".toList]⟩
          ⟨none, none, none⟩).storage).effects = [] :=
  have hkeep : ∀ id ∈ Background.listingIds [⟨"b".toList, "$150".toList, "iPhone 12".toList⟩],
      id ∈ JS.sliceLast 5000
        (JS.setAddAll (Background.refreshSeen true
            ⟨true, Background.fullSeen, false, ["iPhone".toList]⟩ ⟨none, none, none⟩).seenListings
          (Background.listingIds [⟨"b".toList, "$150".toList, "iPhone 12".toList⟩])) := by
    have hids : Background.listingIds [⟨"b".toList, "$150".toList, "iPhone 12".toList⟩] =
        [['b']] := by decide
    have hb : ['b'] ∉ Background.fullSeen := by
      unfold Background.fullSeen
      rw [List.mem_cons]
      rintro (h | h)
      · exact absurd h (by decide)
      · exact Background.not_mem_replicate_x 'b' (by decide) 4999 h
    intro id hid
    rw [hids] at hid ⊢
    rw [List.mem_singleton] at hid
    subst hid
    have hrefresh : (Background.refreshSeen true
        ⟨true, Background.fullSeen, false, ["iPhone".toList]⟩ ⟨none, none, none⟩).seenListings =
        Background.fullSeen := rfl
    have hnil : ∀ ids : List (List Char), JS.setAddAll ids [] = ids := fun _ => rfl
    rw [hrefresh, JS.setAddAll_cons, JS.setAdd_of_not_mem _ _ hb, hnil]
    exact Background.mem_sliceLast_append_singleton _ _ 5000 (by omega)
  ⟨List.mem_singleton.mpr rfl, hkeep,
    (Background.processListings_second_batch_silent JS.toLowerCase true true (fun _ => true)
        (fun _ => true)
      [⟨"b".toList, "$150".toList, "iPhone 12".toList⟩] "iPhone".toList Background.plainSettings
      Background.plainSettings ⟨true, Background.fullSeen, false, ["iPhone".toList]⟩
      ⟨none, none, none⟩ (List.mem_singleton.mpr rfl) hkeep).1⟩

/-- C8. Baseline suppression: on the first run of a keyword `processListings`
sends no message, and afterwards the seen set holds the id of every listing
of the batch and the keyword is among the completed ones; this holds whether
or not the writes to storage succeed. -/
theorem Background.processListings_baseline (lowerCase : List Char → List Char) (getOk : Bool)
    (setOk : Nat → Bool)
    (listings : List Background.Listing) (keyword : List Char)
    (settings : Background.Settings) (state : Background.State) (storage : Background.Storage)
    (hk : keyword ∉ state.firstRunKeywords) :
    Background.alerts
      (Background.processListings lowerCase getOk setOk listings keyword settings state
          storage).effects = [] ∧
    (∀ l ∈ listings, Background.extractListingId l.link ∈
      (Background.processListings lowerCase getOk setOk listings keyword settings state
        storage).state.seenListings) ∧
    keyword ∈ (Background.processListings lowerCase getOk setOk listings keyword settings state
      storage).state.firstRunKeywords := by
  have hk1 : keyword ∉ (Background.refreshSeen getOk state storage).firstRunKeywords := by
    rw [Background.refreshSeen_keywords]; exact hk
  have hmemAll : ∀ l ∈ listings, Background.extractListingId l.link ∈
      JS.setAddAll (Background.refreshSeen getOk state storage).seenListings
        (Background.listingIds listings) := by
    intro l hl
    rw [JS.mem_setAddAll]
    exact Or.inr (List.mem_map_of_mem _ hl)
  have hkw : keyword ∈ JS.setAdd (Background.refreshSeen getOk state storage).firstRunKeywords
      keyword := (JS.mem_setAdd _ _ _).mpr (Or.inr rfl)
  unfold Background.processListings
  simp only [hk1, decide_False, Bool.not_false, if_true, Background.foldl_setAdd_ids,
    Background.Run.storageSet]
  split
  · exact ⟨by simp [Background.alerts], hmemAll, hkw⟩
  · exact ⟨by simp [Background.alerts], hmemAll, hkw⟩

/-- C8, at a batch of two listings, an empty seen set and no completed
keyword. -/
theorem Background.processListings_baseline_witness :
    "iPhone".toList ∉ (⟨true, [], true, []⟩ : Background.State).firstRunKeywords ∧
    (Background.processListings JS.toLowerCase true (fun _ => true) Background.twoListings
        "iPhone".toList
      Background.plainSettings ⟨true, [], true, []⟩ ⟨none, none, none⟩).state
      = ⟨true, [['a'], ['b']], true, ["iPhone".toList]⟩ ∧
    (Background.alerts
      (Background.processListings JS.toLowerCase true (fun _ => true) Background.twoListings
          "iPhone".toList
        Background.plainSettings ⟨true, [], true, []⟩ ⟨none, none, none⟩).effects = [] ∧
    (∀ l ∈ Background.twoListings, Background.extractListingId l.link ∈
      (Background.processListings JS.toLowerCase true (fun _ => true) Background.twoListings
          "iPhone".toList
        Background.plainSettings ⟨true, [], true, []⟩ ⟨none, none, none⟩).state.seenListings) ∧
    "iPhone".toList ∈ (Background.processListings JS.toLowerCase true (fun _ => true)
        Background.twoListings
      "iPhone".toList Background.plainSettings ⟨true, [], true, []⟩
      ⟨none, none, none⟩).state.firstRunKeywords) :=
  ⟨by decide, by decide,
    Background.processListings_baseline JS.toLowerCase true (fun _ => true) Background.twoListings
      "iPhone".toList Background.plainSettings ⟨true, [], true, []⟩ ⟨none, none, none⟩ (by decide)⟩

/-- C9, as stated, fails in its last part. The batch holds a listing with the
id "w" whose title contains the excluded word, then 5000 listings with new
ids; the seen set is empty at the start. After the call the trim has evicted
"w" from the seen set. -/
theorem Background.excluded_evicted_counterexample :
    Background.containsExcludedWords JS.toLowerCase Background.warrantyListing.title
      Background.warrantySettings.excludedWords = true ∧
    Background.extractListingId Background.warrantyListing.link = ['w'] ∧
    Background.longBatch.length = 5000 ∧
    ['w'] ∉ (Background.processListings JS.toLowerCase true (fun _ => true)
      (Background.warrantyListing :: Background.longBatch) "iPhone".toList
      Background.warrantySettings ⟨true, [], false, ["iPhone".toList]⟩
      ⟨none, none, none⟩).state.seenListings := by
  have hxs : Background.listingIds Background.longBatch =
      (List.range 5000).map (fun k => List.replicate (k + 1) 'x') := by
    unfold Background.listingIds Background.longBatch
    rw [List.map_map]
    apply List.map_congr_left
    intro k _
    exact Background.extractListingId_replicate (k + 1)
  have hlenxs : ((List.range 5000).map (fun k => List.replicate (k + 1) 'x')).length = 5000 := by
    rw [List.length_map, List.length_range]
  have hw : ['w'] ∉ (List.range 5000).map (fun k => List.replicate (k + 1) 'x') :=
    Background.not_mem_replicate_x 'w' (by decide) 5000
  have hids : Background.listingIds (Background.warrantyListing :: Background.longBatch) =
      ['w'] :: (List.range 5000).map (fun k => List.replicate (k + 1) 'x') := by
    have h : Background.listingIds (Background.warrantyListing :: Background.longBatch) =
        Background.extractListingId Background.warrantyListing.link ::
          Background.listingIds Background.longBatch := rfl
    rw [h, hxs]
    have hid : Background.extractListingId Background.warrantyListing.link = ['w'] := by decide
    rw [hid]
  have hnodup : ([] ++ ['w'] :: (List.range 5000).map (fun k => List.replicate (k + 1) 'x')).Nodup := by
    rw [List.nil_append, List.nodup_cons]
    exact ⟨hw, List.Nodup.map Background.replicate_x_injective (List.nodup_range 5000)⟩
  have hk : "iPhone".toList ∈
      (⟨true, [], false, ["iPhone".toList]⟩ : Background.State).firstRunKeywords :=
    List.mem_singleton.mpr rfl
  obtain ⟨_, _, hseen⟩ := Background.processListings_of_completed JS.toLowerCase true
      (fun _ => true)
    (Background.warrantyListing :: Background.longBatch) "iPhone".toList
    Background.warrantySettings ⟨true, [], false, ["iPhone".toList]⟩ ⟨none, none, none⟩ hk
  have hloop : (Background.processLoop JS.toLowerCase Background.warrantySettings (fun _ => true)
      (Background.warrantyListing :: Background.longBatch)
      { state := Background.refreshSeen true ⟨true, [], false, ["iPhone".toList]⟩ ⟨none, none, none⟩,
        storage := ⟨none, none, none⟩, setCalls := 0, effects := [] }).state.seenListings =
      ['w'] :: (List.range 5000).map (fun k => List.replicate (k + 1) 'x') := by
    rw [Background.processLoop_seen, hids]
    show JS.setAddAll [] _ = _
    rw [JS.setAddAll_of_nodup _ _ hnodup, List.nil_append]
  have hbig : 5000 < (['w'] :: (List.range 5000).map (fun k => List.replicate (k + 1) 'x')).length := by
    rw [List.length_cons, hlenxs]
    omega
  have hslice : JS.sliceLast 5000
      (['w'] :: (List.range 5000).map (fun k => List.replicate (k + 1) 'x')) =
      (List.range 5000).map (fun k => List.replicate (k + 1) 'x') := by
    unfold JS.sliceLast
    have h1 : (['w'] :: (List.range 5000).map (fun k => List.replicate (k + 1) 'x')).length - 5000
        = 1 := by
      rw [List.length_cons, hlenxs]
    rw [h1]
    rfl
  refine ⟨by decide, by decide, ?_, ?_⟩
  · unfold Background.longBatch
    rw [List.length_map, List.length_range]
  · rw [hseen, Background.finalSave_seen_of_big _ _ rfl (by rw [hloop]; exact hbig), hloop, hslice,
      JS.mem_setAddAll]
    intro h
    rcases h with h | h
    · exact absurd h (List.not_mem_nil _)
    · exact hw h

/-- C9, amended. Excluded-word filter: in a non-first-run batch, for a listing
that is unseen when its turn comes and whose title in lower case contains a
word of `excludedWords` in lower case, no message is sent for its id; and its
id is in the seen set after the call when fewer than 5000 listings follow it
in the batch. This holds for every case mapping `lowerCase`, so for the
`toLowerCase` of the engine. -/
theorem Background.processListings_excluded (lowerCase : List Char → List Char) (getOk : Bool)
    (setOk : Nat → Bool)
    (pre : List Background.Listing) (l : Background.Listing) (post : List Background.Listing)
    (keyword : List Char) (settings : Background.Settings) (state : Background.State)
    (storage : Background.Storage) (words : List (List Char)) (w : List Char)
    (hk : keyword ∈ state.firstRunKeywords)
    (hunseen : Background.extractListingId l.link ∉
      (Background.refreshSeen getOk state storage).seenListings)
    (hfirst : Background.extractListingId l.link ∉ Background.listingIds pre)
    (hwords : settings.excludedWords = some words) (hw : w ∈ words)
    (hsub : lowerCase w <:+: lowerCase l.title) :
    (∀ a ∈ Background.alerts
        (Background.processListings lowerCase getOk setOk (pre ++ l :: post) keyword settings state
          storage).effects,
      Background.extractListingId a.link ≠ Background.extractListingId l.link) ∧
    (post.length < 5000 →
      Background.extractListingId l.link ∈
        (Background.processListings lowerCase getOk setOk (pre ++ l :: post) keyword settings state
          storage).state.seenListings) := by
  obtain ⟨halerts, _, hseen⟩ := Background.processListings_of_completed lowerCase getOk setOk
    (pre ++ l :: post) keyword settings state storage hk
  have hex : Background.containsExcludedWords lowerCase l.title settings.excludedWords = true :=
    (Background.containsExcludedWords_iff lowerCase _ _).mpr ⟨words, hwords, w, hw, hsub⟩
  have hS1 : Background.extractListingId l.link ∉
      JS.setAddAll (Background.refreshSeen getOk state storage).seenListings
        (Background.listingIds pre) := by
    rw [JS.mem_setAddAll]
    rintro (h | h)
    · exact hunseen h
    · exact hfirst h
  constructor
  · intro a ha
    rw [halerts, Background.loopAlerts_append] at ha
    rcases List.mem_append.mp ha with ha | ha
    · obtain ⟨hmem, _, _⟩ := Background.mem_loopAlerts lowerCase _ _ _ _ ha
      intro heq
      exact hfirst (heq ▸ List.mem_map_of_mem _ hmem)
    · have hcons : ∀ seen, Background.loopAlerts lowerCase settings (l :: post) seen =
          (if Background.extractListingId l.link ∉ seen ∧ Background.shouldAlert lowerCase settings
              l = true
            then [l] else []) ++
          Background.loopAlerts lowerCase settings post
              (JS.setAdd seen (Background.extractListingId l.link)) :=
        fun _ => rfl
      have hshould : ¬ Background.shouldAlert lowerCase settings l = true := by
        simp [Background.shouldAlert, hex]
      rw [hcons, if_neg (fun h => hshould h.2), List.nil_append] at ha
      obtain ⟨_, hnotin, _⟩ := Background.mem_loopAlerts lowerCase _ _ _ _ ha
      intro heq
      exact hnotin ((JS.mem_setAdd _ _ _).mpr (Or.inr heq))
  · intro hpost
    have hids : Background.listingIds (pre ++ l :: post) =
        Background.listingIds pre ++ Background.extractListingId l.link :: Background.listingIds post := by
      simp [Background.listingIds]
    have hloop : (Background.processLoop lowerCase settings setOk (pre ++ l :: post)
        { state := Background.refreshSeen getOk state storage, storage := storage, setCalls := 0,
          effects := [] }).state.seenListings =
        JS.setAddAll (JS.setAddAll (Background.refreshSeen getOk state storage).seenListings
          (Background.listingIds pre) ++ [Background.extractListingId l.link])
          (Background.listingIds post) := by
      rw [Background.processLoop_seen, hids]
      show JS.setAddAll (Background.refreshSeen getOk state storage).seenListings _ = _
      rw [JS.setAddAll_append, JS.setAddAll_cons, JS.setAdd_of_not_mem _ _ hS1]
    obtain ⟨extra, hextra, hlen⟩ := JS.setAddAll_eq_append (Background.listingIds post)
      (JS.setAddAll (Background.refreshSeen getOk state storage).seenListings
        (Background.listingIds pre) ++ [Background.extractListingId l.link])
    have hlen2 : extra.length < 5000 := by
      have : (Background.listingIds post).length = post.length := by simp [Background.listingIds]
      omega
    rw [hseen, Background.finalSave_seen, hloop, hextra]
    split
    · rw [JS.mem_setAddAll]
      right
      unfold JS.sliceLast
      rw [List.append_assoc, List.drop_append_of_le_length]
      · exact List.mem_append_right _ (List.mem_append_left _ (List.mem_singleton.mpr rfl))
      · simp only [List.length_append, List.length_singleton]
        omega
    · exact List.mem_append_left _ (List.mem_append_right _ (List.mem_singleton.mpr rfl))

/-- C9, amended, at the title "iPhone 12 Warranty" and the excluded word
"warranty", between two other listings. -/
theorem Background.processListings_excluded_witness :
    "iPhone".toList ∈ (⟨true, [], false, ["iPhone".toList]⟩ : Background.State).firstRunKeywords ∧
    JS.toLowerCase "warranty".toList <:+: JS.toLowerCase Background.warrantyListing.title ∧
    Background.alerts (Background.processListings JS.toLowerCase true (fun _ => true)
      ([⟨['a'], "$150".toList, "iPhone 12".toList⟩] ++ Background.warrantyListing ::
        [⟨['b'], "$150".toList, "iPhone 12".toList⟩]) "iPhone".toList Background.warrantySettings
      ⟨true, [], false, ["iPhone".toList]⟩ ⟨none, none, none⟩).effects = Background.twoListings ∧
    ((∀ a ∈ Background.alerts
        (Background.processListings JS.toLowerCase true (fun _ => true)
          ([⟨['a'], "$150".toList, "iPhone 12".toList⟩] ++ Background.warrantyListing ::
            [⟨['b'], "$150".toList, "iPhone 12".toList⟩]) "iPhone".toList
          Background.warrantySettings ⟨true, [], false, ["iPhone".toList]⟩
          ⟨none, none, none⟩).effects,
      Background.extractListingId a.link ≠
        Background.extractListingId Background.warrantyListing.link) ∧
    (([⟨['b'], "$150".toList, "iPhone 12".toList⟩] : List Background.Listing).length < 5000 →
      Background.extractListingId Background.warrantyListing.link ∈
        (Background.processListings JS.toLowerCase true (fun _ => true)
          ([⟨['a'], "$150".toList, "iPhone 12".toList⟩] ++ Background.warrantyListing ::
            [⟨['b'], "$150".toList, "iPhone 12".toList⟩]) "iPhone".toList
          Background.warrantySettings ⟨true, [], false, ["iPhone".toList]⟩
          ⟨none, none, none⟩).state.seenListings)) :=
  ⟨by decide, (JS.includes_iff _ _).mp (by decide), by decide,
    Background.processListings_excluded JS.toLowerCase true (fun _ => true)
      [⟨['a'], "$150".toList, "iPhone 12".toList⟩] Background.warrantyListing
      [⟨['b'], "$150".toList, "iPhone 12".toList⟩] "iPhone".toList Background.warrantySettings
      ⟨true, [], false, ["iPhone".toList]⟩ ⟨none, none, none⟩ ["warranty".toList]
      "warranty".toList (by decide) (by decide) (by decide) rfl (by decide)
      ((JS.includes_iff _ _).mp (by decide))⟩

/-- C10. Filter combination: in a non-first-run batch, a listing that is
unseen when its turn comes and whose title contains no excluded word (in
lower case, for the case mapping `lowerCase` that the engine supplies) gets a
message exactly when every enabled filter passes on the result of
`checkProduct`; with no filter enabled it always gets one. This holds for
every case mapping. -/
theorem Background.processListings_alert_iff (lowerCase : List Char → List Char) (getOk : Bool)
    (setOk : Nat → Bool)
    (pre : List Background.Listing) (l : Background.Listing) (post : List Background.Listing)
    (keyword : List Char) (settings : Background.Settings) (state : Background.State)
    (storage : Background.Storage)
    (hk : keyword ∈ state.firstRunKeywords)
    (hunseen : Background.extractListingId l.link ∉
      (Background.refreshSeen getOk state storage).seenListings)
    (hfirst : Background.extractListingId l.link ∉ Background.listingIds pre)
    (hclean : ∀ words, settings.excludedWords = some words →
      ∀ w ∈ words, ¬ lowerCase w <:+: lowerCase l.title) :
    (l ∈ Background.alerts
        (Background.processListings lowerCase getOk setOk (pre ++ l :: post) keyword settings state
          storage).effects ↔
      ((settings.modeOnlyPreferred = false ∨
          (Background.checkProduct l.title l.price settings.products).preferred = true) ∧
        (settings.nearGoodDeals = false ∨
          (Background.checkProduct l.title l.price settings.products).isGoodDeal = true ∨
          (Background.checkProduct l.title l.price settings.products).nearGoodDeal = true) ∧
        (settings.goodDeals = false ∨
          (Background.checkProduct l.title l.price settings.products).isGoodDeal = true))) ∧
    (settings.modeOnlyPreferred = false → settings.nearGoodDeals = false →
      settings.goodDeals = false →
      l ∈ Background.alerts
        (Background.processListings lowerCase getOk setOk (pre ++ l :: post) keyword settings state
          storage).effects) := by
  obtain ⟨halerts, _, _⟩ := Background.processListings_of_completed lowerCase getOk setOk
    (pre ++ l :: post) keyword settings state storage hk
  have hex : ¬ Background.containsExcludedWords lowerCase l.title settings.excludedWords = true :=
      by
    rw [Background.containsExcludedWords_iff]
    rintro ⟨words, hwords, w, hw, hsub⟩
    exact hclean words hwords w hw hsub
  have hS1 : Background.extractListingId l.link ∉
      JS.setAddAll (Background.refreshSeen getOk state storage).seenListings
        (Background.listingIds pre) := by
    rw [JS.mem_setAddAll]
    rintro (h | h)
    · exact hunseen h
    · exact hfirst h
  have hshould : Background.shouldAlert lowerCase settings l =
      Background.passesFilters settings
        (Background.checkProduct l.title l.price settings.products) := by
    simp [Background.shouldAlert, hex]
  have hcons : ∀ seen, Background.loopAlerts lowerCase settings (l :: post) seen =
      (if Background.extractListingId l.link ∉ seen ∧ Background.shouldAlert lowerCase settings l =
          true
        then [l] else []) ++
      Background.loopAlerts lowerCase settings post
          (JS.setAdd seen (Background.extractListingId l.link)) :=
    fun _ => rfl
  have hiff : l ∈ Background.alerts
      (Background.processListings lowerCase getOk setOk (pre ++ l :: post) keyword settings state
        storage).effects ↔
      Background.passesFilters settings
        (Background.checkProduct l.title l.price settings.products) = true := by
    rw [halerts, Background.loopAlerts_append, hcons, hshould]
    constructor
    · intro hmem
      rcases List.mem_append.mp hmem with h | h
      · obtain ⟨hin, _, _⟩ := Background.mem_loopAlerts lowerCase _ _ _ _ h
        exact absurd (List.mem_map_of_mem (fun x => Background.extractListingId x.link) hin) hfirst
      · rcases List.mem_append.mp h with h | h
        · split at h
          · rename_i hc
            exact hc.2
          · exact absurd h (List.not_mem_nil _)
        · obtain ⟨_, hnotin, _⟩ := Background.mem_loopAlerts lowerCase _ _ _ _ h
          exact absurd ((JS.mem_setAdd _ _ _).mpr (Or.inr rfl)) hnotin
    · intro hpass
      rw [if_pos ⟨hS1, hpass⟩]
      exact List.mem_append_right _ (List.mem_append_left _ (List.mem_singleton.mpr rfl))
  constructor
  · rw [hiff, Background.passesFilters_iff]
  · intro h1 h2 h3
    rw [hiff, Background.passesFilters_iff]
    exact ⟨Or.inl h1, Or.inl h2, Or.inl h3⟩

/-- C10, at a listing "iPhone 12" for "$350" under the filter `nearGoodDeals`
with the product "iPhone 12" of maximum price 320: a near-good deal, which is
alerted. -/
theorem Background.processListings_alert_iff_witness :
    "iPhone".toList ∈ (⟨true, [], false, ["iPhone".toList]⟩ : Background.State).firstRunKeywords ∧
    Background.checkProduct "iPhone 12".toList "$350".toList Background.nearDealSettings.products
      = ⟨some "iPhone 12".toList, false, true, true⟩ ∧
    Background.alerts
      (Background.processListings JS.toLowerCase true (fun _ => true)
        ([Background.warrantyListing] ++
          (⟨['a'], "$350".toList, "iPhone 12".toList⟩ : Background.Listing) ::
          [⟨['b'], "$500".toList, "iPhone 12".toList⟩]) "iPhone".toList
        Background.nearDealSettings ⟨true, [], false, ["iPhone".toList]⟩
        ⟨none, none, none⟩).effects = [⟨['a'], "$350".toList, "iPhone 12".toList⟩] ∧
    (((⟨['a'], "$350".toList, "iPhone 12".toList⟩ : Background.Listing) ∈ Background.alerts
        (Background.processListings JS.toLowerCase true (fun _ => true)
          ([Background.warrantyListing] ++
            (⟨['a'], "$350".toList, "iPhone 12".toList⟩ : Background.Listing) ::
            [⟨['b'], "$500".toList, "iPhone 12".toList⟩]) "iPhone".toList
          Background.nearDealSettings ⟨true, [], false, ["iPhone".toList]⟩
          ⟨none, none, none⟩).effects ↔
      ((Background.nearDealSettings.modeOnlyPreferred = false ∨
          (Background.checkProduct "iPhone 12".toList "$350".toList
            Background.nearDealSettings.products).preferred = true) ∧
        (Background.nearDealSettings.nearGoodDeals = false ∨
          (Background.checkProduct "iPhone 12".toList "$350".toList
            Background.nearDealSettings.products).isGoodDeal = true ∨
          (Background.checkProduct "iPhone 12".toList "$350".toList
            Background.nearDealSettings.products).nearGoodDeal = true) ∧
        (Background.nearDealSettings.goodDeals = false ∨
          (Background.checkProduct "iPhone 12".toList "$350".toList
            Background.nearDealSettings.products).isGoodDeal = true))) ∧
    (Background.nearDealSettings.modeOnlyPreferred = false →
      Background.nearDealSettings.nearGoodDeals = false →
      Background.nearDealSettings.goodDeals = false →
      (⟨['a'], "$350".toList, "iPhone 12".toList⟩ : Background.Listing) ∈ Background.alerts
        (Background.processListings JS.toLowerCase true (fun _ => true)
          ([Background.warrantyListing] ++
            (⟨['a'], "$350".toList, "iPhone 12".toList⟩ : Background.Listing) ::
            [⟨['b'], "$500".toList, "iPhone 12".toList⟩]) "iPhone".toList
          Background.nearDealSettings ⟨true, [], false, ["iPhone".toList]⟩
          ⟨none, none, none⟩).effects)) :=
  ⟨by decide, by decide, by decide,
    Background.processListings_alert_iff JS.toLowerCase true (fun _ => true)
        [Background.warrantyListing]
      ⟨['a'], "$350".toList, "iPhone 12".toList⟩ [⟨['b'], "$500".toList, "iPhone 12".toList⟩]
      "iPhone".toList Background.nearDealSettings ⟨true, [], false, ["iPhone".toList]⟩
      ⟨none, none, none⟩ (by decide) (by decide) (by decide)
      (by
        intro words hwords w hw hsub
        have hinc := (JS.includes_iff _ _).mpr hsub
        have hw2 : words = ["warranty".toList] := (Option.some.inj hwords).symm
        subst hw2
        rw [List.mem_singleton] at hw
        subst hw
        exact absurd hinc (by decide))⟩

/-! ## Normalization and deal flags -/

namespace JS

theorem lowerChar_of_isLowerAlnum (c : Char) (h : isLowerAlnum c = true) : lowerChar c = [c] := by
  have hz : c ≤ 'z' := by
    simp only [isLowerAlnum, isDigit, Bool.or_eq_true, decide_eq_true_eq] at h
    rcases h with h | h
    · exact h.2
    · exact le_trans h.2 (by decide)
  have h0 : '0' ≤ c := by
    simp only [isLowerAlnum, isDigit, Bool.or_eq_true, decide_eq_true_eq] at h
    rcases h with h | h
    · exact le_trans (by decide) h.1
    · exact h.1
  have hcap : ¬ ('A' ≤ c ∧ c ≤ 'Z') := by
    rintro ⟨hA, hZ⟩
    simp only [isLowerAlnum, isDigit, Bool.or_eq_true, decide_eq_true_eq] at h
    rcases h with h | h
    · exact absurd (le_trans h.1 hZ) (by decide)
    · exact absurd (le_trans hA h.2) (by decide)
  have hk : c ≠ Char.ofNat 0x212A := by
    intro hc
    rw [hc] at hz
    exact absurd hz (by decide)
  have hi : c ≠ Char.ofNat 0x0130 := by
    intro hc
    rw [hc] at hz
    exact absurd hz (by decide)
  simp [lowerChar, hcap, hk, hi]

theorem toLowerCase_of_isLowerAlnum (s : List Char) (h : ∀ c ∈ s, isLowerAlnum c = true) :
    toLowerCase s = s := by
  induction s with
  | nil => rfl
  | cons c s ih =>
      have hc := lowerChar_of_isLowerAlnum c (h c (List.mem_cons_self c s))
      have hs := ih (fun d hd => h d (List.mem_cons_of_mem c hd))
      unfold toLowerCase at hs ⊢
      rw [List.flatMap_cons, hc, hs]
      rfl

end JS

/-- C14. Normalization is idempotent, for `normalizeTitle` of
`product-checker.js` and for `normalizeText` of `background.js`; the result
holds only characters of `[a-z0-9]`, and the empty string is mapped to the
empty string. -/
theorem ProductChecker.normalizeTitle_idempotent (s : List Char) :
    ProductChecker.normalizeTitle (ProductChecker.normalizeTitle s) = ProductChecker.normalizeTitle s ∧
    Background.normalizeText (Background.normalizeText s) = Background.normalizeText s ∧
    (∀ c ∈ ProductChecker.normalizeTitle s, JS.isLowerAlnum c = true) ∧
    (∀ c ∈ Background.normalizeText s, JS.isLowerAlnum c = true) ∧
    ProductChecker.normalizeTitle [] = [] ∧ Background.normalizeText [] = [] := by
  have hall : ∀ c ∈ (JS.toLowerCase s).filter JS.isLowerAlnum, JS.isLowerAlnum c = true :=
    fun c hc => (List.mem_filter.mp hc).2
  have hidem : (JS.toLowerCase ((JS.toLowerCase s).filter JS.isLowerAlnum)).filter JS.isLowerAlnum =
      (JS.toLowerCase s).filter JS.isLowerAlnum := by
    rw [JS.toLowerCase_of_isLowerAlnum _ hall, List.filter_filter]
    simp
  exact ⟨hidem, hidem, hall, hall, rfl, rfl⟩

/-- C20. Good deal and near-good deal exclude each other in the result of
`checkProduct`, in `background.js` and in `product-checker.js`, for a price
given as text or as a number. -/
theorem Background.checkProduct_deals_exclusive (title priceStr : List Char)
    (price : ProductChecker.PriceArg) (products : List Product) :
    ¬ ((Background.checkProduct title priceStr products).isGoodDeal = true ∧
        (Background.checkProduct title priceStr products).nearGoodDeal = true) ∧
    ¬ ((ProductChecker.checkProduct title price products).isGoodDeal = true ∧
        (ProductChecker.checkProduct title price products).nearGoodDeal = true) := by
  constructor
  · unfold Background.checkProduct
    split
    · simp [MatchResult.noMatch]
    · split
      · simp [MatchResult.noMatch]
      · simp only [Bool.and_eq_true, Bool.not_eq_true', decide_eq_true_eq, decide_eq_false_iff_not]
        rintro ⟨h1, ⟨h2, _⟩, _⟩
        exact h2 h1
  · unfold ProductChecker.checkProduct
    split
    · simp [MatchResult.noMatch]
    · split
      · simp [MatchResult.noMatch]
      · cases price with
        | text s =>
            cases hp : ProductChecker.parsePrice s with
            | none => simp [hp]
            | some n =>
                simp only [hp, not_and]
                intro h1 h2
                simp at h1 h2
                omega
        | number n =>
            simp only [Bool.and_eq_true, decide_eq_true_eq, not_and]
            intro h1 h2
            omega

/-! ## The matrix of `levenshteinDistance` -/

namespace ProductChecker

theorem fillRow_length (bc : Char) (as : List Char) (prev : List Nat) (left : Nat) :
    (fillRow bc as prev left).length = min as.length (prev.length - 1) := by
  induction as generalizing prev left with
  | nil => simp [fillRow]
  | cons aj as ih =>
      match prev with
      | [] => simp [fillRow]
      | [_] => simp [fillRow]
      | diag :: up :: rest =>
          simp only [fillRow, List.length_cons, ih]
          omega

/-- Each entry of a new row is at most the entry above and to the left of it,
plus the cost of the substitution. -/
theorem fillRow_le (bc : Char) (as : List Char) (prev : List Nat) (left : Nat) (k v : Nat)
    (h : (fillRow bc as prev left)[k]? = some v) :
    ∃ a d, as[k]? = some a ∧ prev[k]? = some d ∧ v ≤ d + (if a = bc then 0 else 1) := by
  induction as generalizing prev left k with
  | nil => simp [fillRow] at h
  | cons aj as ih =>
      match prev with
      | [] => simp [fillRow] at h
      | [_] => simp [fillRow] at h
      | diag :: up :: rest =>
          cases k with
          | zero =>
              simp only [fillRow, List.getElem?_cons_zero, Option.some.injEq] at h
              refine ⟨aj, diag, by simp, by simp, ?_⟩
              rw [← h]
              exact le_trans (min_le_right _ _) (min_le_right _ _)
          | succ k =>
              simp only [fillRow, List.getElem?_cons_succ] at h
              obtain ⟨a, d, ha, hd, hv⟩ := ih _ _ _ h
              exact ⟨a, d, by simpa using ha, by simpa using hd, hv⟩

theorem rowBounded_step (a : List Char) (bc : Char) (i : Nat) (prev : List Nat)
    (h : RowBounded a i prev) :
    RowBounded a (i + 1) ((i + 1) :: fillRow bc a prev (i + 1)) := by
  obtain ⟨hlen, hle⟩ := h
  constructor
  · rw [List.length_cons, fillRow_length, hlen]
    simp
  · intro j v hv
    cases j with
    | zero =>
        simp only [List.getElem?_cons_zero, Option.some.injEq] at hv
        omega
    | succ j =>
        simp only [List.getElem?_cons_succ] at hv
        obtain ⟨c, d, _, hd, hvd⟩ := fillRow_le _ _ _ _ _ _ hv
        have := hle j d hd
        split at hvd <;> omega

theorem rowBounded_fillRows (a bs : List Char) (i : Nat) (prev : List Nat)
    (h : RowBounded a i prev) : RowBounded a (i + bs.length) (fillRows a bs i prev) := by
  induction bs generalizing i prev with
  | nil => simpa [fillRows] using h
  | cons bc bs ih =>
      have := ih (i + 1) _ (rowBounded_step a bc i prev h)
      simp only [fillRows, List.length_cons]
      rw [show i + (bs.length + 1) = i + 1 + bs.length by omega]
      exact this

theorem rowBounded_range (a : List Char) : RowBounded a 0 (List.range (a.length + 1)) := by
  constructor
  · simp
  · intro j v hv
    have hj : j < a.length + 1 := by
      have := (List.getElem?_eq_some_iff.mp hv).1
      simpa using this
    rw [List.getElem?_range hj] at hv
    simp only [Option.some.injEq] at hv
    omega

theorem getLast?_of_length {α : Type} (row : List α) (n : Nat) (h : row.length = n + 1) :
    row.getLast? = row[n]? := by
  rw [List.getLast?_eq_getElem?, h]
  rfl

/-- The computed distance never exceeds the longer length. -/
theorem levenshteinDistance_le (a b : List Char) :
    levenshteinDistance a b ≤ max a.length b.length := by
  unfold levenshteinDistance
  split
  · exact le_max_right _ _
  · split
    · exact le_max_left _ _
    · have hrow := rowBounded_fillRows a b 0 _ (rowBounded_range a)
      obtain ⟨hlen, hle⟩ := hrow
      rw [getLast?_of_length _ _ hlen]
      cases hv : (fillRows a b 0 (List.range (a.length + 1)))[a.length]? with
      | none => simp
      | some v =>
          have := hle _ _ hv
          simp only [Option.getD_some]
          omega

/-- On equal strings the diagonal of the matrix stays at zero. -/
theorem fillRows_diagonal (a : List Char) :
    ∀ (bs done : List Char) (prev : List Nat), a = done ++ bs →
      prev.length = a.length + 1 → prev[done.length]? = some 0 →
      (fillRows a bs done.length prev)[a.length]? = some 0 := by
  intro bs
  induction bs with
  | nil =>
      intro done prev ha _ hz
      have : a.length = done.length := by rw [ha]; simp
      rw [this]
      simpa [fillRows] using hz
  | cons bc bs ih =>
      intro done prev ha hlen hz
      have ha2 : a = (done ++ [bc]) ++ bs := by rw [ha]; simp
      have hlen2 : ((done.length + 1) :: fillRow bc a prev (done.length + 1)).length = a.length + 1 := by
        rw [List.length_cons, fillRow_length, hlen]
        simp
      have hlt : done.length < (fillRow bc a prev (done.length + 1)).length := by
        rw [fillRow_length, hlen, ha]
        simp
      have hz2 : ((done.length + 1) :: fillRow bc a prev (done.length + 1))[(done ++ [bc]).length]?
          = some 0 := by
        rw [List.length_append, List.length_singleton, List.getElem?_cons_succ]
        obtain ⟨v, hv⟩ : ∃ v, (fillRow bc a prev (done.length + 1))[done.length]? = some v :=
          ⟨_, List.getElem?_eq_getElem hlt⟩
        obtain ⟨c, d, hc, hd, hvd⟩ := fillRow_le _ _ _ _ _ _ hv
        have hc2 : c = bc := by
          rw [ha, List.getElem?_append_right (le_refl _)] at hc
          simpa using hc.symm
        have hd2 : d = 0 := by
          rw [hz] at hd
          exact (Option.some.inj hd).symm
        rw [hv]
        rw [hc2, hd2] at hvd
        simp only [if_true] at hvd
        congr
        omega
      have := ih (done ++ [bc]) _ ha2 hlen2 hz2
      simpa [fillRows] using this

theorem levenshteinDistance_self (a : List Char) : levenshteinDistance a a = 0 := by
  unfold levenshteinDistance
  split
  · assumption
  · have hrow := rowBounded_fillRows a a 0 _ (rowBounded_range a)
    rw [getLast?_of_length _ _ hrow.1]
    have := fillRows_diagonal a a [] (List.range (a.length + 1)) rfl (by simp)
      (by simp)
    simp only [List.length_nil] at this
    rw [this]
    rfl

end ProductChecker

/-- C19. The similarity ratio lies in the closed interval from 0 to 1, since
the computed distance never exceeds the longer length; it is 1 on equal
strings, and so on two empty strings. -/
theorem ProductChecker.similarityRatio_bounds (a b : List Char) :
    0 ≤ ProductChecker.similarityRatio a b ∧ ProductChecker.similarityRatio a b ≤ 1 ∧
    ProductChecker.levenshteinDistance a b ≤ max a.length b.length ∧
    ProductChecker.similarityRatio a b =
      (if max a.length b.length = 0 then 1
       else (((max a.length b.length : Nat) : ℚ) - (ProductChecker.levenshteinDistance a b : ℚ)) /
          ((max a.length b.length : Nat) : ℚ)) ∧
    ProductChecker.similarityRatio a a = 1 ∧
    ProductChecker.similarityRatio [] [] = 1 := by
  have hle := ProductChecker.levenshteinDistance_le a b
  have hform : ProductChecker.similarityRatio a b =
      (if max a.length b.length = 0 then 1
       else (((max a.length b.length : Nat) : ℚ) - (ProductChecker.levenshteinDistance a b : ℚ)) /
          ((max a.length b.length : Nat) : ℚ)) := by
    unfold ProductChecker.similarityRatio
    simp only
    split
    · rfl
    · push_cast
      rfl
  have hself : ProductChecker.similarityRatio a a = 1 := by
    unfold ProductChecker.similarityRatio
    simp only [ProductChecker.levenshteinDistance_self, max_self]
    split
    · rfl
    · rename_i hne
      have : ((a.length : Nat) : ℚ) ≠ 0 := by exact_mod_cast hne
      push_cast
      simp [this]
  refine ⟨?_, ?_, hle, hform, hself, by decide!⟩
  · rw [hform]
    split
    · norm_num
    · apply div_nonneg
      · have : (ProductChecker.levenshteinDistance a b : ℚ) ≤ ((max a.length b.length : Nat) : ℚ) := by
          exact_mod_cast hle
        linarith
      · exact Nat.cast_nonneg _
  · rw [hform]
    split
    · norm_num
    · rename_i hne
      have hpos : (0 : ℚ) < ((max a.length b.length : Nat) : ℚ) := by
        exact_mod_cast Nat.pos_of_ne_zero hne
      rw [div_le_one hpos]
      have : (0 : ℚ) ≤ (ProductChecker.levenshteinDistance a b : ℚ) := Nat.cast_nonneg _
      linarith

/-! ## The field `minPrice` -/

theorem clearMinPrice_eq_of_same (p q : Product) (h : SameExceptMinPrice p q) :
    clearMinPrice p = clearMinPrice q := by
  obtain ⟨h1, h2, h3⟩ := h
  cases p
  cases q
  simp only [clearMinPrice] at *
  simp_all

theorem map_clearMinPrice_of_same (ps qs : List Product)
    (h : List.Forall₂ SameExceptMinPrice ps qs) :
    ps.map clearMinPrice = qs.map clearMinPrice := by
  induction h with
  | nil => rfl
  | cons hpq _ ih => rw [List.map_cons, List.map_cons, ih, clearMinPrice_eq_of_same _ _ hpq]

theorem Background.findMatchingProduct_clearMinPrice (title : List Char) (ps : List Product) :
    Background.findMatchingProduct title (ps.map clearMinPrice) =
      (Background.findMatchingProduct title ps).map clearMinPrice := by
  unfold Background.findMatchingProduct
  simp only [List.find?_map]
  have h1 : ((fun product : Product =>
      JS.includes (Background.normalizeText title) (Background.normalizeText product.name)) ∘
      clearMinPrice) = (fun product : Product =>
      JS.includes (Background.normalizeText title) (Background.normalizeText product.name)) := rfl
  have h2 : ((fun product : Product =>
      Background.fuzzyMatch (Background.normalizeText title) (Background.normalizeText product.name)
        (7 / 10)) ∘ clearMinPrice) = (fun product : Product =>
      Background.fuzzyMatch (Background.normalizeText title) (Background.normalizeText product.name)
        (7 / 10)) := rfl
  rw [h1, h2]
  cases ps.find? (fun product : Product =>
      JS.includes (Background.normalizeText title) (Background.normalizeText product.name)) with
  | some p => rfl
  | none => rfl

theorem Background.checkProduct_clearMinPrice (title priceStr : List Char) (ps : List Product) :
    Background.checkProduct title priceStr (ps.map clearMinPrice) =
      Background.checkProduct title priceStr ps := by
  unfold Background.checkProduct
  rw [List.length_map, Background.findMatchingProduct_clearMinPrice]
  cases Background.findMatchingProduct title ps with
  | none => rfl
  | some p => rfl

theorem ProductChecker.matchTitleToProducts_clearMinPrice (title : List Char) (ps : List Product) :
    ProductChecker.matchTitleToProducts title (ps.map clearMinPrice) =
      ProductChecker.matchTitleToProducts title ps := by
  have h : (ps.map clearMinPrice).map ProductChecker.toNormalized =
      ps.map ProductChecker.toNormalized := by
    rw [List.map_map]
    rfl
  unfold ProductChecker.matchTitleToProducts
  rw [h]

theorem ProductChecker.findProduct_clearMinPrice (title : List Char) (ps : List Product) :
    ProductChecker.findProduct title (ps.map clearMinPrice) =
      (ProductChecker.findProduct title ps).map clearMinPrice := by
  unfold ProductChecker.findProduct
  rw [ProductChecker.matchTitleToProducts_clearMinPrice]
  cases ProductChecker.matchTitleToProducts title ps with
  | nil => rfl
  | cons m _ =>
      simp only [List.find?_map]
      rfl

theorem ProductChecker.portedCheckProduct_clearMinPrice (title : List Char)
    (price : ProductChecker.PriceArg) (ps : List Product) :
    ProductChecker.checkProduct title price (ps.map clearMinPrice) =
      ProductChecker.checkProduct title price ps := by
  unfold ProductChecker.checkProduct
  rw [List.length_map, ProductChecker.findProduct_clearMinPrice]
  cases ProductChecker.findProduct title ps with
  | none => rfl
  | some p => rfl

/-- C16. The field `minPrice` does not influence the result: on two catalogs
that agree position by position in every field but `minPrice`, each of the two
`checkProduct` functions returns the same result. -/
theorem Background.checkProduct_minPrice_irrelevant (title priceStr : List Char)
    (price : ProductChecker.PriceArg) (ps qs : List Product)
    (h : List.Forall₂ SameExceptMinPrice ps qs) :
    Background.checkProduct title priceStr ps = Background.checkProduct title priceStr qs ∧
    ProductChecker.checkProduct title price ps = ProductChecker.checkProduct title price qs := by
  have hmap := map_clearMinPrice_of_same ps qs h
  constructor
  · rw [← Background.checkProduct_clearMinPrice title priceStr ps,
      ← Background.checkProduct_clearMinPrice title priceStr qs, hmap]
  · rw [← ProductChecker.portedCheckProduct_clearMinPrice title price ps,
      ← ProductChecker.portedCheckProduct_clearMinPrice title price qs, hmap]

/-- C16, at the catalog "iPhone 12" with the minimum prices 100 and 500, for a
listing at "$150". -/
theorem Background.checkProduct_minPrice_irrelevant_witness :
    List.Forall₂ SameExceptMinPrice
      [(⟨"iPhone 12".toList, 100, 320, true⟩ : Product)] [⟨"iPhone 12".toList, 500, 320, true⟩] ∧
    Background.checkProduct "iPhone 12 64GB".toList "$150".toList
      [⟨"iPhone 12".toList, 500, 320, true⟩] = ⟨some "iPhone 12".toList, true, false, true⟩ ∧
    (Background.checkProduct "iPhone 12 64GB".toList "$150".toList
        [⟨"iPhone 12".toList, 100, 320, true⟩] =
      Background.checkProduct "iPhone 12 64GB".toList "$150".toList
        [⟨"iPhone 12".toList, 500, 320, true⟩] ∧
    ProductChecker.checkProduct "iPhone 12 64GB".toList (ProductChecker.PriceArg.text "$150".toList)
        [⟨"iPhone 12".toList, 100, 320, true⟩] =
      ProductChecker.checkProduct "iPhone 12 64GB".toList
        (ProductChecker.PriceArg.text "$150".toList) [⟨"iPhone 12".toList, 500, 320, true⟩]) :=
  ⟨List.Forall₂.cons ⟨rfl, rfl, rfl⟩ List.Forall₂.nil, by decide,
    Background.checkProduct_minPrice_irrelevant "iPhone 12 64GB".toList "$150".toList
      (ProductChecker.PriceArg.text "$150".toList) [⟨"iPhone 12".toList, 100, 320, true⟩]
      [⟨"iPhone 12".toList, 500, 320, true⟩] (List.Forall₂.cons ⟨rfl, rfl, rfl⟩ List.Forall₂.nil)⟩

/-! ## Listings that match no product -/

namespace Background

theorem alerts_of_first_run (lowerCase : List Char → List Char) (getOk : Bool) (setOk : Nat → Bool)
    (listings : List Listing)
    (keyword : List Char) (settings : Settings) (state : State) (storage : Storage)
    (hk : keyword ∉ state.firstRunKeywords) :
    alerts (processListings lowerCase getOk setOk listings keyword settings state storage).effects
        = [] := by
  have hk1 : keyword ∉ (refreshSeen getOk state storage).firstRunKeywords := by
    rw [refreshSeen_keywords]; exact hk
  unfold processListings
  simp only [hk1, decide_False, Bool.not_false, if_true, Run.storageSet]
  split <;> simp [alerts]

/-- A listing for which a message is sent is in the batch and passes the
exclusion list and the filters. -/
theorem mem_alerts_processListings (lowerCase : List Char → List Char) (getOk : Bool)
    (setOk : Nat → Bool) (listings : List Listing)
    (keyword : List Char) (settings : Settings) (state : State) (storage : Storage) (l : Listing)
    (h : l ∈ alerts (processListings lowerCase getOk setOk listings keyword settings state
        storage).effects) :
    l ∈ listings ∧ shouldAlert lowerCase settings l = true := by
  by_cases hk : keyword ∈ state.firstRunKeywords
  · obtain ⟨halerts, _, _⟩ := processListings_of_completed lowerCase getOk setOk listings keyword
        settings
      state storage hk
    rw [halerts] at h
    obtain ⟨h1, _, h3⟩ := mem_loopAlerts lowerCase _ _ _ _ h
    exact ⟨h1, h3⟩
  · rw [alerts_of_first_run lowerCase getOk setOk listings keyword settings state storage hk] at h
    exact absurd h (List.not_mem_nil _)

theorem findMatchingProduct_none (title : List Char) (products : List Product)
    (hexact : ∀ q ∈ products, ¬ normalizeText q.name <:+: normalizeText title)
    (hfuzzy : ∀ q ∈ products,
      fuzzyMatch (normalizeText title) (normalizeText q.name) (7 / 10) = false) :
    findMatchingProduct title products = none := by
  have h1 : products.find? (fun product =>
      JS.includes (normalizeText title) (normalizeText product.name)) = none := by
    rw [List.find?_eq_none]
    intro q hq hinc
    exact hexact q hq ((JS.includes_iff _ _).mp hinc)
  have h2 : products.find? (fun product =>
      fuzzyMatch (normalizeText title) (normalizeText product.name) (7 / 10)) = none := by
    rw [List.find?_eq_none]
    intro q hq hf
    rw [hfuzzy q hq] at hf
    exact absurd hf (by decide)
  unfold findMatchingProduct
  simp only [h1, h2]

theorem checkProduct_of_none (title priceStr : List Char) (products : List Product)
    (h : findMatchingProduct title products = none) :
    checkProduct title priceStr products = MatchResult.noMatch := by
  unfold checkProduct
  split
  · rfl
  · rw [h]

theorem passesFilters_noMatch (settings : Settings)
    (h : settings.nearGoodDeals = true ∨ settings.goodDeals = true) :
    passesFilters settings MatchResult.noMatch = false := by
  unfold passesFilters MatchResult.noMatch
  rcases h with h | h <;> simp [h]

end Background

/-- C11, as stated, fails. For the title "Phone holder 12 inch" and the product
"iPhone 12" the normalized name does not occur in the normalized title and the
edit-distance ratio is below `0.7`, yet every character of "iphone12" occurs
in "phoneholder12inch": the pipeline reports the product "iPhone 12", and
under the filter `nearGoodDeals` it alerts the listing as a good deal. -/
theorem Background.unknown_product_counterexample :
    (∀ q ∈ Background.nearDealSettings.products,
      ¬ ProductChecker.isCandidate Background.holderListing.title q) ∧
    (∀ q ∈ Background.nearDealSettings.products,
      ¬ ProductChecker.isFuzzy Background.holderListing.title q) ∧
    Background.nearDealSettings.nearGoodDeals = true ∧
    Background.checkProduct Background.holderListing.title Background.holderListing.price
      Background.nearDealSettings.products = ⟨some "iPhone 12".toList, true, false, true⟩ ∧
    Background.alerts
      (Background.processListings JS.toLowerCase true (fun _ => true) [Background.holderListing]
        "iPhone".toList Background.nearDealSettings ⟨true, [], false, ["iPhone".toList]⟩
        ⟨none, none, none⟩).effects = [Background.holderListing] := by
  refine ⟨?_, ?_, rfl, by decide!, by decide!⟩
  · intro q hq hc
    have hinc := (JS.includes_iff _ _).mpr hc
    have hq2 : q = ⟨"iPhone 12".toList, 100, 320, true⟩ := by
      simpa [Background.nearDealSettings] using hq
    subst hq2
    exact absurd hinc (by decide)
  · intro q hq hf
    have hq2 : q = ⟨"iPhone 12".toList, 100, 320, true⟩ := by
      simpa [Background.nearDealSettings] using hq
    subst hq2
    unfold ProductChecker.isFuzzy at hf
    exact absurd hf (by decide!)

/-- C11, amended. Unknown product: for a listing whose normalized title
contains no product's normalized name and that `fuzzyMatch` of `background.js`
matches with no product's normalized name, `checkProduct` reports no product,
and no message is sent for the listing when `nearGoodDeals` or `goodDeals` is
enabled. -/
theorem Background.processListings_unknown_product (lowerCase : List Char → List Char)
    (getOk : Bool) (setOk : Nat → Bool)
    (listings : List Background.Listing) (keyword : List Char)
    (settings : Background.Settings) (state : Background.State) (storage : Background.Storage)
    (l : Background.Listing)
    (hexact : ∀ q ∈ settings.products,
      ¬ Background.normalizeText q.name <:+: Background.normalizeText l.title)
    (hfuzzy : ∀ q ∈ settings.products,
      Background.fuzzyMatch (Background.normalizeText l.title) (Background.normalizeText q.name)
        (7 / 10) = false)
    (hfilter : settings.nearGoodDeals = true ∨ settings.goodDeals = true) :
    (Background.checkProduct l.title l.price settings.products).productName = none ∧
    l ∉ Background.alerts
      (Background.processListings lowerCase getOk setOk listings keyword settings state
          storage).effects := by
  have hcheck := Background.checkProduct_of_none l.title l.price settings.products
    (Background.findMatchingProduct_none _ _ hexact hfuzzy)
  constructor
  · rw [hcheck]
    rfl
  · intro hmem
    obtain ⟨_, hshould⟩ := Background.mem_alerts_processListings lowerCase _ _ _ _ _ _ _ _ hmem
    unfold Background.shouldAlert at hshould
    rw [hcheck, Background.passesFilters_noMatch settings hfilter] at hshould
    simp at hshould

/-- C11, amended, at the title "Galaxy S21" with the product "iPhone 12" under
the filter `nearGoodDeals`. -/
theorem Background.processListings_unknown_product_witness :
    Background.alerts
      (Background.processListings JS.toLowerCase true (fun _ => true)
        [⟨['a'], "$150".toList, "Galaxy S21".toList⟩] "iPhone".toList
        Background.nearDealSettings ⟨true, [], false, ["iPhone".toList]⟩
        ⟨none, none, none⟩).effects = [] ∧
    ((Background.checkProduct "Galaxy S21".toList "$150".toList
        Background.nearDealSettings.products).productName = none ∧
      (⟨['a'], "$150".toList, "Galaxy S21".toList⟩ : Background.Listing) ∉ Background.alerts
        (Background.processListings JS.toLowerCase true (fun _ => true)
          [⟨['a'], "$150".toList, "Galaxy S21".toList⟩] "iPhone".toList
          Background.nearDealSettings ⟨true, [], false, ["iPhone".toList]⟩
          ⟨none, none, none⟩).effects) :=
  ⟨by decide!,
    Background.processListings_unknown_product JS.toLowerCase true (fun _ => true)
      [⟨['a'], "$150".toList, "Galaxy S21".toList⟩] "iPhone".toList
      Background.nearDealSettings ⟨true, [], false, ["iPhone".toList]⟩ ⟨none, none, none⟩
      ⟨['a'], "$150".toList, "Galaxy S21".toList⟩
      (by
        intro q hq hsub
        have hinc := (JS.includes_iff _ _).mpr hsub
        have hq2 : q = ⟨"iPhone 12".toList, 100, 320, true⟩ := by
          simpa [Background.nearDealSettings] using hq
        subst hq2
        exact absurd hinc (by decide))
      (by
        intro q hq
        have hq2 : q = ⟨"iPhone 12".toList, 100, 320, true⟩ := by
          simpa [Background.nearDealSettings] using hq
        subst hq2
        decide!)
      (Or.inl rfl)⟩

/-! ## The trim of the seen set -/

namespace Background

/-- The end of a batch is the save of the seen set, followed by the trim when
the save does not throw. -/
theorem finalSave_eq_trimSeen (setOk : Nat → Bool) (r : Run) :
    finalSave setOk r =
      if setOk r.setCalls = true then
        trimSeen setOk (r.storageSet setOk (SetRequest.seenListings r.state.seenListings))
      else r.storageSet setOk (SetRequest.seenListings r.state.seenListings) := by
  simp only [finalSave, trimSeen]

theorem trimSeen_seen (setOk : Nat → Bool) (r : Run) :
    (trimSeen setOk r).state.seenListings =
      if 5000 < r.state.seenListings.length then
        JS.setAddAll [] (JS.sliceLast 5000 r.state.seenListings)
      else r.state.seenListings := by
  simp only [trimSeen, Run.storageSet]
  split <;> simp only

theorem xIds_length (n : Nat) : (xIds n).length = n := by
  unfold xIds
  rw [List.length_map, List.length_range]

theorem xIds_nodup (n : Nat) : (xIds n).Nodup :=
  List.Nodup.map replicate_x_injective (List.nodup_range n)

theorem w_xIds_nodup (n : Nat) : (['w'] :: xIds n).Nodup := by
  rw [List.nodup_cons]
  exact ⟨not_mem_replicate_x 'w' (by decide) n, xIds_nodup n⟩

theorem listingIds_longBatch : listingIds longBatch = xIds 5000 := by
  unfold listingIds longBatch xIds
  rw [List.map_map]
  apply List.map_congr_left
  intro k _
  exact extractListingId_replicate (k + 1)

theorem listingIds_warranty_longBatch :
    listingIds (warrantyListing :: longBatch) = ['w'] :: xIds 5000 := by
  have h : listingIds (warrantyListing :: longBatch) =
      extractListingId warrantyListing.link :: listingIds longBatch := rfl
  have hid : extractListingId warrantyListing.link = ['w'] := by decide
  rw [h, listingIds_longBatch, hid]

theorem sliceLast_w_xIds : JS.sliceLast 5000 (['w'] :: xIds 5000) = xIds 5000 := by
  unfold JS.sliceLast
  have h1 : (['w'] :: xIds 5000).length - 5000 = 1 := by
    rw [List.length_cons, xIds_length]
  rw [h1]
  rfl

/-- The seen set after a non-first-run batch of 5001 listings with new ids,
from an empty seen set and an empty storage. -/
theorem processListings_longBatch_seen (lowerCase : List Char → List Char) (getOk : Bool)
    (setOk : Nat → Bool)
    (hok : ∀ n, setOk n = true) (settings : Settings) (kw : List Char) :
    (processListings lowerCase getOk setOk (warrantyListing :: longBatch) kw settings
      ⟨true, [], false, [kw]⟩ ⟨none, none, none⟩).state.seenListings = xIds 5000 := by
  have hk : kw ∈ (⟨true, [], false, [kw]⟩ : State).firstRunKeywords := List.mem_singleton.mpr rfl
  obtain ⟨_, _, hseen⟩ := processListings_of_completed lowerCase getOk setOk
    (warrantyListing :: longBatch) kw settings ⟨true, [], false, [kw]⟩ ⟨none, none, none⟩ hk
  have hrefresh : (refreshSeen getOk ⟨true, [], false, [kw]⟩ ⟨none, none, none⟩).seenListings
      = [] := by
    cases getOk <;> rfl
  have hloop : (processLoop lowerCase settings setOk (warrantyListing :: longBatch)
      { state := refreshSeen getOk ⟨true, [], false, [kw]⟩ ⟨none, none, none⟩,
        storage := ⟨none, none, none⟩, setCalls := 0, effects := [] }).state.seenListings =
      ['w'] :: xIds 5000 := by
    rw [processLoop_seen, listingIds_warranty_longBatch]
    show JS.setAddAll (refreshSeen getOk ⟨true, [], false, [kw]⟩ ⟨none, none, none⟩).seenListings
      _ = _
    rw [hrefresh, JS.setAddAll_of_nodup _ _ (by rw [List.nil_append]; exact w_xIds_nodup 5000),
      List.nil_append]
  have hbig : 5000 < (['w'] :: xIds 5000).length := by
    rw [List.length_cons, xIds_length]
    omega
  rw [hseen, finalSave_seen_of_big _ _ (hok _) (by rw [hloop]; exact hbig), hloop,
    sliceLast_w_xIds, JS.setAddAll_of_nodup _ _ (by rw [List.nil_append]; exact xIds_nodup 5000),
    List.nil_append]

/-- The first-run path: the seen set receives the ids of the batch, and the
second write stores it when both writes succeed. -/
theorem processListings_first_run_seen (lowerCase : List Char → List Char) (getOk : Bool)
    (setOk : Nat → Bool)
    (listings : List Listing) (keyword : List Char) (settings : Settings) (state : State)
    (storage : Storage) (hk : keyword ∉ state.firstRunKeywords) :
    (processListings lowerCase getOk setOk listings keyword settings state
        storage).state.seenListings =
        JS.setAddAll (refreshSeen getOk state storage).seenListings (listingIds listings) ∧
    (setOk 0 = true → setOk 1 = true →
      (processListings lowerCase getOk setOk listings keyword settings state
          storage).storage.seenListings =
        some (JS.setAddAll (refreshSeen getOk state storage).seenListings (listingIds listings))) := by
  have hk1 : keyword ∉ (refreshSeen getOk state storage).firstRunKeywords := by
    rw [refreshSeen_keywords]; exact hk
  unfold processListings
  simp only [hk1, decide_False, Bool.not_false, if_true, foldl_setAdd_ids, Run.storageSet]
  split
  · rename_i h0
    refine ⟨rfl, ?_⟩
    intro _ h1
    simp [h1, Storage.write]
  · rename_i h0
    refine ⟨rfl, ?_⟩
    intro h0'
    exact absurd h0' h0

end Background

/-- The block that trims the seen set: a seen set of more than 5000 ids becomes
its last 5000 ids, in the same order, and a seen set of at most 5000 ids is
unchanged; the end of the batch runs the block when the save before it
succeeds. -/
theorem Background.trimSeen_keeps_last (setOk : Nat → Bool) (r : Background.Run)
    (hnodup : r.state.seenListings.Nodup) :
    (5000 < r.state.seenListings.length →
      (Background.trimSeen setOk r).state.seenListings =
          r.state.seenListings.drop (r.state.seenListings.length - 5000) ∧
        (Background.trimSeen setOk r).state.seenListings.length = 5000) ∧
    (r.state.seenListings.length ≤ 5000 →
      (Background.trimSeen setOk r).state.seenListings = r.state.seenListings) ∧
    (setOk r.setCalls = true →
      (Background.finalSave setOk r).state.seenListings =
        (Background.trimSeen setOk r).state.seenListings) := by
  refine ⟨?_, ?_, ?_⟩
  · intro hbig
    have hdrop : (r.state.seenListings.drop (r.state.seenListings.length - 5000)).Nodup :=
      List.Nodup.sublist (List.drop_sublist _ _) hnodup
    have heq : (Background.trimSeen setOk r).state.seenListings =
        r.state.seenListings.drop (r.state.seenListings.length - 5000) := by
      rw [Background.trimSeen_seen, if_pos hbig]
      unfold JS.sliceLast
      rw [JS.setAddAll_of_nodup _ _ (by rw [List.nil_append]; exact hdrop), List.nil_append]
    refine ⟨heq, ?_⟩
    rw [heq, List.length_drop]
    omega
  · intro hsmall
    rw [Background.trimSeen_seen, if_neg (not_lt.mpr hsmall)]
  · intro hok
    rw [Background.finalSave_seen, Background.trimSeen_seen]
    by_cases hbig : 5000 < r.state.seenListings.length
    · rw [if_pos ⟨hok, hbig⟩, if_pos hbig]
    · rw [if_neg (fun h => hbig h.2), if_neg hbig]

/-- The trim at a seen set of 5001 ids, "w" then "x", "xx", and so on: it
leaves the 5000 ids after "w"; and a batch that inserts these 5001 ids into an
empty store leaves the same 5000 ids. -/
theorem Background.trimSeen_keeps_last_witness :
    Background.overfullRun.state.seenListings.Nodup ∧
    Background.overfullRun.state.seenListings.length = 5001 ∧
    (Background.trimSeen (fun _ => true) Background.overfullRun).state.seenListings =
      Background.xIds 5000 ∧
    (Background.processListings JS.toLowerCase true (fun _ => true)
      (Background.warrantyListing :: Background.longBatch) "iPhone".toList
      Background.plainSettings ⟨true, [], false, ["iPhone".toList]⟩
      ⟨none, none, none⟩).state.seenListings = Background.xIds 5000 ∧
    ((5000 < Background.overfullRun.state.seenListings.length →
      (Background.trimSeen (fun _ => true) Background.overfullRun).state.seenListings =
          Background.overfullRun.state.seenListings.drop
            (Background.overfullRun.state.seenListings.length - 5000) ∧
        (Background.trimSeen (fun _ => true) Background.overfullRun).state.seenListings.length
          = 5000) ∧
    (Background.overfullRun.state.seenListings.length ≤ 5000 →
      (Background.trimSeen (fun _ => true) Background.overfullRun).state.seenListings =
        Background.overfullRun.state.seenListings) ∧
    ((fun _ => true) Background.overfullRun.setCalls = true →
      (Background.finalSave (fun _ => true) Background.overfullRun).state.seenListings =
        (Background.trimSeen (fun _ => true) Background.overfullRun).state.seenListings)) :=
  have hseen : Background.overfullRun.state.seenListings = ['w'] :: Background.xIds 5000 := rfl
  have hlen : Background.overfullRun.state.seenListings.length = 5001 := by
    rw [hseen, List.length_cons, Background.xIds_length]
  have hnodup : Background.overfullRun.state.seenListings.Nodup := by
    rw [hseen]; exact Background.w_xIds_nodup 5000
  have htrim : (Background.trimSeen (fun _ => true) Background.overfullRun).state.seenListings =
      Background.xIds 5000 := by
    rw [Background.trimSeen_seen, if_pos (by rw [hlen]; omega), hseen, Background.sliceLast_w_xIds,
      JS.setAddAll_of_nodup _ _ (by rw [List.nil_append]; exact Background.xIds_nodup 5000),
      List.nil_append]
  ⟨hnodup, hlen, htrim,
    Background.processListings_longBatch_seen JS.toLowerCase true (fun _ => true) (fun _ => rfl)
      Background.plainSettings "iPhone".toList,
    Background.trimSeen_keeps_last (fun _ => true) Background.overfullRun hnodup⟩

/-- C13. The first run of a keyword on a batch of 5001 listings with distinct
ids, from an empty seen set: after the call the seen set holds 5001 ids, and
so does the stored array, since the first-run path returns without a trim. -/
theorem Background.first_run_exceeds_bound :
    (Background.processListings JS.toLowerCase true (fun _ => true)
      (Background.warrantyListing :: Background.longBatch) "iPhone".toList
      Background.plainSettings ⟨true, [], true, []⟩
      ⟨none, none, none⟩).state.seenListings.length = 5001 ∧
    (Background.processListings JS.toLowerCase true (fun _ => true)
      (Background.warrantyListing :: Background.longBatch) "iPhone".toList
      Background.plainSettings ⟨true, [], true, []⟩
      ⟨none, none, none⟩).storage.seenListings = some (['w'] :: Background.xIds 5000) ∧
    (['w'] :: Background.xIds 5000).length = 5001 := by
  have hk : "iPhone".toList ∉ (⟨true, [], true, []⟩ : Background.State).firstRunKeywords :=
    List.not_mem_nil _
  obtain ⟨hseen, hstore⟩ := Background.processListings_first_run_seen JS.toLowerCase true
      (fun _ => true)
    (Background.warrantyListing :: Background.longBatch) "iPhone".toList
    Background.plainSettings ⟨true, [], true, []⟩ ⟨none, none, none⟩ hk
  have hS : JS.setAddAll (Background.refreshSeen true ⟨true, [], true, []⟩
      ⟨none, none, none⟩).seenListings
      (Background.listingIds (Background.warrantyListing :: Background.longBatch)) =
      ['w'] :: Background.xIds 5000 := by
    rw [Background.listingIds_warranty_longBatch]
    show JS.setAddAll [] _ = _
    rw [JS.setAddAll_of_nodup _ _ (by rw [List.nil_append]; exact Background.w_xIds_nodup 5000),
      List.nil_append]
  have hlen : (['w'] :: Background.xIds 5000).length = 5001 := by
    rw [List.length_cons, Background.xIds_length]
  refine ⟨?_, ?_, hlen⟩
  · rw [hseen, hS, hlen]
  · rw [hstore rfl rfl, hS]

/-! ## Order of the writes and the messages -/

namespace Background

theorem replayStorage_append (storage : Storage) (a b : List Effect) :
    replayStorage storage (a ++ b) = replayStorage (replayStorage storage a) b := by
  induction a generalizing storage with
  | nil => rfl
  | cons e a ih =>
      cases e with
      | storageSet request ok => exact ih _
      | sendMessage l res text => exact ih _

theorem flushedBeforeAlerts_append (storage : Storage) (a b : List Effect) :
    FlushedBeforeAlerts storage (a ++ b) ↔
      FlushedBeforeAlerts storage a ∧ FlushedBeforeAlerts (replayStorage storage a) b := by
  induction a generalizing storage with
  | nil => simp [FlushedBeforeAlerts, replayStorage]
  | cons e a ih =>
      cases e with
      | storageSet request ok =>
          simp only [List.cons_append, FlushedBeforeAlerts, replayStorage]
          exact ih _
      | sendMessage l res text =>
          simp only [List.cons_append, FlushedBeforeAlerts, replayStorage, and_assoc]
          exact and_congr_right (fun _ => ih _)

theorem consistent_storageSet (start : Storage) (setOk : Nat → Bool) (request : SetRequest)
    (r : Run) (h : Consistent start r) : Consistent start (r.storageSet setOk request) := by
  obtain ⟨h1, h2⟩ := h
  constructor
  · simp only [Run.storageSet, replayStorage_append, ← h1, replayStorage]
  · simp only [Run.storageSet, flushedBeforeAlerts_append, ← h1, FlushedBeforeAlerts, h2, and_self]

theorem consistent_processListing (lowerCase : List Char → List Char) (start : Storage)
    (settings : Settings) (setOk : Nat → Bool)
    (hok : ∀ n, setOk n = true) (r : Run) (l : Listing) (h : Consistent start r) :
    Consistent start (processListing lowerCase settings setOk r l) := by
  obtain ⟨h1, h2⟩ := h
  simp only [processListing, Run.storageSet, hok, if_true]
  split
  · exact ⟨h1, h2⟩
  · split
    · constructor
      · simp only [replayStorage_append, ← h1, replayStorage, if_true]
      · simp only [flushedBeforeAlerts_append, ← h1, FlushedBeforeAlerts, h2, and_self]
    · split
      · constructor
        · simp only [replayStorage_append, ← h1, replayStorage, if_true]
        · simp only [flushedBeforeAlerts_append, replayStorage_append, ← h1, FlushedBeforeAlerts,
            replayStorage, h2, if_true, and_true, true_and]
          exact ⟨_, rfl, (JS.mem_setAdd _ _ _).mpr (Or.inr rfl)⟩
      · constructor
        · simp only [replayStorage_append, ← h1, replayStorage, if_true]
        · simp only [flushedBeforeAlerts_append, ← h1, FlushedBeforeAlerts, h2, and_self]

theorem consistent_processLoop (lowerCase : List Char → List Char) (start : Storage)
    (settings : Settings) (setOk : Nat → Bool)
    (hok : ∀ n, setOk n = true) (ls : List Listing) (r : Run) (h : Consistent start r) :
    Consistent start (processLoop lowerCase settings setOk ls r) := by
  induction ls generalizing r with
  | nil => exact h
  | cons l ls ih => exact ih _ (consistent_processListing lowerCase start settings setOk hok r l h)

theorem consistent_trimSeen (start : Storage) (setOk : Nat → Bool) (r : Run)
    (h : Consistent start r) : Consistent start (trimSeen setOk r) := by
  simp only [trimSeen]
  split
  · refine consistent_storageSet start setOk _ _ ?_
    exact ⟨h.1, h.2⟩
  · exact h

theorem consistent_finalSave (start : Storage) (setOk : Nat → Bool) (r : Run)
    (h : Consistent start r) : Consistent start (finalSave setOk r) := by
  rw [finalSave_eq_trimSeen]
  split
  · exact consistent_trimSeen start setOk _ (consistent_storageSet start setOk _ r h)
  · exact consistent_storageSet start setOk _ r h

/-- After the insertion of a new id the stored array is the seen set. -/
theorem processListing_stored (lowerCase : List Char → List Char) (settings : Settings)
    (setOk : Nat → Bool)
    (hok : ∀ n, setOk n = true) (r : Run) (l : Listing)
    (hnew : extractListingId l.link ∉ r.state.seenListings) :
    (processListing lowerCase settings setOk r l).storage.seenListings =
      some (processListing lowerCase settings setOk r l).state.seenListings := by
  simp only [processListing, Run.storageSet, hok, if_true, hnew, if_false]
  split
  · rfl
  · split <;> rfl

theorem processLoop_append_singleton (lowerCase : List Char → List Char) (settings : Settings)
    (setOk : Nat → Bool)
    (done : List Listing) (l : Listing) (r : Run) :
    processLoop lowerCase settings setOk (done ++ [l]) r =
      processListing lowerCase settings setOk (processLoop lowerCase settings setOk done r) l := by
  unfold processLoop
  rw [List.foldl_append]
  rfl

end Background

/-- C17. Flush before alert: in a non-first-run batch whose writes to storage
succeed, every message is sent at a point where the stored array of seen ids
already holds the id of its listing; and right after the insertion of each new
id the stored array is the seen set of the state, in its order. -/
theorem Background.processListings_flush_before_alert (lowerCase : List Char → List Char)
    (getOk : Bool) (setOk : Nat → Bool)
    (listings : List Background.Listing) (keyword : List Char)
    (settings : Background.Settings) (state : Background.State) (storage : Background.Storage)
    (hok : ∀ n, setOk n = true) (hk : keyword ∈ state.firstRunKeywords) :
    Background.FlushedBeforeAlerts storage
      (Background.processListings lowerCase getOk setOk listings keyword settings state
          storage).effects ∧
    (∀ done l rest, listings = done ++ l :: rest →
      Background.extractListingId l.link ∉
        (Background.processLoop lowerCase settings setOk done
          ⟨Background.refreshSeen getOk state storage, storage, 0, []⟩).state.seenListings →
      (Background.processLoop lowerCase settings setOk (done ++ [l])
          ⟨Background.refreshSeen getOk state storage, storage, 0, []⟩).storage.seenListings =
        some (Background.processLoop lowerCase settings setOk (done ++ [l])
          ⟨Background.refreshSeen getOk state storage, storage, 0, []⟩).state.seenListings) := by
  constructor
  · have hk1 : keyword ∈ (Background.refreshSeen getOk state storage).firstRunKeywords := by
      rw [Background.refreshSeen_keywords]; exact hk
    have hstart : Background.Consistent storage
        ⟨Background.refreshSeen getOk state storage, storage, 0, []⟩ := ⟨rfl, trivial⟩
    have := Background.consistent_finalSave storage setOk _
      (Background.consistent_processLoop lowerCase storage settings setOk hok listings _ hstart)
    unfold Background.processListings
    simp only [hk1, decide_True, Bool.not_true, Bool.false_eq_true, if_false]
    exact this.2
  · intro done l rest _ hnew
    rw [Background.processLoop_append_singleton]
    exact Background.processListing_stored lowerCase settings setOk hok _ l hnew

/-- C17, at a batch of two listings that are both alerted. -/
theorem Background.processListings_flush_before_alert_witness :
    (Background.processListings JS.toLowerCase true (fun _ => true) Background.twoListings
        "iPhone".toList
      Background.plainSettings ⟨true, [], false, ["iPhone".toList]⟩
      ⟨none, none, none⟩).effects =
      [Background.Effect.storageSet (Background.SetRequest.seenListings [['a']]) true,
       Background.Effect.sendMessage ⟨['a'], "$150".toList, "iPhone 12".toList⟩
         MatchResult.noMatch "For $150\nLink: https://www.facebook.coma".toList,
       Background.Effect.storageSet (Background.SetRequest.seenListings [['a'], ['b']]) true,
       Background.Effect.sendMessage ⟨['b'], "$150".toList, "iPhone 12".toList⟩
         MatchResult.noMatch "For $150\nLink: https://www.facebook.comb".toList,
       Background.Effect.storageSet (Background.SetRequest.seenListings [['a'], ['b']]) true] ∧
    (Background.FlushedBeforeAlerts ⟨none, none, none⟩
      (Background.processListings JS.toLowerCase true (fun _ => true) Background.twoListings
          "iPhone".toList
        Background.plainSettings ⟨true, [], false, ["iPhone".toList]⟩
        ⟨none, none, none⟩).effects ∧
    (∀ done l rest, Background.twoListings = done ++ l :: rest →
      Background.extractListingId l.link ∉
        (Background.processLoop JS.toLowerCase Background.plainSettings (fun _ => true) done
          ⟨Background.refreshSeen true ⟨true, [], false, ["iPhone".toList]⟩ ⟨none, none, none⟩,
            ⟨none, none, none⟩, 0, []⟩).state.seenListings →
      (Background.processLoop JS.toLowerCase Background.plainSettings (fun _ => true) (done ++ [l])
          ⟨Background.refreshSeen true ⟨true, [], false, ["iPhone".toList]⟩ ⟨none, none, none⟩,
            ⟨none, none, none⟩, 0, []⟩).storage.seenListings =
        some (Background.processLoop JS.toLowerCase Background.plainSettings (fun _ => true)
            (done ++ [l])
          ⟨Background.refreshSeen true ⟨true, [], false, ["iPhone".toList]⟩ ⟨none, none, none⟩,
            ⟨none, none, none⟩, 0, []⟩).state.seenListings)) :=
  ⟨by decide,
    Background.processListings_flush_before_alert JS.toLowerCase true (fun _ => true)
        Background.twoListings
      "iPhone".toList Background.plainSettings ⟨true, [], false, ["iPhone".toList]⟩
      ⟨none, none, none⟩ (fun _ => rfl) (by decide)⟩

/-! ## The first-run state -/

namespace Background

theorem processListings_first_run_keywords (lowerCase : List Char → List Char) (getOk : Bool)
    (setOk : Nat → Bool)
    (listings : List Listing) (keyword : List Char) (settings : Settings) (state : State)
    (storage : Storage) (hk : keyword ∉ state.firstRunKeywords) :
    (processListings lowerCase getOk setOk listings keyword settings state
        storage).state.firstRunKeywords =
      JS.setAdd state.firstRunKeywords keyword := by
  have hk1 : keyword ∉ (refreshSeen getOk state storage).firstRunKeywords := by
    rw [refreshSeen_keywords]; exact hk
  unfold processListings
  simp only [hk1, hk, decide_False, Bool.not_false, if_true, Run.storageSet, refreshSeen_keywords]
  split <;> rfl

/-- A call of `processListings` keeps every completed keyword. -/
theorem processListings_keeps_keyword (lowerCase : List Char → List Char) (getOk : Bool)
    (setOk : Nat → Bool)
    (listings : List Listing) (keyword : List Char) (settings : Settings) (state : State)
    (storage : Storage) (k : List Char) (hk : k ∈ state.firstRunKeywords) :
    k ∈ (processListings lowerCase getOk setOk listings keyword settings state
        storage).state.firstRunKeywords := by
  by_cases hkw : keyword ∈ state.firstRunKeywords
  · rw [(processListings_of_completed lowerCase getOk setOk listings keyword settings state storage
        hkw).2.1]
    exact hk
  · rw [processListings_first_run_keywords lowerCase getOk setOk listings keyword settings state
        storage hkw]
    exact (JS.mem_setAdd _ _ _).mpr (Or.inl hk)

end Background

/-- C18. The first-run state is monotone under processing: a call of
`processListings`, on either path, keeps every keyword that was completed
before it; among the operations of the running process a completed keyword
is lost only by `resetFirstRunState`, after which no keyword is completed. -/
theorem Background.firstRunKeywords_monotone (step : Background.Step)
    (state : Background.State) (storage : Background.Storage) (k : List Char)
    (hk : k ∈ state.firstRunKeywords) :
    (∀ (lowerCase : List Char → List Char) (getOk : Bool) (setOk : Nat → Bool)
        (listings : List Background.Listing) (keyword : List Char)
        (settings : Background.Settings),
      k ∈ (Background.processListings lowerCase getOk setOk listings keyword settings state
        storage).state.firstRunKeywords) ∧
    (k ∉ (step.run state storage).state.firstRunKeywords → ∃ ok, step = Background.Step.reset ok) ∧
    (∀ ok, (Background.resetFirstRunState ok state storage).state.firstRunKeywords = []) := by
  refine ⟨?_, ?_, fun _ => rfl⟩
  · intro lowerCase getOk setOk listings keyword settings
    exact Background.processListings_keeps_keyword lowerCase getOk setOk listings keyword settings
      state storage k hk
  · intro hlost
    cases step with
    | process lowerCase getOk setOk listings keyword settings =>
        exact absurd (Background.processListings_keeps_keyword lowerCase getOk setOk listings
          keyword settings state storage k hk) hlost
    | reset ok => exact ⟨ok, rfl⟩

/-- C18, at a state where "iPhone" is completed: a first run of "iPad" keeps
it, and a reset loses it. -/
theorem Background.firstRunKeywords_monotone_witness :
    (Background.processListings JS.toLowerCase true (fun _ => true) Background.twoListings
        "iPad".toList
      Background.plainSettings ⟨true, [], false, ["iPhone".toList]⟩
      ⟨none, none, none⟩).state.firstRunKeywords = ["iPhone".toList, "iPad".toList] ∧
    ((∀ (lowerCase : List Char → List Char) (getOk : Bool) (setOk : Nat → Bool)
        (listings : List Background.Listing) (keyword : List Char)
        (settings : Background.Settings),
      "iPhone".toList ∈ (Background.processListings lowerCase getOk setOk listings keyword settings
        ⟨true, [], false, ["iPhone".toList]⟩ ⟨none, none, none⟩).state.firstRunKeywords) ∧
    ("iPhone".toList ∉ ((Background.Step.reset true).run ⟨true, [], false, ["iPhone".toList]⟩
        ⟨none, none, none⟩).state.firstRunKeywords →
      ∃ ok, Background.Step.reset true = Background.Step.reset ok) ∧
    (∀ ok, (Background.resetFirstRunState ok ⟨true, [], false, ["iPhone".toList]⟩
      ⟨none, none, none⟩).state.firstRunKeywords = [])) :=
  ⟨by decide,
    Background.firstRunKeywords_monotone (Background.Step.reset true)
      ⟨true, [], false, ["iPhone".toList]⟩ ⟨none, none, none⟩ "iPhone".toList (by decide)⟩

/-! ## The patterns of `extractListingId` -/

namespace Background

/-- A scan that returns at the first suffix satisfying a condition finds the
leftmost such suffix. -/
theorem scan_some (cond : List Char → Prop) [DecidablePred cond] (g : List Char → List Char)
    (f : List Char → Option (List Char))
    (hcons : ∀ c s, f (c :: s) = if cond (c :: s) then some (g (c :: s)) else f s)
    (hnil : f [] = none) :
    ∀ link d, f link = some d →
      ∃ pre suf, link = pre ++ suf ∧ cond suf ∧ d = g suf ∧
        ∀ pre' suf', link = pre' ++ suf' → cond suf' → pre.length ≤ pre'.length := by
  intro link
  induction link with
  | nil =>
      intro d h
      rw [hnil] at h
      exact absurd h (by simp)
  | cons c s ih =>
      intro d h
      rw [hcons] at h
      by_cases hc : cond (c :: s)
      · rw [if_pos hc] at h
        exact ⟨[], c :: s, rfl, hc, (Option.some.inj h).symm, fun _ _ _ _ => Nat.zero_le _⟩
      · rw [if_neg hc] at h
        obtain ⟨pre, suf, hl, hcond, hd, hleft⟩ := ih d h
        refine ⟨c :: pre, suf, by rw [hl]; rfl, hcond, hd, ?_⟩
        intro pre' suf' hl' hcond'
        cases pre' with
        | nil =>
            rw [List.nil_append] at hl'
            rw [← hl'] at hcond'
            exact absurd hcond' hc
        | cons c' p' =>
            rw [List.cons_append] at hl'
            have := hleft p' suf' (List.cons.inj hl').2 hcond'
            simp only [List.length_cons]
            omega

theorem scan_none (cond : List Char → Prop) [DecidablePred cond] (g : List Char → List Char)
    (f : List Char → Option (List Char))
    (hcons : ∀ c s, f (c :: s) = if cond (c :: s) then some (g (c :: s)) else f s)
    (hcondnil : ¬ cond []) :
    ∀ link, f link = none → ∀ pre suf, link = pre ++ suf → ¬ cond suf := by
  intro link
  induction link with
  | nil =>
      intro _ pre suf hl
      have : suf = [] := (List.append_eq_nil.mp hl.symm).2
      rw [this]
      exact hcondnil
  | cons c s ih =>
      intro h pre suf hl
      rw [hcons] at h
      by_cases hc : cond (c :: s)
      · rw [if_pos hc] at h
        exact absurd h (by simp)
      · rw [if_neg hc] at h
        cases pre with
        | nil =>
            rw [List.nil_append] at hl
            rw [← hl]
            exact hc
        | cons c' p' =>
            rw [List.cons_append] at hl
            exact ih h p' suf (List.cons.inj hl).2

/-- A run of digits followed by something that does not start with a digit is
what `takeWhile` and `dropWhile` split off. -/
theorem digits_split (d post : List Char) (hd : ∀ c ∈ d, JS.isDigit c = true)
    (hp : ∀ c, post.head? = some c → JS.isDigit c = false) :
    (d ++ post).takeWhile JS.isDigit = d ∧ (d ++ post).dropWhile JS.isDigit = post := by
  have ht : post.takeWhile JS.isDigit = [] := by
    cases post with
    | nil => rfl
    | cons c t => exact List.takeWhile_cons_of_neg (by rw [hp c rfl]; simp)
  have hdw : post.dropWhile JS.isDigit = post := by
    cases post with
    | nil => rfl
    | cons c t => exact List.dropWhile_cons_of_neg (by rw [hp c rfl]; simp)
  rw [List.takeWhile_append_of_pos hd, List.dropWhile_append_of_pos hd, ht, hdw, List.append_nil]
  exact ⟨rfl, rfl⟩

theorem head_dropWhile_isDigit (t : List Char) (c : Char)
    (h : (t.dropWhile JS.isDigit).head? = some c) : JS.isDigit c = false := by
  have := List.head?_dropWhile_not JS.isDigit t
  rw [h] at this
  exact this

theorem matchItemId_cons (c : Char) (s : List Char) :
    matchItemId (c :: s) =
      if itemHere (c :: s) then some (((c :: s).drop 17).takeWhile JS.isDigit)
      else matchItemId s := by
  rw [matchItemId]

theorem matchAltId_cons (c : Char) (s : List Char) :
    matchAltId (c :: s) =
      if altHere (c :: s) then some ((c :: s).tail.takeWhile JS.isDigit) else matchAltId s := by
  rw [matchAltId]
  by_cases h : c = '/' ∧ s.takeWhile JS.isDigit ≠ [] ∧ altTail (s.dropWhile JS.isDigit) = true
  · have h2 : altHere (c :: s) := ⟨by simp [h.1], h.2.1, h.2.2⟩
    rw [if_pos h, if_pos h2]
    rfl
  · have h2 : ¬ altHere (c :: s) := by
      rintro ⟨h1, h3, h4⟩
      exact h ⟨by simpa using h1, h3, h4⟩
    rw [if_neg h, if_neg h2]

theorem itemHere_iff (suf d : List Char) :
    (itemHere suf ∧ (suf.drop 17).takeWhile JS.isDigit = d) ↔
      ∃ post, ItemOccurrence suf [] d post := by
  constructor
  · rintro ⟨⟨hpre, hne⟩, hd⟩
    rw [List.isPrefixOf_iff_prefix] at hpre
    obtain ⟨t, ht⟩ := hpre
    have hdrop : suf.drop 17 = t := by
      rw [← ht]
      exact List.drop_left' (by decide)
    rw [hdrop] at hd hne
    refine ⟨t.dropWhile JS.isDigit, ?_, ?_, ?_, ?_⟩
    · rw [List.nil_append, ← hd, List.takeWhile_append_dropWhile, ht]
    · rw [← hd]; exact hne
    · intro c hc
      rw [← hd] at hc
      exact List.mem_takeWhile_imp hc
    · exact fun c hc => head_dropWhile_isDigit t c hc
  · rintro ⟨post, hl, hne, hdig, hpost⟩
    rw [List.nil_append] at hl
    have hdrop : suf.drop 17 = d ++ post := by
      rw [hl]
      exact List.drop_left' (by decide)
    have hsplit := digits_split d post hdig hpost
    refine ⟨⟨?_, ?_⟩, ?_⟩
    · rw [List.isPrefixOf_iff_prefix, hl]
      exact List.prefix_append _ _
    · rw [hdrop, hsplit.1]; exact hne
    · rw [hdrop, hsplit.1]

theorem altTail_iff (post : List Char) :
    altTail post = true ↔
      (post = [] ∨ post = ['/'] ∨ (∃ t, post = '?' :: t) ∨ (∃ t, post = '/' :: '?' :: t)) := by
  constructor
  · intro h
    unfold altTail at h
    split at h
    · exact Or.inl rfl
    · exact Or.inr (Or.inr (Or.inl ⟨_, rfl⟩))
    · exact Or.inr (Or.inl rfl)
    · exact Or.inr (Or.inr (Or.inr ⟨_, rfl⟩))
    · exact absurd h (by simp)
  · rintro (h | h | ⟨t, h⟩ | ⟨t, h⟩) <;> subst h <;> simp [altTail]

theorem head_of_altTail (post : List Char) (h : altTail post = true) (c : Char)
    (hc : post.head? = some c) : JS.isDigit c = false := by
  rcases (altTail_iff post).mp h with h | h | ⟨t, h⟩ | ⟨t, h⟩ <;> subst h <;>
    simp at hc <;> subst hc <;> decide

theorem altHere_iff (suf d : List Char) :
    (altHere suf ∧ suf.tail.takeWhile JS.isDigit = d) ↔ ∃ post, AltOccurrence suf [] d post := by
  constructor
  · rintro ⟨⟨hhead, hne, htail⟩, hd⟩
    cases suf with
    | nil => simp at hhead
    | cons c s =>
        simp only [List.head?_cons, Option.some.injEq] at hhead
        subst hhead
        simp only [List.tail_cons] at hne htail hd
        refine ⟨s.dropWhile JS.isDigit, ?_, ?_, ?_, (altTail_iff _).mp htail⟩
        · rw [List.nil_append, ← hd, List.takeWhile_append_dropWhile]
        · rw [← hd]; exact hne
        · intro x hx
          rw [← hd] at hx
          exact List.mem_takeWhile_imp hx
  · rintro ⟨post, hl, hne, hdig, hpost⟩
    rw [List.nil_append] at hl
    subst hl
    have hsplit := digits_split d post hdig (head_of_altTail post ((altTail_iff post).mpr hpost))
    refine ⟨⟨rfl, ?_, ?_⟩, ?_⟩
    · rw [List.tail_cons, hsplit.1]; exact hne
    · rw [List.tail_cons, hsplit.2]; exact (altTail_iff post).mpr hpost
    · rw [List.tail_cons, hsplit.1]

theorem itemOccurrence_shift (pre suf d post : List Char) :
    ItemOccurrence (pre ++ suf) pre d post ↔ ItemOccurrence suf [] d post := by
  unfold ItemOccurrence
  rw [List.nil_append, List.append_cancel_left_eq]

theorem altOccurrence_shift (pre suf d post : List Char) :
    AltOccurrence (pre ++ suf) pre d post ↔ AltOccurrence suf [] d post := by
  unfold AltOccurrence
  rw [List.nil_append, List.append_cancel_left_eq]

end Background

namespace Background

theorem matchItemId_some (link d : List Char) (h : matchItemId link = some d) :
    ∃ pre post, ItemOccurrence link pre d post ∧
      ∀ pre' d' post', ItemOccurrence link pre' d' post' → pre.length ≤ pre'.length := by
  obtain ⟨pre, suf, hl, hcond, hd, hleft⟩ :=
    scan_some itemHere (fun suf => (suf.drop 17).takeWhile JS.isDigit) matchItemId
      matchItemId_cons rfl link d h
  obtain ⟨post, hocc⟩ := (itemHere_iff suf d).mp ⟨hcond, hd.symm⟩
  subst hl
  refine ⟨pre, post, (itemOccurrence_shift pre suf d post).mpr hocc, ?_⟩
  intro pre' d' post' hocc'
  have hl' := hocc'.1
  have hocc2 : ItemOccurrence ("marketplace/item/".toList ++ (d' ++ post')) [] d' post' :=
    ⟨rfl, hocc'.2⟩
  exact hleft pre' _ hl' ((itemHere_iff _ d').mpr ⟨post', hocc2⟩).1

theorem matchItemId_none (link : List Char) (h : matchItemId link = none) :
    ¬ ∃ pre d post, ItemOccurrence link pre d post := by
  rintro ⟨pre, d, post, hocc⟩
  have hocc2 : ItemOccurrence ("marketplace/item/".toList ++ (d ++ post)) [] d post :=
    ⟨rfl, hocc.2⟩
  exact scan_none itemHere (fun suf => (suf.drop 17).takeWhile JS.isDigit) matchItemId
    matchItemId_cons (by decide) link h pre _ hocc.1 ((itemHere_iff _ d).mpr ⟨post, hocc2⟩).1

theorem matchAltId_some (link d : List Char) (h : matchAltId link = some d) :
    ∃ pre post, AltOccurrence link pre d post ∧
      ∀ pre' d' post', AltOccurrence link pre' d' post' → pre.length ≤ pre'.length := by
  obtain ⟨pre, suf, hl, hcond, hd, hleft⟩ :=
    scan_some altHere (fun suf => suf.tail.takeWhile JS.isDigit) matchAltId
      matchAltId_cons rfl link d h
  obtain ⟨post, hocc⟩ := (altHere_iff suf d).mp ⟨hcond, hd.symm⟩
  subst hl
  refine ⟨pre, post, (altOccurrence_shift pre suf d post).mpr hocc, ?_⟩
  intro pre' d' post' hocc'
  have hl' := hocc'.1
  have hocc2 : AltOccurrence ('/' :: (d' ++ post')) [] d' post' := ⟨rfl, hocc'.2⟩
  exact hleft pre' _ hl' ((altHere_iff _ d').mpr ⟨post', hocc2⟩).1

theorem matchAltId_none (link : List Char) (h : matchAltId link = none) :
    ¬ ∃ pre d post, AltOccurrence link pre d post := by
  rintro ⟨pre, d, post, hocc⟩
  have hocc2 : AltOccurrence ('/' :: (d ++ post)) [] d post := ⟨rfl, hocc.2⟩
  exact scan_none altHere (fun suf => suf.tail.takeWhile JS.isDigit) matchAltId
    matchAltId_cons (by decide) link h pre _ hocc.1 ((altHere_iff _ d).mpr ⟨post, hocc2⟩).1

end Background

/-- C15. The three levels of `extractListingId` : when the link holds
"marketplace/item/" followed by a digit, the result is the whole run of digits
after the leftmost such occurrence; otherwise, when it holds a slash and
digits followed by an optional slash and then by "?" or the end, the result is
the digits of the leftmost such occurrence; otherwise the result is the link.
The result is thus a non-empty string of digits or the link itself. -/
theorem Background.extractListingId_rule (link : List Char) :
    ((∃ pre d post, Background.ItemOccurrence link pre d post) →
      ∃ pre d post, Background.ItemOccurrence link pre d post ∧
        (∀ pre' d' post', Background.ItemOccurrence link pre' d' post' →
          pre.length ≤ pre'.length) ∧
        Background.extractListingId link = d) ∧
    ((¬ ∃ pre d post, Background.ItemOccurrence link pre d post) →
      (∃ pre d post, Background.AltOccurrence link pre d post) →
      ∃ pre d post, Background.AltOccurrence link pre d post ∧
        (∀ pre' d' post', Background.AltOccurrence link pre' d' post' →
          pre.length ≤ pre'.length) ∧
        Background.extractListingId link = d) ∧
    ((¬ ∃ pre d post, Background.ItemOccurrence link pre d post) →
      (¬ ∃ pre d post, Background.AltOccurrence link pre d post) →
      Background.extractListingId link = link) ∧
    ((Background.extractListingId link ≠ [] ∧
        ∀ c ∈ Background.extractListingId link, JS.isDigit c = true) ∨
      Background.extractListingId link = link) := by
  cases hitem : Background.matchItemId link with
  | some d =>
      have hex : Background.extractListingId link = d := by
        unfold Background.extractListingId
        rw [hitem]
      obtain ⟨pre, post, hocc, hleft⟩ := Background.matchItemId_some link d hitem
      refine ⟨fun _ => ⟨pre, d, post, hocc, hleft, hex⟩, fun hno => absurd ⟨pre, d, post, hocc⟩ hno,
        fun hno => absurd ⟨pre, d, post, hocc⟩ hno, Or.inl ?_⟩
      rw [hex]
      exact ⟨hocc.2.1, hocc.2.2.1⟩
  | none =>
      have hnoitem := Background.matchItemId_none link hitem
      cases halt : Background.matchAltId link with
      | some d =>
          have hex : Background.extractListingId link = d := by
            unfold Background.extractListingId
            rw [hitem, halt]
          obtain ⟨pre, post, hocc, hleft⟩ := Background.matchAltId_some link d halt
          refine ⟨fun h => absurd h hnoitem, fun _ _ => ⟨pre, d, post, hocc, hleft, hex⟩,
            fun _ hno => absurd ⟨pre, d, post, hocc⟩ hno, Or.inl ?_⟩
          rw [hex]
          exact ⟨hocc.2.1, hocc.2.2.1⟩
      | none =>
          have hnoalt := Background.matchAltId_none link halt
          have hex : Background.extractListingId link = link := by
            unfold Background.extractListingId
            rw [hitem, halt]
          exact ⟨fun h => absurd h hnoitem, fun _ h => absurd h hnoalt, fun _ _ => hex, Or.inr hex⟩

/-- C15, at the link "/marketplace/item/12345/?ref=search" : the first level
applies and gives "12345"; two further links show the other two levels. -/
theorem Background.extractListingId_rule_witness :
    Background.extractListingId "/marketplace/item/12345/?ref=search".toList = "12345".toList ∧
    Background.extractListingId "/groups/777/?x=1".toList = "777".toList ∧
    Background.extractListingId "/groups/777a/?x=1".toList = "/groups/777a/?x=1".toList ∧
    ∃ pre d post,
      Background.ItemOccurrence "/marketplace/item/12345/?ref=search".toList pre d post ∧
      (∀ pre' d' post',
        Background.ItemOccurrence "/marketplace/item/12345/?ref=search".toList pre' d' post' →
          pre.length ≤ pre'.length) ∧
      Background.extractListingId "/marketplace/item/12345/?ref=search".toList = d :=
  ⟨by decide, by decide, by decide,
    (Background.extractListingId_rule "/marketplace/item/12345/?ref=search".toList).1
      ⟨"/".toList, "12345".toList, "/?ref=search".toList, by decide, by decide,
        by decide, by
          intro c hc
          have : c = '/' := by simpa using hc.symm
          subst this
          decide⟩⟩

/-! ## Duplicates within a batch -/

namespace Background

theorem loopAlerts_sublist (lowerCase : List Char → List Char) (settings : Settings)
    (ls : List Listing) (seen : List (List Char)) :
    (loopAlerts lowerCase settings ls seen).Sublist ls := by
  induction ls generalizing seen with
  | nil => simp [loopAlerts]
  | cons x ls ih =>
      simp only [loopAlerts]
      split
      · exact List.Sublist.cons₂ x (ih _)
      · exact List.Sublist.cons x (ih _)

theorem loopAlerts_ids_nodup (lowerCase : List Char → List Char) (settings : Settings)
    (ls : List Listing) (seen : List (List Char)) :
    (listingIds (loopAlerts lowerCase settings ls seen)).Nodup := by
  induction ls generalizing seen with
  | nil => simp [loopAlerts, listingIds]
  | cons x ls ih =>
      simp only [loopAlerts]
      split
      · simp only [List.singleton_append, listingIds, List.map_cons, List.nodup_cons]
        refine ⟨?_, ih _⟩
        intro hmem
        obtain ⟨l, hl, hid⟩ := List.mem_map.mp hmem
        obtain ⟨_, hnot, _⟩ := mem_loopAlerts lowerCase _ _ _ _ hl
        apply hnot
        rw [hid]
        exact (JS.mem_setAdd _ _ _).mpr (Or.inr rfl)
      · simpa using ih _

theorem loopAlerts_first (lowerCase : List Char → List Char) (settings : Settings)
    (ls : List Listing) (seen : List (List Char))
    (l : Listing) (h : l ∈ loopAlerts lowerCase settings ls seen) :
    ls.find? (fun x => decide (extractListingId x.link = extractListingId l.link)) = some l := by
  induction ls generalizing seen with
  | nil => simp [loopAlerts] at h
  | cons x ls ih =>
      simp only [loopAlerts, List.mem_append] at h
      rcases h with h | h
      · split at h
        · simp only [List.mem_singleton] at h
          subst h
          simp
        · simp at h
      · obtain ⟨_, hnot, _⟩ := mem_loopAlerts lowerCase _ _ _ _ h
        have hne : ¬ extractListingId x.link = extractListingId l.link := by
          intro heq
          apply hnot
          rw [← heq]
          exact (JS.mem_setAdd _ _ _).mpr (Or.inr rfl)
        rw [List.find?_cons_of_neg _ (by simpa using hne)]
        exact ih _ h

theorem processListing_of_seen (lowerCase : List Char → List Char) (settings : Settings)
    (setOk : Nat → Bool) (r : Run) (l : Listing)
    (h : extractListingId l.link ∈ r.state.seenListings) :
    processListing lowerCase settings setOk r l = r := by
  simp only [processListing]
  rw [if_pos h]

theorem mem_processLoop_seen (lowerCase : List Char → List Char) (settings : Settings)
    (setOk : Nat → Bool) (ls : List Listing)
    (r : Run) (x : List Char) (h : x ∈ listingIds ls) :
    x ∈ (processLoop lowerCase settings setOk ls r).state.seenListings := by
  rw [processLoop_seen]
  exact (JS.mem_setAddAll _ _ _).mpr (Or.inr h)

end Background

/-- C21. First occurrence wins within a batch: in a non-first-run batch the
listings alerted have pairwise distinct ids, are in the order of the batch,
and each of them is the first listing of the batch with its id; a listing
whose id occurs earlier in the batch leaves the run as it is: no id is added,
nothing is written and no message is sent, so it is not classified. -/
theorem Background.processListings_first_occurrence (lowerCase : List Char → List Char)
    (getOk : Bool) (setOk : Nat → Bool)
    (listings : List Background.Listing) (keyword : List Char)
    (settings : Background.Settings) (state : Background.State) (storage : Background.Storage)
    (hk : keyword ∈ state.firstRunKeywords) :
    (Background.listingIds (Background.alerts
      (Background.processListings lowerCase getOk setOk listings keyword settings state
        storage).effects)).Nodup ∧
    (Background.alerts (Background.processListings lowerCase getOk setOk listings keyword settings
        state
      storage).effects).Sublist listings ∧
    (∀ l ∈ Background.alerts
        (Background.processListings lowerCase getOk setOk listings keyword settings state
            storage).effects,
      listings.find? (fun x =>
        decide (Background.extractListingId x.link = Background.extractListingId l.link)) =
          some l) ∧
    (∀ done l rest, listings = done ++ l :: rest →
      Background.extractListingId l.link ∈ Background.listingIds done →
      Background.processListing lowerCase settings setOk
          (Background.processLoop lowerCase settings setOk done
            ⟨Background.refreshSeen getOk state storage, storage, 0, []⟩) l =
        Background.processLoop lowerCase settings setOk done
          ⟨Background.refreshSeen getOk state storage, storage, 0, []⟩) := by
  obtain ⟨halerts, _, _⟩ := Background.processListings_of_completed lowerCase getOk setOk listings
      keyword
    settings state storage hk
  rw [halerts]
  refine ⟨Background.loopAlerts_ids_nodup lowerCase _ _ _, Background.loopAlerts_sublist lowerCase
      _ _ _,
    fun l hl => Background.loopAlerts_first lowerCase _ _ _ l hl, ?_⟩
  intro done l rest _ hmem
  exact Background.processListing_of_seen lowerCase settings setOk _ l
    (Background.mem_processLoop_seen lowerCase settings setOk done _ _ hmem)

/-- C21, at a batch in which the id "a" occurs twice: the first of the two
listings is alerted, the second is not. -/
theorem Background.processListings_first_occurrence_witness :
    Background.alerts (Background.processListings JS.toLowerCase true (fun _ => true)
        Background.repeatedBatch
      "iPhone".toList Background.plainSettings ⟨true, [], false, ["iPhone".toList]⟩
      ⟨none, none, none⟩).effects =
      [⟨"a".toList, "$150".toList, "iPhone 12".toList⟩,
       ⟨"b".toList, "$150".toList, "iPhone 12".toList⟩] ∧
    ((Background.listingIds (Background.alerts
      (Background.processListings JS.toLowerCase true (fun _ => true) Background.repeatedBatch
        "iPhone".toList Background.plainSettings ⟨true, [], false, ["iPhone".toList]⟩
        ⟨none, none, none⟩).effects)).Nodup ∧
    (Background.alerts (Background.processListings JS.toLowerCase true (fun _ => true)
        Background.repeatedBatch
      "iPhone".toList Background.plainSettings ⟨true, [], false, ["iPhone".toList]⟩
      ⟨none, none, none⟩).effects).Sublist Background.repeatedBatch ∧
    (∀ l ∈ Background.alerts
        (Background.processListings JS.toLowerCase true (fun _ => true) Background.repeatedBatch
          "iPhone".toList Background.plainSettings ⟨true, [], false, ["iPhone".toList]⟩
          ⟨none, none, none⟩).effects,
      Background.repeatedBatch.find? (fun x =>
        decide (Background.extractListingId x.link = Background.extractListingId l.link)) =
          some l) ∧
    (∀ done l rest, Background.repeatedBatch = done ++ l :: rest →
      Background.extractListingId l.link ∈ Background.listingIds done →
      Background.processListing JS.toLowerCase Background.plainSettings (fun _ => true)
          (Background.processLoop JS.toLowerCase Background.plainSettings (fun _ => true) done
            ⟨Background.refreshSeen true ⟨true, [], false, ["iPhone".toList]⟩ ⟨none, none, none⟩,
              ⟨none, none, none⟩, 0, []⟩) l =
        Background.processLoop JS.toLowerCase Background.plainSettings (fun _ => true) done
          ⟨Background.refreshSeen true ⟨true, [], false, ["iPhone".toList]⟩ ⟨none, none, none⟩,
            ⟨none, none, none⟩, 0, []⟩)) :=
  ⟨by decide,
    Background.processListings_first_occurrence JS.toLowerCase true (fun _ => true)
        Background.repeatedBatch
      "iPhone".toList Background.plainSettings ⟨true, [], false, ["iPhone".toList]⟩
      ⟨none, none, none⟩ (by decide)⟩

/-! ## Query strings and empty excluded words -/

namespace Background

theorem matchItemId_item_link (d post : List Char) (hne : d ≠ [])
    (hd : ∀ c ∈ d, JS.isDigit c = true) (hpost : ∀ c, post.head? = some c → JS.isDigit c = false) :
    matchItemId ("/marketplace/item/".toList ++ (d ++ post)) = some d := by
  have hocc : ∃ p, ItemOccurrence ("marketplace/item/".toList ++ (d ++ post)) [] d p :=
    ⟨post, rfl, hne, hd, hpost⟩
  obtain ⟨hhere, htake⟩ := (itemHere_iff _ d).mpr hocc
  have h1 : "/marketplace/item/".toList ++ (d ++ post) =
      '/' :: ("marketplace/item/".toList ++ (d ++ post)) := rfl
  have h2 : "marketplace/item/".toList ++ (d ++ post) =
      'm' :: ("arketplace/item/".toList ++ (d ++ post)) := rfl
  have hnot : ¬ itemHere ('/' :: ("marketplace/item/".toList ++ (d ++ post))) := by
    rintro ⟨hp, _⟩
    rw [h2] at hp
    simp [List.isPrefixOf] at hp
  rw [h1, matchItemId_cons, if_neg hnot]
  rw [h2] at hhere htake ⊢
  rw [matchItemId_cons, if_pos hhere, htake]

theorem extractListingId_item_link (d q : List Char) (hne : d ≠ [])
    (hd : ∀ c ∈ d, JS.isDigit c = true) :
    extractListingId ("/marketplace/item/".toList ++ d ++ "/?".toList ++ q) = d := by
  have h : "/marketplace/item/".toList ++ d ++ "/?".toList ++ q =
      "/marketplace/item/".toList ++ (d ++ ('/' :: '?' :: q)) := by
    simp [List.append_assoc]
  unfold extractListingId
  rw [h, matchItemId_item_link d ('/' :: '?' :: q) hne hd (by
    intro c hc
    simp only [List.head?_cons, Option.some.injEq] at hc
    subst hc
    decide)]

end Background

/-- C30. The listing id ignores the query string: for a non-empty string of
digits `d` and all strings `q1`, `q2` the id of "/marketplace/item/" + d + "/?" + q1
and the id of "/marketplace/item/" + d + "/?" + q2 are both `d`; so of two listings
with these links that follow each other in the loop, the second one leaves the
run as the first one left it. -/
theorem Background.extractListingId_ignores_query (d q1 q2 : List Char) (hne : d ≠ [])
    (hd : ∀ c ∈ d, JS.isDigit c = true) :
    Background.extractListingId ("/marketplace/item/".toList ++ d ++ "/?".toList ++ q1) = d ∧
    Background.extractListingId ("/marketplace/item/".toList ++ d ++ "/?".toList ++ q2) = d ∧
    (∀ (lowerCase : List Char → List Char) (settings : Background.Settings) (setOk : Nat → Bool)
      (r : Background.Run) (first second : Background.Listing),
      first.link = "/marketplace/item/".toList ++ d ++ "/?".toList ++ q1 →
      second.link = "/marketplace/item/".toList ++ d ++ "/?".toList ++ q2 →
      Background.processListing lowerCase settings setOk
          (Background.processListing lowerCase settings setOk r first) second =
        Background.processListing lowerCase settings setOk r first) := by
  have h1 := Background.extractListingId_item_link d q1 hne hd
  have h2 := Background.extractListingId_item_link d q2 hne hd
  refine ⟨h1, h2, ?_⟩
  intro lowerCase settings setOk r first second hfirst hsecond
  apply Background.processListing_of_seen
  rw [Background.processListing_seen, hfirst, hsecond, h1, h2]
  exact (JS.mem_setAdd _ _ _).mpr (Or.inr rfl)

/-- C30, at the item "123" with two query strings. -/
theorem Background.extractListingId_ignores_query_witness :
    "123".toList ≠ [] ∧ (∀ c ∈ "123".toList, JS.isDigit c = true) ∧
    Background.extractListingId "/marketplace/item/123/?ref=search".toList = "123".toList ∧
    Background.extractListingId "/marketplace/item/123/?tracking=abc".toList = "123".toList :=
  ⟨by decide, by decide,
    (Background.extractListingId_ignores_query "123".toList "ref=search".toList
      "tracking=abc".toList (by decide) (by decide)).1,
    (Background.extractListingId_ignores_query "123".toList "ref=search".toList
      "tracking=abc".toList (by decide) (by decide)).2.1⟩

/-- C29. An empty string among the excluded words excludes every title, the
empty one too, so no call of `processListings` with such settings sends a
message; with an empty or a missing list of excluded words no title is
excluded. The lower case of the empty string is the empty string. -/
theorem Background.containsExcludedWords_empty_word :
    (∀ (lowerCase : List Char → List Char) (words : List (List Char)) (title : List Char),
      lowerCase [] = [] → [] ∈ words →
      Background.containsExcludedWords lowerCase title (some words) = true) ∧
    (∀ (lowerCase : List Char → List Char) (words : List (List Char)) (getOk : Bool)
      (setOk : Nat → Bool) (listings : List Background.Listing) (keyword : List Char)
      (settings : Background.Settings) (state : Background.State) (storage : Background.Storage),
      lowerCase [] = [] → [] ∈ words → settings.excludedWords = some words →
      Background.alerts
        (Background.processListings lowerCase getOk setOk listings keyword settings state
          storage).effects = []) ∧
    (∀ (lowerCase : List Char → List Char) (title : List Char),
      Background.containsExcludedWords lowerCase title (some []) = false ∧
      Background.containsExcludedWords lowerCase title none = false) ∧
    JS.toLowerCase [] = [] := by
  have hall : ∀ (lowerCase : List Char → List Char) (words : List (List Char))
      (title : List Char), lowerCase [] = [] → [] ∈ words →
      Background.containsExcludedWords lowerCase title (some words) = true := by
    intro lowerCase words title hempty hmem
    rw [Background.containsExcludedWords_iff]
    refine ⟨words, rfl, [], hmem, ?_⟩
    rw [hempty]
    exact List.nil_infix
  refine ⟨hall, ?_, ?_, rfl⟩
  · intro lowerCase words getOk setOk listings keyword settings state storage hempty hmem hset
    rw [List.eq_nil_iff_forall_not_mem]
    intro l hl
    obtain ⟨_, hshould⟩ := Background.mem_alerts_processListings lowerCase getOk setOk listings
      keyword settings state storage l hl
    unfold Background.shouldAlert at hshould
    rw [hset, hall lowerCase words l.title hempty hmem] at hshould
    simp at hshould
  · intro lowerCase title
    exact ⟨rfl, rfl⟩

/-! ## Names that normalize to the empty string -/

theorem JS.lowerChar_no_alnum (c : Char) (hc : JS.isLowerAlnum c = false)
    (hupper : ¬ ('A' ≤ c ∧ c ≤ 'Z')) (hk : c ≠ Char.ofNat 0x212A) (hi : c ≠ Char.ofNat 0x0130) :
    (JS.lowerChar c).filter JS.isLowerAlnum = [] := by
  unfold JS.lowerChar
  rw [if_neg hupper, if_neg hk, if_neg hi]
  simp [hc]

theorem ProductChecker.normalizeTitle_no_alnum (name : List Char)
    (h : ∀ c ∈ name, JS.isLowerAlnum c = false ∧ ¬ ('A' ≤ c ∧ c ≤ 'Z') ∧
      c ≠ Char.ofNat 0x212A ∧ c ≠ Char.ofNat 0x0130) :
    ProductChecker.normalizeTitle name = [] := by
  induction name with
  | nil => rfl
  | cons c s ih =>
      obtain ⟨h1, h2, h3, h4⟩ := h c (List.mem_cons_self _ _)
      have hs := ih (fun x hx => h x (List.mem_cons_of_mem _ hx))
      unfold ProductChecker.normalizeTitle JS.toLowerCase at hs ⊢
      rw [List.flatMap_cons, List.filter_append, JS.lowerChar_no_alnum c h1 h2 h3 h4, hs]
      rfl

theorem Background.findMatchingProduct_of_exact (title : List Char) (products : List Product)
    (p : Product) (hp : p ∈ products)
    (hinc : JS.includes (Background.normalizeText title) (Background.normalizeText p.name) = true) :
    ∃ q, Background.findMatchingProduct title products = some q := by
  cases hfind : products.find? (fun product =>
      JS.includes (Background.normalizeText title) (Background.normalizeText product.name)) with
  | some q =>
      refine ⟨q, ?_⟩
      simp only [Background.findMatchingProduct, hfind]
  | none =>
      rw [List.find?_eq_none] at hfind
      exact absurd hinc (hfind p hp)

/-- C28. A product whose name normalizes to the empty string is an exact
candidate for every title: with such a product in the catalog both
`checkProduct` functions report a product for every title and price, and
`findMatchingProduct` of `background.js` returns such a product, when it is
listed first, for every title and whatever follows it. A name normalizes to
the empty string when none of its characters is an ASCII letter or digit,
KELVIN SIGN or LATIN CAPITAL LETTER I WITH DOT ABOVE. -/
theorem Background.checkProduct_empty_name (title : List Char) (products : List Product)
    (p : Product) (hp : p ∈ products) (hname : ProductChecker.normalizeTitle p.name = []) :
    ProductChecker.isCandidate title p ∧
    (∀ price, (ProductChecker.checkProduct title price products).productName ≠ none) ∧
    (∀ priceStr, (Background.checkProduct title priceStr products).productName ≠ none) ∧
    (∀ rest, Background.findMatchingProduct title (p :: rest) = some p) ∧
    (∀ rest priceStr,
      (Background.checkProduct title priceStr (p :: rest)).productName = some p.name) ∧
    (∀ name : List Char,
      (∀ c ∈ name, JS.isLowerAlnum c = false ∧ ¬ ('A' ≤ c ∧ c ≤ 'Z') ∧
        c ≠ Char.ofNat 0x212A ∧ c ≠ Char.ofNat 0x0130) →
      ProductChecker.normalizeTitle name = []) := by
  have hcand : ProductChecker.isCandidate title p := by
    unfold ProductChecker.isCandidate
    rw [hname]
    exact List.nil_infix
  have hne : ¬ products.length = 0 := by
    intro h0
    rw [List.length_eq_zero.mp h0] at hp
    exact absurd hp (List.not_mem_nil _)
  have htext : Background.normalizeText p.name = [] := hname
  have hinc : ∀ t : List Char, JS.includes t (Background.normalizeText p.name) = true := by
    intro t
    rw [htext]
    exact JS.includes_nil t
  have hfirst : ∀ rest, Background.findMatchingProduct title (p :: rest) = some p := by
    intro rest
    unfold Background.findMatchingProduct
    simp [hinc]
  refine ⟨hcand, ?_, ?_, hfirst, ?_, ProductChecker.normalizeTitle_no_alnum⟩
  · intro price
    obtain ⟨_, q, _, _, _, _, _, _, hfind⟩ := ProductChecker.exact_phase title products
      ⟨p, hp, hcand⟩
    unfold ProductChecker.checkProduct
    rw [if_neg hne, hfind]
    simp
  · intro priceStr
    obtain ⟨q, hq⟩ := Background.findMatchingProduct_of_exact title products p hp (hinc _)
    unfold Background.checkProduct
    rw [if_neg hne, hq]
    simp
  · intro rest priceStr
    unfold Background.checkProduct
    rw [if_neg (by simp), hfirst rest]

/-- C28, at the catalog of "???" and "iPhone 12" and the title "iPhone 12":
both functions report the product "???". A name in Cyrillic letters normalizes
to the empty string as well. -/
theorem Background.checkProduct_empty_name_witness :
    ProductChecker.normalizeTitle "???".toList = [] ∧
    ProductChecker.normalizeTitle "телефон".toList = [] ∧
    (ProductChecker.checkProduct "iPhone 12".toList (ProductChecker.PriceArg.text "$150".toList)
      [⟨"???".toList, 0, 50, false⟩, ⟨"iPhone 12".toList, 100, 320, true⟩]).productName =
        some "iPhone 12".toList ∧
    (Background.checkProduct "iPhone 12".toList "$150".toList
      [⟨"???".toList, 0, 50, false⟩, ⟨"iPhone 12".toList, 100, 320, true⟩]).productName =
        some "???".toList ∧
    (Background.checkProduct "Garden chair".toList "$150".toList
      [⟨"iPhone 12".toList, 100, 320, true⟩, ⟨"???".toList, 0, 50, false⟩]).productName =
        some "???".toList ∧
    (ProductChecker.checkProduct "Garden chair".toList (ProductChecker.PriceArg.text "$150".toList)
      [⟨"iPhone 12".toList, 100, 320, true⟩, ⟨"???".toList, 0, 50, false⟩]).productName =
        some "???".toList ∧
    Background.findMatchingProduct "iPhone 12".toList
      [⟨"???".toList, 0, 50, false⟩, ⟨"iPhone 12".toList, 100, 320, true⟩] =
        some ⟨"???".toList, 0, 50, false⟩ :=
  ⟨by decide, by decide, by decide, by decide, by decide, by decide,
    (Background.checkProduct_empty_name "iPhone 12".toList
      [⟨"???".toList, 0, 50, false⟩, ⟨"iPhone 12".toList, 100, 320, true⟩]
      ⟨"???".toList, 0, 50, false⟩ (by decide) (by decide)).2.2.2.1
      [⟨"iPhone 12".toList, 100, 320, true⟩]⟩

/-! ## The two `checkProduct` functions on one product -/

/-- C27. The two `checkProduct` functions classify a price text alike: when
both select the same product for a title and a catalog, and the maximum price
of that product is a non-negative integer below `2^53 - 101`, they return the
same `isGoodDeal` and the same `nearGoodDeal` for every price text. -/
theorem Background.checkProduct_flags_agree (title priceStr : List Char)
    (products : List Product) (p : Product)
    (hb : Background.findMatchingProduct title products = some p)
    (hc : ProductChecker.findProduct title products = some p)
    (h0 : 0 ≤ p.maxPrice) (hmax : p.maxPrice < 2 ^ 53 - 101) :
    (Background.checkProduct title priceStr products).isGoodDeal =
      (ProductChecker.checkProduct title (ProductChecker.PriceArg.text priceStr)
        products).isGoodDeal ∧
    (Background.checkProduct title priceStr products).nearGoodDeal =
      (ProductChecker.checkProduct title (ProductChecker.PriceArg.text priceStr)
        products).nearGoodDeal := by
  have hlen : ¬ products.length = 0 := by
    intro hz
    rw [List.length_eq_zero.mp hz] at hb
    simp [Background.findMatchingProduct] at hb
  cases hd : JS.matchDigits priceStr with
  | none =>
      have hsmall : p.maxPrice + 100 < (JS.MAX_SAFE_INTEGER : Int) := by
        unfold JS.MAX_SAFE_INTEGER
        norm_num at hmax ⊢
        omega
      obtain ⟨h1, h2⟩ := Background.checkProduct_no_digit_of_small_max title priceStr products p
        hb hd hsmall
      rw [h1, h2]
      unfold ProductChecker.checkProduct
      rw [if_neg hlen, hc]
      simp [ProductChecker.parsePrice, hd]
  | some ds =>
      unfold Background.checkProduct ProductChecker.checkProduct
      rw [if_neg hlen, if_neg hlen, hb, hc]
      simp only [Background.parsePriceOrMax, ProductChecker.parsePrice, hd]
      constructor
      · simp
      · by_cases hlt : (JS.parseInt ds : Int) < p.maxPrice
        · have hle : ¬ p.maxPrice ≤ (JS.parseInt ds : Int) := by omega
          simp [hlt, hle]
        · simp [hlt]

/-- C27, at the product "iPhone 12" with the maximum price 320 and the price
text "Free"; with the maximum price `2^53 - 101` the two functions differ on
that text. -/
theorem Background.checkProduct_flags_agree_witness :
    ((Background.checkProduct "iPhone 12".toList "Free".toList
        [⟨"iPhone 12".toList, 100, 320, true⟩]).isGoodDeal =
      (ProductChecker.checkProduct "iPhone 12".toList (ProductChecker.PriceArg.text "Free".toList)
        [⟨"iPhone 12".toList, 100, 320, true⟩]).isGoodDeal ∧
    (Background.checkProduct "iPhone 12".toList "Free".toList
        [⟨"iPhone 12".toList, 100, 320, true⟩]).nearGoodDeal =
      (ProductChecker.checkProduct "iPhone 12".toList (ProductChecker.PriceArg.text "Free".toList)
        [⟨"iPhone 12".toList, 100, 320, true⟩]).nearGoodDeal) ∧
    (Background.checkProduct "iPhone 12".toList "Free".toList
        [⟨"iPhone 12".toList, 100, 9007199254740891, true⟩]).nearGoodDeal = true ∧
    (ProductChecker.checkProduct "iPhone 12".toList (ProductChecker.PriceArg.text "Free".toList)
        [⟨"iPhone 12".toList, 100, 9007199254740891, true⟩]).nearGoodDeal = false :=
  ⟨Background.checkProduct_flags_agree "iPhone 12".toList "Free".toList
      [⟨"iPhone 12".toList, 100, 320, true⟩] ⟨"iPhone 12".toList, 100, 320, true⟩
      (by decide) (by decide) (by decide) (by decide),
    by decide, by decide⟩

/-! ## The price text -/

namespace JS

theorem matchDigits_eq_none_iff (s : List Char) :
    matchDigits s = none ↔ ∀ c ∈ s, isDigit c = false := by
  induction s with
  | nil => simp [matchDigits]
  | cons c s ih =>
      unfold matchDigits
      by_cases hc : isDigit c = true
      · simp [hc]
      · rw [if_neg hc, ih]
        simp only [Bool.not_eq_true] at hc
        simp [hc]

theorem matchDigits_run (pre ds post : List Char) (hpre : ∀ c ∈ pre, isDigit c = false)
    (hne : ds ≠ []) (hds : ∀ c ∈ ds, isDigit c = true)
    (hpost : ∀ c, post.head? = some c → isDigit c = false) :
    matchDigits (pre ++ (ds ++ post)) = some ds := by
  induction pre with
  | nil =>
      cases ds with
      | nil => exact absurd rfl hne
      | cons d rest =>
          have hd : isDigit d = true := hds d (List.mem_cons_self _ _)
          have hsplit := (Background.digits_split (d :: rest) post hds hpost).1
          rw [List.nil_append, List.cons_append] at *
          unfold matchDigits
          rw [if_pos hd, hsplit]
  | cons c pre ih =>
      have hc : ¬ isDigit c = true := by
        rw [hpre c (List.mem_cons_self _ _)]
        decide
      rw [List.cons_append]
      unfold matchDigits
      rw [if_neg hc]
      exact ih (fun x hx => hpre x (List.mem_cons_of_mem _ hx))

theorem digitsValue_append_singleton (ds : List Char) (c : Char) :
    digitsValue (ds ++ [c]) = 10 * digitsValue ds + (c.toNat - '0'.toNat) := by
  simp [digitsValue, List.foldl_append]

theorem digitsValue_eq_ofDigits (ds : List Char) :
    digitsValue ds = Nat.ofDigits 10 ((ds.map (fun c => c.toNat - '0'.toNat)).reverse) := by
  induction ds using List.reverseRecOn with
  | nil => rfl
  | append_singleton ds c ih =>
      rw [digitsValue_append_singleton, ih, List.map_append, List.reverse_append]
      simp only [List.map_cons, List.map_nil, List.reverse_cons, List.reverse_nil,
        List.nil_append, List.singleton_append, Nat.ofDigits_cons]
      push_cast
      omega

end JS

/-- C26, as stated, fails from `2^53` on. The price text "9007199254740993" is
one run of digits whose base-10 value is 9007199254740993, and `parsePrice`
returns the Number nearest to it, which is 9007199254740992. -/
theorem ProductChecker.parsePrice_rounds_counterexample :
    JS.matchDigits "9007199254740993".toList = some "9007199254740993".toList ∧
    Nat.ofDigits 10 (("9007199254740993".toList.map (fun c => c.toNat - '0'.toNat)).reverse) =
      9007199254740993 ∧
    ProductChecker.parsePrice "9007199254740993".toList = some 9007199254740992 := by
  refine ⟨by decide, ?_, by decide⟩
  rw [← JS.digitsValue_eq_ofDigits]
  decide

/-- C26, amended. The function `parsePrice` returns `null` exactly when the
price text holds no decimal digit. Otherwise the text is a part without a
digit, a non-empty run of digits and a rest that does not start with a digit,
and the result is the Number nearest to the base-10 value of that run,
whatever the rest is (for a run of at most 308 digits, whose value is in the
range of the Numbers): the value itself when it is at most `2^53`. So
`parsePrice("$1,200")` is 1, and a listing with that price text is a good deal
in both `checkProduct` functions for every matched product whose maximum price
is above 1. -/
theorem ProductChecker.parsePrice_leftmost_run :
    (∀ price : List Char,
      ProductChecker.parsePrice price = none ↔ ∀ c ∈ price, JS.isDigit c = false) ∧
    (∀ price : List Char, (∃ c ∈ price, JS.isDigit c = true) →
      ∃ pre ds post, price = pre ++ (ds ++ post) ∧ (∀ c ∈ pre, JS.isDigit c = false) ∧
        ds ≠ [] ∧ (∀ c ∈ ds, JS.isDigit c = true) ∧
        (∀ c, post.head? = some c → JS.isDigit c = false)) ∧
    (∀ pre ds post : List Char, (∀ c ∈ pre, JS.isDigit c = false) → ds ≠ [] →
      (∀ c ∈ ds, JS.isDigit c = true) → (∀ c, post.head? = some c → JS.isDigit c = false) →
      (ds.length ≤ 308 →
          ProductChecker.parsePrice (pre ++ (ds ++ post)) =
            some (JS.toNumber
              (Nat.ofDigits 10 ((ds.map (fun c => c.toNat - '0'.toNat)).reverse)))) ∧
        (Nat.ofDigits 10 ((ds.map (fun c => c.toNat - '0'.toNat)).reverse) ≤ 9007199254740992 →
          ProductChecker.parsePrice (pre ++ (ds ++ post)) =
            some (Nat.ofDigits 10 ((ds.map (fun c => c.toNat - '0'.toNat)).reverse)))) ∧
    ProductChecker.parsePrice "$1,200".toList = some 1 ∧
    (∀ (title : List Char) (products : List Product) (p : Product),
      Background.findMatchingProduct title products = some p → 1 < p.maxPrice →
      (Background.checkProduct title "$1,200".toList products).isGoodDeal = true) ∧
    (∀ (title : List Char) (products : List Product) (p : Product),
      ProductChecker.findProduct title products = some p → 1 < p.maxPrice →
      (ProductChecker.checkProduct title (ProductChecker.PriceArg.text "$1,200".toList)
        products).isGoodDeal = true) := by
  refine ⟨?_, ?_, ?_, by decide, ?_, ?_⟩
  · intro price
    unfold ProductChecker.parsePrice
    rw [← JS.matchDigits_eq_none_iff]
    cases JS.matchDigits price <;> simp
  · intro price hex
    induction price with
    | nil =>
        obtain ⟨c, hc, _⟩ := hex
        exact absurd hc (List.not_mem_nil _)
    | cons c s ih =>
        by_cases hc : JS.isDigit c = true
        · refine ⟨[], (c :: s).takeWhile JS.isDigit, (c :: s).dropWhile JS.isDigit, ?_, ?_, ?_,
            ?_, ?_⟩
          · rw [List.nil_append, List.takeWhile_append_dropWhile]
          · intro x hx
            exact absurd hx (List.not_mem_nil _)
          · rw [List.takeWhile_cons_of_pos hc]
            exact List.cons_ne_nil _ _
          · intro x hx
            exact List.mem_takeWhile_imp hx
          · exact fun x hx => Background.head_dropWhile_isDigit (c :: s) x hx
        · have hex2 : ∃ x ∈ s, JS.isDigit x = true := by
            obtain ⟨x, hx, hdx⟩ := hex
            rcases List.mem_cons.mp hx with rfl | hx
            · exact absurd hdx hc
            · exact ⟨x, hx, hdx⟩
          obtain ⟨pre, ds, post, hs, hpre, hne, hds, hpost⟩ := ih hex2
          refine ⟨c :: pre, ds, post, ?_, ?_, hne, hds, hpost⟩
          · rw [hs, List.cons_append]
          · intro x hx
            rcases List.mem_cons.mp hx with rfl | hx
            · simpa using hc
            · exact hpre x hx
  · intro pre ds post hpre hne hds hpost
    have hval : ProductChecker.parsePrice (pre ++ (ds ++ post)) =
        some (JS.toNumber
          (Nat.ofDigits 10 ((ds.map (fun c => c.toNat - '0'.toNat)).reverse))) := by
      unfold ProductChecker.parsePrice
      rw [JS.matchDigits_run pre ds post hpre hne hds hpost, Option.map_some', JS.parseInt,
        JS.digitsValue_eq_ofDigits]
    refine ⟨fun _ => hval, ?_⟩
    intro hle
    rw [hval, JS.toNumber_of_le _ hle]
  · intro title products p hfind hmax
    have hlen : ¬ products.length = 0 := by
      intro hz
      rw [List.length_eq_zero.mp hz] at hfind
      simp [Background.findMatchingProduct] at hfind
    have hprice : Background.parsePriceOrMax "$1,200".toList = 1 := by decide
    unfold Background.checkProduct
    rw [if_neg hlen, hfind, hprice]
    simpa using hmax
  · intro title products p hfind hmax
    have hlen : ¬ products.length = 0 := by
      intro hz
      rw [List.length_eq_zero.mp hz] at hfind
      simp [ProductChecker.findProduct, ProductChecker.matchTitleToProducts] at hfind
    have hprice : ProductChecker.parsePrice "$1,200".toList = some 1 := by decide
    unfold ProductChecker.checkProduct
    rw [if_neg hlen, hfind]
    simp only [hprice]
    simpa using hmax

/-! ## A stop during a batch, failing writes, and the reset of the popup -/

namespace Background

theorem processListing_stop (lowerCase : List Char → List Char) (settings : Settings)
    (setOk : Nat → Bool) (r : Run) (l : Listing) :
    processListing lowerCase settings setOk r.stop l =
        (processListing lowerCase settings setOk r l).stop := by
  simp only [processListing, Run.stop, stopMonitoring, Run.storageSet]
  split
  · rfl
  · split
    · rfl
    · split <;> rfl

theorem processLoop_stop (lowerCase : List Char → List Char) (settings : Settings)
    (setOk : Nat → Bool) (ls : List Listing) (r : Run) :
    processLoop lowerCase settings setOk ls r.stop =
        (processLoop lowerCase settings setOk ls r).stop := by
  induction ls generalizing r with
  | nil => rfl
  | cons l ls ih =>
      have h : ∀ x : Run, processLoop lowerCase settings setOk (l :: ls) x =
          processLoop lowerCase settings setOk ls (processListing lowerCase settings setOk x l) :=
              fun _ => rfl
      rw [h, h, processListing_stop, ih]

theorem processLoop_append (lowerCase : List Char → List Char) (settings : Settings)
    (setOk : Nat → Bool) (xs ys : List Listing)
    (r : Run) :
    processLoop lowerCase settings setOk (xs ++ ys) r =
      processLoop lowerCase settings setOk ys (processLoop lowerCase settings setOk xs r) := by
  simp [processLoop, List.foldl_append]

theorem processListings_longBatch_seen_failed (lowerCase : List Char → List Char) (getOk : Bool)
    (setOk : Nat → Bool)
    (hfail : ∀ n, setOk n = false) (settings : Settings) (kw : List Char) :
    (processListings lowerCase getOk setOk (warrantyListing :: longBatch) kw settings
      ⟨true, [], false, [kw]⟩ ⟨none, none, none⟩).state.seenListings = ['w'] :: xIds 5000 := by
  have hk : kw ∈ (⟨true, [], false, [kw]⟩ : State).firstRunKeywords := List.mem_singleton.mpr rfl
  obtain ⟨_, _, hseen⟩ := processListings_of_completed lowerCase getOk setOk
    (warrantyListing :: longBatch) kw settings ⟨true, [], false, [kw]⟩ ⟨none, none, none⟩ hk
  have hrefresh : (refreshSeen getOk ⟨true, [], false, [kw]⟩ ⟨none, none, none⟩).seenListings
      = [] := by
    cases getOk <;> rfl
  have hloop : (processLoop lowerCase settings setOk (warrantyListing :: longBatch)
      { state := refreshSeen getOk ⟨true, [], false, [kw]⟩ ⟨none, none, none⟩,
        storage := ⟨none, none, none⟩, setCalls := 0, effects := [] }).state.seenListings =
      ['w'] :: xIds 5000 := by
    rw [processLoop_seen, listingIds_warranty_longBatch]
    show JS.setAddAll (refreshSeen getOk ⟨true, [], false, [kw]⟩ ⟨none, none, none⟩).seenListings
      _ = _
    rw [hrefresh, JS.setAddAll_of_nodup _ _ (by rw [List.nil_append]; exact w_xIds_nodup 5000),
      List.nil_append]
  rw [hseen, finalSave_seen, if_neg (by rw [hfail]; simp), hloop]

theorem processListings_completed_threw (lowerCase : List Char → List Char) (getOk : Bool)
    (setOk : Nat → Bool)
    (listings : List Listing) (keyword : List Char) (settings : Settings) (state : State)
    (storage : Storage) (hk : keyword ∈ state.firstRunKeywords) :
    (processListings lowerCase getOk setOk listings keyword settings state storage).threw =
        false := by
  have hk1 : keyword ∈ (refreshSeen getOk state storage).firstRunKeywords := by
    rw [refreshSeen_keywords]; exact hk
  unfold processListings
  simp only [hk1, decide_True, Bool.not_true, Bool.false_eq_true, if_false]

end Background

/-- C22. A stop during a batch does not end the batch. The loop of
`processListings` never reads `state.isMonitoring` : a loop that the handler
of `stopMonitoring` interrupts ends in the run that the uninterrupted loop
over the whole batch ends in, but for the cleared flag. In the batch with the
ids "a" and "b", with the stop during the iteration of "a", the listing "b" is
still processed: its id is added to the seen set and written to storage, and
its message is sent. -/
theorem Background.processLoop_ignores_stop :
    (∀ (lowerCase : List Char → List Char) (settings : Background.Settings) (setOk : Nat → Bool)
      (before after : List Background.Listing) (r : Background.Run),
      Background.processLoopStopped lowerCase settings setOk before after r =
        (Background.processLoop lowerCase settings setOk (before ++ after) r).stop) ∧
    (Background.processLoopStopped JS.toLowerCase Background.plainSettings (fun _ => true)
        [⟨"a".toList, "$150".toList, "iPhone 12".toList⟩]
        [⟨"b".toList, "$150".toList, "iPhone 12".toList⟩]
        ⟨⟨true, [], false, ["iPhone".toList]⟩, ⟨none, none, none⟩, 0, []⟩).state =
      ⟨false, [['a'], ['b']], false, ["iPhone".toList]⟩ ∧
    (Background.processLoop JS.toLowerCase Background.plainSettings (fun _ => true)
        [⟨"a".toList, "$150".toList, "iPhone 12".toList⟩]
        ⟨⟨true, [], false, ["iPhone".toList]⟩, ⟨none, none, none⟩, 0, []⟩).state.seenListings =
      [['a']] ∧
    Background.alerts (Background.processLoopStopped JS.toLowerCase Background.plainSettings
        (fun _ => true)
        [⟨"a".toList, "$150".toList, "iPhone 12".toList⟩]
        [⟨"b".toList, "$150".toList, "iPhone 12".toList⟩]
        ⟨⟨true, [], false, ["iPhone".toList]⟩, ⟨none, none, none⟩, 0, []⟩).effects =
      [⟨"a".toList, "$150".toList, "iPhone 12".toList⟩,
       ⟨"b".toList, "$150".toList, "iPhone 12".toList⟩] ∧
    (Background.processLoopStopped JS.toLowerCase Background.plainSettings (fun _ => true)
        [⟨"a".toList, "$150".toList, "iPhone 12".toList⟩]
        [⟨"b".toList, "$150".toList, "iPhone 12".toList⟩]
        ⟨⟨true, [], false, ["iPhone".toList]⟩, ⟨none, none, none⟩, 0, []⟩).storage.seenListings =
      some [['a'], ['b']] := by
  refine ⟨?_, by decide, by decide, by decide, by decide⟩
  intro lowerCase settings setOk before after r
  unfold Background.processLoopStopped
  rw [Background.processLoop_stop, Background.processLoop_append]

/-- C23. A write that throws can end the call. On the first run of the keyword
"iPhone" with the batch of the ids "a" and "b", a first `set` that throws ends
`processListings` by the exception: the second `set` is not made and nothing
is stored; the same holds when only the second `set` throws. On the other path
the call never ends by an exception and sends the same messages whatever the
writes do, but a throw of the save at the end of the batch skips the trim:
after the batch of 5001 new ids the seen set holds 5001 ids when the writes
throw and 5000 when they succeed. -/
theorem Background.processListings_set_failure :
    Background.processListings JS.toLowerCase true (fun _ => false) Background.twoListings
        "iPhone".toList
        Background.plainSettings ⟨true, [], true, []⟩ ⟨none, none, none⟩ =
      ⟨⟨true, [['a'], ['b']], true, ["iPhone".toList]⟩, ⟨none, none, none⟩,
        [Background.Effect.storageSet
          (Background.SetRequest.firstRunStatus false ["iPhone".toList]) false], true⟩ ∧
    (Background.processListings JS.toLowerCase true (fun n => decide (n = 0)) Background.twoListings
        "iPhone".toList Background.plainSettings ⟨true, [], true, []⟩
        ⟨none, none, none⟩).threw = true ∧
    (Background.processListings JS.toLowerCase true (fun _ => true) Background.twoListings
        "iPhone".toList
        Background.plainSettings ⟨true, [], true, []⟩ ⟨none, none, none⟩).threw = false ∧
    (∀ (lowerCase : List Char → List Char) (getOk : Bool) (setOk other : Nat → Bool)
      (listings : List Background.Listing) (keyword : List Char) (settings : Background.Settings)
      (state : Background.State) (storage : Background.Storage),
      keyword ∈ state.firstRunKeywords →
      (Background.processListings lowerCase getOk setOk listings keyword settings state
        storage).threw = false ∧
      Background.alerts
        (Background.processListings lowerCase getOk setOk listings keyword settings state
          storage).effects =
      Background.alerts
        (Background.processListings lowerCase getOk other listings keyword settings state
          storage).effects) ∧
    (Background.processListings JS.toLowerCase true (fun _ => false)
        (Background.warrantyListing :: Background.longBatch) "iPhone".toList
        Background.plainSettings ⟨true, [], false, ["iPhone".toList]⟩
        ⟨none, none, none⟩).state.seenListings = ['w'] :: Background.xIds 5000 ∧
    (Background.processListings JS.toLowerCase true (fun _ => true)
        (Background.warrantyListing :: Background.longBatch) "iPhone".toList
        Background.plainSettings ⟨true, [], false, ["iPhone".toList]⟩
        ⟨none, none, none⟩).state.seenListings = Background.xIds 5000 := by
  refine ⟨by decide, by decide, by decide, ?_, ?_, ?_⟩
  · intro lowerCase getOk setOk other listings keyword settings state storage hk
    refine ⟨Background.processListings_completed_threw lowerCase getOk setOk listings keyword
      settings state storage hk, ?_⟩
    rw [(Background.processListings_of_completed lowerCase getOk setOk listings keyword settings
        state storage hk).1,
      (Background.processListings_of_completed lowerCase getOk other listings keyword settings
        state storage hk).1]
  · exact Background.processListings_longBatch_seen_failed JS.toLowerCase true _ (fun _ => rfl) _ _
  · exact Background.processListings_longBatch_seen JS.toLowerCase true _ (fun _ => rfl) _ _

/-- C24. The reset of the popup does not reach the running background process.
The keyword "iPhone" has completed its first run; the button "Reset First Run"
writes `firstRun: true` and `firstRunKeywords: []` to storage and leaves the
global `state` as it is, so the next call of `processListings` for "iPhone"
does not take the baseline path: it sends a message for both listings of the
batch with the ids "a" and "b". The same call from a state without the
keyword sends none. -/
theorem Background.popup_reset_not_applied :
    Background.popupResetFirstRun ⟨true, [], false, ["iPhone".toList]⟩
        ⟨some [], some false, some ["iPhone".toList]⟩ =
      (⟨true, [], false, ["iPhone".toList]⟩, ⟨some [], some true, some []⟩) ∧
    Background.alerts (Background.processListings JS.toLowerCase true (fun _ => true)
        Background.twoListings
        "iPhone".toList Background.plainSettings
        (Background.popupResetFirstRun ⟨true, [], false, ["iPhone".toList]⟩
          ⟨some [], some false, some ["iPhone".toList]⟩).1
        (Background.popupResetFirstRun ⟨true, [], false, ["iPhone".toList]⟩
          ⟨some [], some false, some ["iPhone".toList]⟩).2).effects =
      Background.twoListings ∧
    Background.alerts (Background.processListings JS.toLowerCase true (fun _ => true)
        Background.twoListings
        "iPhone".toList Background.plainSettings ⟨true, [], true, []⟩
        ⟨some [], some true, some []⟩).effects = [] ∧
    (∀ (lowerCase : List Char → List Char) (getOk : Bool) (setOk : Nat → Bool)
      (listings : List Background.Listing) (keyword : List Char) (settings : Background.Settings)
      (state : Background.State) (storage : Background.Storage),
      keyword ∈ state.firstRunKeywords →
      Background.alerts (Background.processListings lowerCase getOk setOk listings keyword settings
        (Background.popupResetFirstRun state storage).1
        (Background.popupResetFirstRun state storage).2).effects =
      Background.loopAlerts lowerCase settings listings
        (Background.refreshSeen getOk state storage).seenListings) := by
  refine ⟨by decide, by decide, by decide, ?_⟩
  intro lowerCase getOk setOk listings keyword settings state storage hk
  show Background.alerts (Background.processListings lowerCase getOk setOk listings keyword settings
    state (storage.write (Background.SetRequest.firstRunStatus true []))).effects = _
  rw [(Background.processListings_of_completed lowerCase getOk setOk listings keyword settings
    state _ hk).1]
  rfl

/-! ## The edit distance -/

namespace ProductChecker

theorem editDistance_nil_left (b : List Char) : editDistance [] b = b.length := by
  rw [editDistance]

theorem editDistance_nil_right (a : List Char) : editDistance a [] = a.length := by
  cases a with
  | nil => rw [editDistance]
  | cons x a => rw [editDistance]

theorem editDistance_cons_cons (x : Char) (a : List Char) (y : Char) (b : List Char) :
    editDistance (x :: a) (y :: b) =
      min (editDistance a (y :: b) + 1)
        (min (editDistance (x :: a) b + 1) (editDistance a b + substCost x y)) := by
  rw [editDistance]

theorem substCost_le (x y : Char) : substCost x y ≤ 1 := by
  unfold substCost
  split <;> omega

theorem substCost_comm (x y : Char) : substCost x y = substCost y x := by
  unfold substCost
  by_cases h : x = y
  · rw [if_pos h, if_pos h.symm]
  · rw [if_neg h, if_neg (fun h2 => h h2.symm)]

/-! ### The matrix holds the distances of the parts read backwards -/

theorem rowFrom_head (bdone pre as : List Char) :
    rowFrom bdone pre as = editDistance pre.reverse bdone :: (rowFrom bdone pre as).tail := by
  cases as <;> rfl

theorem fillRow_rowFrom (bc : Char) (bdone as pre : List Char) :
    fillRow bc as (rowFrom bdone pre as) (editDistance pre.reverse (bc :: bdone)) =
      (rowFrom (bc :: bdone) pre as).tail := by
  induction as generalizing pre with
  | nil => rfl
  | cons x as ih =>
      have h1 : rowFrom bdone pre (x :: as) =
          editDistance pre.reverse bdone ::
            editDistance (pre ++ [x]).reverse bdone :: (rowFrom bdone (pre ++ [x]) as).tail := by
        rw [← rowFrom_head]
        rfl
      have h2 : (rowFrom (bc :: bdone) pre (x :: as)).tail =
          editDistance (pre ++ [x]).reverse (bc :: bdone) ::
            (rowFrom (bc :: bdone) (pre ++ [x]) as).tail := by
        rw [← rowFrom_head]
        rfl
      have hv : min (editDistance (pre ++ [x]).reverse bdone + 1)
          (min (editDistance pre.reverse (bc :: bdone) + 1)
            (editDistance pre.reverse bdone + (if x = bc then 0 else 1))) =
          editDistance (pre ++ [x]).reverse (bc :: bdone) := by
        rw [List.reverse_append, List.reverse_singleton, List.singleton_append,
          editDistance_cons_cons]
        unfold substCost
        omega
      rw [h1, h2]
      simp only [fillRow]
      rw [hv, ← rowFrom_head bdone (pre ++ [x]) as, ih (pre ++ [x])]

theorem rowFrom_nil (pre as : List Char) :
    rowFrom [] pre as = (List.range (as.length + 1)).map (fun k => k + pre.length) := by
  induction as generalizing pre with
  | nil => simp [rowFrom, editDistance_nil_right, List.range_succ]
  | cons x as ih =>
      rw [rowFrom, ih, List.length_cons, List.range_succ_eq_map (as.length + 1)]
      simp only [List.map_cons, List.map_map, editDistance_nil_right, List.length_reverse,
        List.length_append, List.length_singleton, Nat.zero_add]
      congr 1
      apply List.map_congr_left
      intro k _
      simp only [Function.comp]
      omega

theorem rowFrom_getLast? (bdone pre as : List Char) :
    (rowFrom bdone pre as).getLast? = some (editDistance (pre ++ as).reverse bdone) := by
  induction as generalizing pre with
  | nil => simp [rowFrom]
  | cons x as ih =>
      rw [rowFrom, rowFrom_head bdone (pre ++ [x]) as, List.getLast?_cons_cons,
        ← rowFrom_head, ih]
      simp

theorem fillRows_rowFrom (a bs bdone : List Char) :
    fillRows a bs bdone.length (rowFrom bdone [] a) = rowFrom (bs.reverse ++ bdone) [] a := by
  induction bs generalizing bdone with
  | nil => rfl
  | cons bc bs ih =>
      have hleft : bdone.length + 1 = editDistance ([] : List Char).reverse (bc :: bdone) := by
        rw [List.reverse_nil, editDistance_nil_left, List.length_cons]
      have hrow : (bdone.length + 1) :: fillRow bc a (rowFrom bdone [] a) (bdone.length + 1) =
          rowFrom (bc :: bdone) [] a := by
        rw [rowFrom_head (bc :: bdone) [] a, ← fillRow_rowFrom, ← hleft]
      rw [fillRows, hrow]
      have := ih (bc :: bdone)
      rw [List.length_cons] at this
      rw [this]
      simp

theorem levenshteinDistance_eq_reverse (a b : List Char) :
    levenshteinDistance a b = editDistance a.reverse b.reverse := by
  unfold levenshteinDistance
  split
  · rename_i h
    rw [List.length_eq_zero.mp h, List.reverse_nil, editDistance_nil_left, List.length_reverse]
  · split
    · rename_i h
      rw [List.length_eq_zero.mp h, List.reverse_nil, editDistance_nil_right, List.length_reverse]
    · have hinit : List.range (a.length + 1) = rowFrom [] [] a := by
        rw [rowFrom_nil]
        simp
      have := fillRows_rowFrom a b []
      rw [List.length_nil, List.append_nil] at this
      rw [hinit, this, rowFrom_getLast?]
      simp

/-! ### Single edits -/

theorem editStep_cons (c : Char) (a m : List Char) (h : EditStep a m) :
    EditStep (c :: a) (c :: m) := by
  cases h with
  | insertion u v d => exact EditStep.insertion (c :: u) v d
  | deletion u v d => exact EditStep.deletion (c :: u) v d
  | substitution u v d e => exact EditStep.substitution (c :: u) v d e

theorem editsIn_cons (c : Char) (n : Nat) (a b : List Char) (h : EditsIn n a b) :
    EditsIn n (c :: a) (c :: b) := by
  induction h with
  | done a => exact EditsIn.done _
  | step n a m b hstep _ ih => exact EditsIn.step n _ _ _ (editStep_cons c a m hstep) ih

theorem editsIn_insertions (b : List Char) : EditsIn b.length [] b := by
  induction b with
  | nil => exact EditsIn.done _
  | cons y b ih =>
      exact EditsIn.step _ _ _ _ (EditStep.insertion [] [] y) (editsIn_cons y _ _ _ ih)

theorem editsIn_deletions (a : List Char) : EditsIn a.length a [] := by
  induction a with
  | nil => exact EditsIn.done _
  | cons x a ih => exact EditsIn.step _ _ _ _ (EditStep.deletion [] a x) ih

/-- The distance of the recursive definition is reached by a sequence of edits. -/
theorem editsIn_editDistance (a b : List Char) : EditsIn (editDistance a b) a b := by
  induction a generalizing b with
  | nil =>
      rw [editDistance_nil_left]
      exact editsIn_insertions b
  | cons x a iha =>
      induction b with
      | nil =>
          rw [editDistance_nil_right]
          exact editsIn_deletions (x :: a)
      | cons y b ihb =>
          rw [editDistance_cons_cons]
          rcases min_choice (editDistance a (y :: b) + 1)
            (min (editDistance (x :: a) b + 1) (editDistance a b + substCost x y)) with h | h
          · rw [h]
            exact EditsIn.step _ _ _ _ (EditStep.deletion [] a x) (iha (y :: b))
          · rw [h]
            rcases min_choice (editDistance (x :: a) b + 1) (editDistance a b + substCost x y)
              with h2 | h2
            · rw [h2]
              exact EditsIn.step _ _ _ _ (EditStep.insertion [] (x :: a) y)
                (editsIn_cons y _ _ _ ihb)
            · rw [h2]
              by_cases hxy : x = y
              · subst hxy
                simp only [substCost, if_true, Nat.add_zero]
                exact editsIn_cons x _ _ _ (iha b)
              · simp only [substCost, if_neg hxy]
                exact EditsIn.step _ _ _ _ (EditStep.substitution [] a x y)
                  (editsIn_cons y _ _ _ (iha b))

theorem editDistance_cons_left_le (c : Char) (v b : List Char) :
    editDistance (c :: v) b ≤ editDistance v b + 1 := by
  cases b with
  | nil => simp [editDistance_nil_right]
  | cons y b =>
      rw [editDistance_cons_cons]
      omega

theorem editDistance_cons_right_le (a : List Char) (y : Char) (b : List Char) :
    editDistance a (y :: b) ≤ editDistance a b + 1 := by
  cases a with
  | nil => simp [editDistance_nil_left]
  | cons x a =>
      rw [editDistance_cons_cons]
      omega

theorem editDistance_le_cons_left (c : Char) (v b : List Char) :
    editDistance v b ≤ editDistance (c :: v) b + 1 := by
  induction b with
  | nil =>
      rw [editDistance_nil_right, editDistance_nil_right, List.length_cons]
      omega
  | cons y b ih =>
      rw [editDistance_cons_cons]
      have h1 := editDistance_cons_right_le v y b
      omega

theorem editDistance_subst_le (c d : Char) (v b : List Char) :
    editDistance (d :: v) b ≤ editDistance (c :: v) b + 1 := by
  induction b with
  | nil => simp [editDistance_nil_right]
  | cons y b ih =>
      rw [editDistance_cons_cons c, editDistance_cons_cons d]
      have h1 := substCost_le d y
      omega

theorem editDistance_lift (x : Char) (s t : List Char)
    (h : ∀ b, editDistance s b ≤ editDistance t b + 1) (b : List Char) :
    editDistance (x :: s) b ≤ editDistance (x :: t) b + 1 := by
  induction b with
  | nil =>
      have := h []
      rw [editDistance_nil_right, editDistance_nil_right] at this
      simp only [editDistance_nil_right, List.length_cons]
      omega
  | cons y b ih =>
      rw [editDistance_cons_cons x s, editDistance_cons_cons x t]
      have h1 := h (y :: b)
      have h2 := h b
      omega

theorem editDistance_step_le (a m : List Char) (h : EditStep a m) (b : List Char) :
    editDistance a b ≤ editDistance m b + 1 := by
  cases h with
  | insertion u v c =>
      induction u generalizing b with
      | nil => exact editDistance_le_cons_left c v b
      | cons x u ih => exact editDistance_lift x _ _ (fun b => ih b) b
  | deletion u v c =>
      induction u generalizing b with
      | nil => exact editDistance_cons_left_le c v b
      | cons x u ih => exact editDistance_lift x _ _ (fun b => ih b) b
  | substitution u v c d =>
      induction u generalizing b with
      | nil => exact editDistance_subst_le d c v b
      | cons x u ih => exact editDistance_lift x _ _ (fun b => ih b) b

theorem editDistance_self (a : List Char) : editDistance a a = 0 := by
  induction a with
  | nil => rw [editDistance_nil_left]; rfl
  | cons x a ih =>
      rw [editDistance_cons_cons, ih]
      simp [substCost]

/-- No sequence of edits is shorter than the distance of the recursive
definition. -/
theorem editDistance_le_of_editsIn (n : Nat) (a b : List Char) (h : EditsIn n a b) :
    editDistance a b ≤ n := by
  induction h with
  | done a => rw [editDistance_self]
  | step n a m b hstep _ ih =>
      have := editDistance_step_le a m hstep b
      omega

theorem editStep_reverse (a m : List Char) (h : EditStep a m) :
    EditStep a.reverse m.reverse := by
  cases h with
  | insertion u v c =>
      have := EditStep.insertion v.reverse u.reverse c
      simpa using this
  | deletion u v c =>
      have := EditStep.deletion v.reverse u.reverse c
      simpa using this
  | substitution u v c d =>
      have := EditStep.substitution v.reverse u.reverse c d
      simpa using this

theorem editsIn_reverse (n : Nat) (a b : List Char) (h : EditsIn n a b) :
    EditsIn n a.reverse b.reverse := by
  induction h with
  | done a => exact EditsIn.done _
  | step n a m b hstep _ ih => exact EditsIn.step n _ _ _ (editStep_reverse a m hstep) ih

theorem editDistance_reverse (a b : List Char) :
    editDistance a.reverse b.reverse = editDistance a b := by
  apply Nat.le_antisymm
  · exact editDistance_le_of_editsIn _ _ _ (editsIn_reverse _ _ _ (editsIn_editDistance a b))
  · have := editDistance_le_of_editsIn _ _ _
      (editsIn_reverse _ _ _ (editsIn_editDistance a.reverse b.reverse))
    rwa [List.reverse_reverse, List.reverse_reverse] at this

theorem editDistance_comm (a b : List Char) : editDistance a b = editDistance b a := by
  induction a generalizing b with
  | nil => rw [editDistance_nil_left, editDistance_nil_right]
  | cons x a iha =>
      induction b with
      | nil => rw [editDistance_nil_left, editDistance_nil_right]
      | cons y b ihb =>
          rw [editDistance_cons_cons x a y b, editDistance_cons_cons y b x a, iha (y :: b),
            ihb, iha b, substCost_comm x y]
          omega

theorem editDistance_eq_zero_iff (a b : List Char) : editDistance a b = 0 ↔ a = b := by
  constructor
  · intro h
    have := editsIn_editDistance a b
    rw [h] at this
    cases this
    rfl
  · rintro rfl
    exact editDistance_self a

theorem levenshteinDistance_eq_editDistance (a b : List Char) :
    levenshteinDistance a b = editDistance a b := by
  rw [levenshteinDistance_eq_reverse, editDistance_reverse]

theorem editDistance_eq_levenshtein (a b : List Char) :
    editDistance a b = levenshtein Levenshtein.defaultCost a b := by
  induction a generalizing b with
  | nil =>
      induction b with
      | nil => simp [editDistance_nil_left]
      | cons y b ih =>
          rw [editDistance_nil_left] at ih ⊢
          rw [levenshtein_nil_cons, ← ih]
          simp only [Levenshtein.defaultCost, List.length_cons]
          omega
  | cons x a iha =>
      induction b with
      | nil =>
          have := iha []
          rw [editDistance_nil_right] at this ⊢
          rw [levenshtein_cons_nil, ← this]
          simp only [Levenshtein.defaultCost, List.length_cons]
          omega
      | cons y b ihb =>
          rw [editDistance_cons_cons, levenshtein_cons_cons, ← iha (y :: b), ← ihb, ← iha b]
          simp only [Levenshtein.defaultCost, substCost]
          omega

end ProductChecker

/-- C25. The function `levenshteinDistance` returns the edit distance: its value
is that of the standard recursive definition (and of `levenshtein` with the
default costs); that many single-character insertions, deletions and
substitutions turn `a` into `b`, and no sequence of such edits that turns `a`
into `b` is shorter. It is 0 exactly when `a = b`, and it is symmetric in `a`
and `b`. -/
theorem ProductChecker.levenshteinDistance_edit_distance (a b : List Char) :
    ProductChecker.levenshteinDistance a b = ProductChecker.editDistance a b ∧
    ProductChecker.levenshteinDistance a b = levenshtein Levenshtein.defaultCost a b ∧
    ProductChecker.EditsIn (ProductChecker.levenshteinDistance a b) a b ∧
    (∀ n, ProductChecker.EditsIn n a b → ProductChecker.levenshteinDistance a b ≤ n) ∧
    (ProductChecker.levenshteinDistance a b = 0 ↔ a = b) ∧
    ProductChecker.levenshteinDistance a b = ProductChecker.levenshteinDistance b a := by
  rw [ProductChecker.levenshteinDistance_eq_editDistance a b,
    ProductChecker.levenshteinDistance_eq_editDistance b a]
  exact ⟨rfl, ProductChecker.editDistance_eq_levenshtein a b,
    ProductChecker.editsIn_editDistance a b,
    fun n h => ProductChecker.editDistance_le_of_editsIn n a b h,
    ProductChecker.editDistance_eq_zero_iff a b, ProductChecker.editDistance_comm a b⟩

/-- C12. A save that throws skips the trim. A non-first-run batch of 5001
listings with new ids, "w" then "x", "xx", and so on, from an empty seen set:
when the writes to storage throw, the batch ends with all 5001 ids in the seen
set, the id "w" among them; when they succeed it ends with the last 5000. -/
theorem Background.trim_skipped_when_save_throws :
    (Background.processListings JS.toLowerCase true (fun _ => false)
        (Background.warrantyListing :: Background.longBatch) "iPhone".toList
        Background.plainSettings ⟨true, [], false, ["iPhone".toList]⟩
        ⟨none, none, none⟩).state.seenListings = ['w'] :: Background.xIds 5000 ∧
    (['w'] :: Background.xIds 5000).length = 5001 ∧
    (Background.processListings JS.toLowerCase true (fun _ => false)
        (Background.warrantyListing :: Background.longBatch) "iPhone".toList
        Background.plainSettings ⟨true, [], false, ["iPhone".toList]⟩
        ⟨none, none, none⟩).threw = false ∧
    (Background.processListings JS.toLowerCase true (fun _ => true)
        (Background.warrantyListing :: Background.longBatch) "iPhone".toList
        Background.plainSettings ⟨true, [], false, ["iPhone".toList]⟩
        ⟨none, none, none⟩).state.seenListings = Background.xIds 5000 ∧
    (Background.xIds 5000).length = 5000 := by
  refine ⟨?_, ?_, ?_, ?_, Background.xIds_length 5000⟩
  · exact Background.processListings_longBatch_seen_failed JS.toLowerCase true _ (fun _ => rfl) _ _
  · rw [List.length_cons, Background.xIds_length]
  · exact Background.processListings_completed_threw JS.toLowerCase true _ _ _ _ _ _
        (List.mem_singleton.mpr rfl)
  · exact Background.processListings_longBatch_seen JS.toLowerCase true _ (fun _ => rfl) _ _
